import Mathlib

/-! # instill: installation / removal engine

A shallow embedding of `instill.go` and `agents.go`.

Conventions of the embedding

* A Go `string` (and a `[]byte` holding text) is the list of runes it decodes
  to (`Str`).  Both `strings.Map` and the `regexp` engine decode an invalid
  byte to U+FFFD, so the rune view determines what `sanitizeName` returns.
* Go `error` results are `Except Err _`.
* A Go `map` is an association list with distinct keys; where the source
  ranges over a map the visiting order is a parameter of the model.
* The operating system is Unix: separator `/`, no volume names; the file
  system has no symbolic links and no permission failures.
-/

namespace Instill

/-- A Go string, as the list of its runes. -/
abbrev Str := List Char

/-! ## Library primitives: package strings -/

/-- Go `unicode.ToLower`: ASCII is handled by an explicit test, every other
rune goes through the Unicode case table `tbl` (`unicode.To(LowerCase, r)`),
which is a parameter of the model. -/
def toLowerRune (tbl : Char → Char) (c : Char) : Char :=
  if c.toNat ≤ 127 then
    if 65 ≤ c.toNat ∧ c.toNat ≤ 90 then Char.ofNat (c.toNat + 32) else c
  else tbl c

/-- Go `strings.ToLower`. -/
def toLower (tbl : Char → Char) (s : Str) : Str :=
  s.map (toLowerRune tbl)

/-- The character class `[a-z0-9._-]` of the regular expression `unsafeChars`
(code points: a-z are 97..122, 0-9 are 48..57, `.` 46, `_` 95, `-` 45). -/
def isAllowed (c : Char) : Bool :=
  (97 ≤ c.toNat && c.toNat ≤ 122) || (48 ≤ c.toNat && c.toNat ≤ 57) ||
    c.toNat = 46 || c.toNat = 95 || c.toNat = 45

/-- Worker of `replaceUnsafe`; `inRun` tells that the previous rune belonged
to a match of `[^a-z0-9._-]+` whose replacement has already been emitted. -/
def replaceUnsafeAux : Bool → Str → Str
  | _, [] => []
  | inRun, c :: cs =>
    if isAllowed c then c :: replaceUnsafeAux false cs
    else if inRun then replaceUnsafeAux true cs
    else '-' :: replaceUnsafeAux true cs

/-- The call `unsafeChars.ReplaceAllString(s, "-")` with
`unsafeChars = [^a-z0-9._-]+`: every maximal run of runes outside the class
becomes one `-`. -/
def replaceUnsafe (s : Str) : Str :=
  replaceUnsafeAux false s

/-- Go `strings.Trim(s, cutset)`: leading and trailing runes of `cutset` are
removed. -/
def trim (cutset : Str) (s : Str) : Str :=
  (s.dropWhile (fun c => decide (c ∈ cutset))).rdropWhile (fun c => decide (c ∈ cutset))

/-- Number of bytes of the UTF-8 encoding, Go `len(s)`. -/
def utf8Len (s : Str) : Nat :=
  (s.map Char.utf8Size).sum

/-! ## Name sanitizer -/

/-- Source `sanitizeName`.  At the length test `s` consists of ASCII runes
only, so `len(s)` is the number of runes and `s[:255]` keeps 255 of them. -/
def sanitizeName (tbl : Char → Char) (name : Str) : Str :=
  let s := replaceUnsafe (toLower tbl name)
  let s := trim ".-".toList s
  if s = [] then "unnamed-skill".toList
  else if s.length > 255 then s.take 255
  else s

/-! ## Errors -/

/-- The error values of the package.  Messages are not modelled, only which
failure occurred. -/
inductive Err
  /-- "instill: no agents specified" -/
  | noAgents
  /-- "instill: skill name required" -/
  | nameRequired
  /-- "instill: no SKILL.md found in provided filesystem" -/
  | noSkill
  /-- "instill: unknown agent %q" -/
  | unknownAgent (name : Str)
  /-- "missing frontmatter (must start with ---)" -/
  | missingFrontmatter
  /-- "malformed frontmatter: missing closing ---" -/
  | malformedFrontmatter
  /-- "frontmatter missing required 'name' field" -/
  | missingName
  /-- An error of a file-system call on the given path: the path does not
  exist where it has to, a path component is not a directory, the target is a
  directory, or the argument is invalid. -/
  | notExist (path : Str)
  | notDir (path : Str)
  | isDir (path : Str)
  | invalid (path : Str)
  /-- An error wrapped with a path by `fmt.Errorf("...%s: %w", path, err)`. -/
  | wrap (path : Str) (e : Err)
  deriving DecidableEq, Repr

deriving instance DecidableEq for Except

/-! ## Library primitives: more of packages strings and bytes -/

/-- Go `unicode.IsSpace`: tab, LF, VT, FF, CR, space, U+0085, U+00A0 and the
other code points of the Unicode White_Space property. -/
def isSpace (c : Char) : Bool :=
  (9 ≤ c.toNat && c.toNat ≤ 13) || c.toNat = 32 || c.toNat = 0x85 || c.toNat = 0xA0 ||
    c.toNat = 0x1680 || (0x2000 ≤ c.toNat && c.toNat ≤ 0x200A) || c.toNat = 0x2028 ||
    c.toNat = 0x2029 || c.toNat = 0x202F || c.toNat = 0x205F || c.toNat = 0x3000

/-- Go `strings.TrimSpace` and `bytes.TrimSpace`. -/
def trimSpace (s : Str) : Str :=
  (s.dropWhile isSpace).rdropWhile isSpace

/-- Go `strings.HasPrefix` and `bytes.HasPrefix`. -/
def hasPrefix (s pre : Str) : Bool :=
  pre.isPrefixOf s

/-- Go `strings.Cut` and `bytes.Cut`: the texts before and after the first
occurrence of `sep`, or `none` when `sep` does not occur. -/
def cut (sep : Str) : Str → Option (Str × Str)
  | [] => if sep = [] then some ([], []) else none
  | c :: cs =>
    if sep.isPrefixOf (c :: cs) then some ([], (c :: cs).drop sep.length)
    else (cut sep cs).map (fun r => (c :: r.1, r.2))

/-- The texts between the occurrences of the rune `sep`: Go `bytes.Split` and
`strings.Split` for a separator of one rune. -/
def splitOnChar (sep : Char) : Str → List Str
  | [] => [[]]
  | c :: cs =>
    if c = sep then [] :: splitOnChar sep cs
    else
      match splitOnChar sep cs with
      | [] => [[c]]
      | x :: xs => (c :: x) :: xs

/-- Go `strings.Join` for a separator of one rune. -/
def joinWith (sep : Char) : List Str → Str
  | [] => []
  | [x] => x
  | x :: y :: rest => x ++ sep :: joinWith sep (y :: rest)

/-- Go `strings.Contains`. -/
def contains (s sub : Str) : Bool :=
  (cut sub s).isSome

/-- Go `bytes.SplitN(s, sep, n)` for a non-empty `sep` and `n ≥ 0`: at most `n`
parts, the last one holding the unsplit remainder. -/
def splitN (sep : Str) : Nat → Str → List Str
  | 0, _ => []
  | 1, s => [s]
  | n + 2, s =>
    match cut sep s with
    | none => [s]
    | some (a, b) => a :: splitN sep (n + 1) b

/-- Worker of `replaceAll`; `skip` counts the runes of a matched occurrence
that are still to be passed over. -/
def replaceAllAux (old new : Str) : Nat → Str → Str
  | _, [] => []
  | k + 1, _ :: cs => replaceAllAux old new k cs
  | 0, c :: cs =>
    if old.isPrefixOf (c :: cs) then new ++ replaceAllAux old new (old.length - 1) cs
    else c :: replaceAllAux old new 0 cs

/-- Go `strings.ReplaceAll(s, old, new)` for a non-empty `old`: the
non-overlapping occurrences of `old`, found from the left, are replaced. -/
def replaceAll (s old new : Str) : Str :=
  replaceAllAux old new 0 s

/-- Go `strings.Replace(s, old, new, 1)`: the first occurrence is replaced. -/
def replaceFirst (s old new : Str) : Str :=
  match cut old s with
  | none => s
  | some (a, b) => a ++ new ++ b

/-! ## Manifest parser -/

/-- The loop of `parseFrontmatterField` over the lines of the header block:
the value of the first line whose key is `field`, or `""` when there is none. -/
def findField (field : Str) : List Str → Str
  | [] => []
  | line :: rest =>
    match cut ":".toList line with
    | some (k, v) =>
      if trimSpace k = field then trim "\"'".toList (trimSpace v)
      else findField field rest
    | none => findField field rest

/-- Source `parseFrontmatterField`. -/
def parseFrontmatterField (data field : Str) : Except Err Str :=
  let data := trimSpace data
  if !hasPrefix data "---".toList then .error .missingFrontmatter
  else
    let parts := splitN "---".toList 3 data
    if parts.length < 3 then .error .malformedFrontmatter
    else .ok (findField field (splitOnChar '\n' (parts.getD 1 [])))

/-- Source `parseName`. -/
def parseName (tbl : Char → Char) (data : Str) : Except Err Str :=
  match parseFrontmatterField data "name".toList with
  | .error e => .error e
  | .ok name => if name = [] then .error .missingName else .ok (sanitizeName tbl name)

/-! ## Library primitives: package path/filepath (Unix) -/

/-- The components of a path: the texts between the separators. -/
def splitPath (p : Str) : List Str :=
  splitOnChar '/' p

/-- A path written from its components. -/
def joinPath (comps : List Str) : Str :=
  joinWith '/' comps

/-- The lexical processing of `filepath.Clean`, component by component.  The
components kept so far are on a stack, last one first.  Empty components and
`.` are dropped; `..` removes the component before it, is dropped at the root
of a rooted path, and is kept at the start of a relative one. -/
def cleanAux (rooted : Bool) : List Str → List Str → List Str
  | st, [] => st
  | st, c :: cs =>
    if c = [] ∨ c = ".".toList then cleanAux rooted st cs
    else if c = "..".toList then
      match st with
      | [] => if rooted then cleanAux rooted [] cs else cleanAux rooted [c] cs
      | top :: below =>
        if top = "..".toList then cleanAux rooted (c :: top :: below) cs
        else cleanAux rooted below cs
    else cleanAux rooted (c :: st) cs

/-- Go `filepath.IsAbs` on Unix. -/
def filepathIsAbs (p : Str) : Bool :=
  hasPrefix p "/".toList

/-- Go `filepath.Clean` on Unix: the shortest path equivalent to `p` by
lexical processing; `"."` for the empty result. -/
def filepathClean (p : Str) : Str :=
  if p = [] then ".".toList
  else
    let out := (cleanAux (filepathIsAbs p) [] (splitPath p)).reverse
    if filepathIsAbs p then '/' :: joinPath out
    else if out = [] then ".".toList
    else joinPath out

/-- Go `filepath.Join(a, b)`: empty elements before the first non-empty one
are ignored, the rest is joined with `/` and cleaned; `""` if all are empty. -/
def filepathJoin (a b : Str) : Str :=
  if a ≠ [] then filepathClean (a ++ '/' :: b)
  else if b ≠ [] then filepathClean b
  else []

/-- Go `filepath.Dir`: everything up to the last separator, cleaned. -/
def filepathDir (p : Str) : Str :=
  filepathClean (p.rdropWhile (fun c => decide (c ≠ '/')))

/-! ## Process environment -/

/-- Source `envDefaults`, listed in source order. -/
def envDefaults : List (Str × Str) :=
  [("XDG_CONFIG_HOME".toList, "~/.config".toList),
   ("CLAUDE_CONFIG_DIR".toList, "~/.claude".toList),
   ("CODEX_HOME".toList, "~/.codex".toList)]

/-- What the code reads from its process and from the Go runtime.
* `lowerTable`: the Unicode case table behind `unicode.ToLower`;
* `getenv`: `os.Getenv` (`""` for an unset variable);
* `envOrder`: the order in which `range envDefaults` visits the map during one
  call of the package;
* `filesOrder`: the order in which `range files` visits a bundle's file map
  during one call of the package;
* `cwd`: the working directory, as the list of its components from the root. -/
structure Platform where
  lowerTable : Char → Char
  getenv : Str → Str
  envOrder : List (Str × Str)
  envOrder_perm : envOrder.Perm envDefaults
  filesOrder : List (Str × Str) → List (Str × Str)
  filesOrder_perm : ∀ l, (filesOrder l).Perm l
  cwd : List Str

/-- Go `os.UserHomeDir` on Unix with its error dropped (`home, _ :=`): the
value of `$HOME`, and `""` when that is unset or empty. -/
def userHomeDir (P : Platform) : Str :=
  P.getenv "HOME".toList

/-- A platform with the given environment, source order for both maps and the
identity as case table of the non-ASCII runes. -/
def Platform.simple (getenv : Str → Str) (cwd : List Str) : Platform where
  lowerTable := id
  getenv := getenv
  envOrder := envDefaults
  envOrder_perm := List.Perm.refl _
  filesOrder := id
  filesOrder_perm := fun _ => List.Perm.refl _
  cwd := cwd

/-! ## Path resolver -/

/-- One iteration of the loop of `expandEnv`, for the map entry `(k, def)`. -/
def expandStep (P : Platform) (path : Str) (kd : Str × Str) : Str :=
  let ph := '$' :: kd.1
  if contains path ph then
    let v := trimSpace (P.getenv kd.1)
    let v := if v = [] then replaceFirst kd.2 "~".toList (userHomeDir P) else v
    replaceAll path ph v
  else path

/-- Source `expandEnv`.  Go draws the iteration order of a map anew at each
`range`: a later call of the package runs under `Platform.reorder`. -/
def expandEnv (P : Platform) (path : Str) : Str :=
  P.envOrder.foldl (expandStep P) path

/-- The slice `path[2:]` of a text that starts with the one-byte rune `~` and
has at least two bytes: the second byte is dropped as well.  When the second
rune is longer than one byte its remaining bytes stay, each an invalid byte,
which the rune view shows as U+FFFD. -/
def dropTwoBytes : Str → Str
  | _ :: c :: rest => List.replicate (c.utf8Size - 1) (Char.ofNat 0xFFFD) ++ rest
  | _ => []

/-- Source `resolvePath`. -/
def resolvePath (P : Platform) (path projectDir : Str) (global : Bool) : Str :=
  let path := expandEnv P path
  if hasPrefix path "~".toList then
    if path = "~".toList then userHomeDir P
    else filepathJoin (userHomeDir P) (dropTwoBytes path)
  else if filepathIsAbs path then path
  else if global then []
  else filepathJoin projectDir path

/-! ## Agent registry (`agents.go`) -/

/-- Source `agent`. -/
structure agent where
  name : Str
  displayName : Str
  /-- project-level, relative to project root -/
  skillsDir : Str
  /-- global path template (before env/~ resolution) -/
  globalDir : Str
  /-- dirs to check for agent presence -/
  detectDirs : List Str
  deriving DecidableEq

/-- Source `agents`. -/
def agents : List agent := [
  ⟨"adal".toList, "AdaL".toList, ".adal/skills".toList, "~/.adal/skills".toList,
    ["~/.adal".toList]⟩,
  ⟨"amp".toList, "Amp".toList, ".agents/skills".toList, "$XDG_CONFIG_HOME/agents/skills".toList,
    ["$XDG_CONFIG_HOME/amp".toList]⟩,
  ⟨"antigravity".toList, "Antigravity".toList, ".agent/skills".toList, "~/.gemini/antigravity/skills".toList,
    [".agent".toList, "~/.gemini/antigravity".toList]⟩,
  ⟨"augment".toList, "Augment".toList, ".augment/skills".toList, "~/.augment/skills".toList,
    ["~/.augment".toList]⟩,
  ⟨"claude-code".toList, "Claude Code".toList, ".claude/skills".toList, "$CLAUDE_CONFIG_DIR/skills".toList,
    ["$CLAUDE_CONFIG_DIR".toList]⟩,
  ⟨"cline".toList, "Cline".toList, ".cline/skills".toList, "~/.cline/skills".toList,
    ["~/.cline".toList]⟩,
  ⟨"codebuddy".toList, "CodeBuddy".toList, ".codebuddy/skills".toList, "~/.codebuddy/skills".toList,
    [".codebuddy".toList, "~/.codebuddy".toList]⟩,
  ⟨"codex".toList, "Codex".toList, ".agents/skills".toList, "$CODEX_HOME/skills".toList,
    ["$CODEX_HOME".toList, "/etc/codex".toList]⟩,
  ⟨"command-code".toList, "Command Code".toList, ".commandcode/skills".toList, "~/.commandcode/skills".toList,
    ["~/.commandcode".toList]⟩,
  ⟨"continue".toList, "Continue".toList, ".continue/skills".toList, "~/.continue/skills".toList,
    [".continue".toList, "~/.continue".toList]⟩,
  ⟨"crush".toList, "Crush".toList, ".crush/skills".toList, "~/.config/crush/skills".toList,
    ["~/.config/crush".toList]⟩,
  ⟨"cursor".toList, "Cursor".toList, ".cursor/skills".toList, "~/.cursor/skills".toList,
    ["~/.cursor".toList]⟩,
  ⟨"droid".toList, "Droid".toList, ".factory/skills".toList, "~/.factory/skills".toList,
    ["~/.factory".toList]⟩,
  ⟨"gemini-cli".toList, "Gemini CLI".toList, ".agents/skills".toList, "~/.gemini/skills".toList,
    ["~/.gemini".toList]⟩,
  ⟨"github-copilot".toList, "GitHub Copilot".toList, ".agents/skills".toList, "~/.copilot/skills".toList,
    [".github".toList, "~/.copilot".toList]⟩,
  ⟨"goose".toList, "Goose".toList, ".goose/skills".toList, "$XDG_CONFIG_HOME/goose/skills".toList,
    ["$XDG_CONFIG_HOME/goose".toList]⟩,
  ⟨"iflow-cli".toList, "iFlow CLI".toList, ".iflow/skills".toList, "~/.iflow/skills".toList,
    ["~/.iflow".toList]⟩,
  ⟨"junie".toList, "Junie".toList, ".junie/skills".toList, "~/.junie/skills".toList,
    ["~/.junie".toList]⟩,
  ⟨"kilo".toList, "Kilo Code".toList, ".kilocode/skills".toList, "~/.kilocode/skills".toList,
    ["~/.kilocode".toList]⟩,
  ⟨"kimi-cli".toList, "Kimi Code CLI".toList, ".agents/skills".toList, "~/.config/agents/skills".toList,
    ["~/.kimi".toList]⟩,
  ⟨"kiro-cli".toList, "Kiro CLI".toList, ".kiro/skills".toList, "~/.kiro/skills".toList,
    ["~/.kiro".toList]⟩,
  ⟨"kode".toList, "Kode".toList, ".kode/skills".toList, "~/.kode/skills".toList,
    ["~/.kode".toList]⟩,
  ⟨"mcpjam".toList, "MCPJam".toList, ".mcpjam/skills".toList, "~/.mcpjam/skills".toList,
    ["~/.mcpjam".toList]⟩,
  ⟨"mistral-vibe".toList, "Mistral Vibe".toList, ".vibe/skills".toList, "~/.vibe/skills".toList,
    ["~/.vibe".toList]⟩,
  ⟨"mux".toList, "Mux".toList, ".mux/skills".toList, "~/.mux/skills".toList,
    ["~/.mux".toList]⟩,
  ⟨"neovate".toList, "Neovate".toList, ".neovate/skills".toList, "~/.neovate/skills".toList,
    ["~/.neovate".toList]⟩,
  ⟨"openclaw".toList, "OpenClaw".toList, "skills".toList, "~/.openclaw/skills".toList,
    ["~/.openclaw".toList, "~/.clawdbot".toList, "~/.moltbot".toList]⟩,
  ⟨"opencode".toList, "OpenCode".toList, ".agents/skills".toList, "$XDG_CONFIG_HOME/opencode/skills".toList,
    ["$XDG_CONFIG_HOME/opencode".toList]⟩,
  ⟨"openhands".toList, "OpenHands".toList, ".openhands/skills".toList, "~/.openhands/skills".toList,
    ["~/.openhands".toList]⟩,
  ⟨"pi".toList, "Pi".toList, ".pi/skills".toList, "~/.pi/agent/skills".toList,
    ["~/.pi/agent".toList]⟩,
  ⟨"pochi".toList, "Pochi".toList, ".pochi/skills".toList, "~/.pochi/skills".toList,
    ["~/.pochi".toList]⟩,
  ⟨"qoder".toList, "Qoder".toList, ".qoder/skills".toList, "~/.qoder/skills".toList,
    ["~/.qoder".toList]⟩,
  ⟨"qwen-code".toList, "Qwen Code".toList, ".qwen/skills".toList, "~/.qwen/skills".toList,
    ["~/.qwen".toList]⟩,
  ⟨"replit".toList, "Replit".toList, ".agents/skills".toList, "$XDG_CONFIG_HOME/agents/skills".toList,
    [".agents".toList]⟩,
  ⟨"roo".toList, "Roo Code".toList, ".roo/skills".toList, "~/.roo/skills".toList,
    ["~/.roo".toList]⟩,
  ⟨"trae".toList, "Trae".toList, ".trae/skills".toList, "~/.trae/skills".toList,
    ["~/.trae".toList]⟩,
  ⟨"trae-cn".toList, "Trae CN".toList, ".trae/skills".toList, "~/.trae-cn/skills".toList,
    ["~/.trae-cn".toList]⟩,
  ⟨"windsurf".toList, "Windsurf".toList, ".windsurf/skills".toList, "~/.codeium/windsurf/skills".toList,
    ["~/.codeium/windsurf".toList]⟩,
  ⟨"zencoder".toList, "Zencoder".toList, ".zencoder/skills".toList, "~/.zencoder/skills".toList,
    ["~/.zencoder".toList]⟩]

/-- Source `agentIndex`: the map built by `m[agents[i].name] = &agents[i]`, in
which a later row with the same name would replace an earlier one. -/
def agentIndex (name : Str) : Option agent :=
  (agents.filter (fun a => a.name = name)).getLast?

/-! ## Data model -/

/-- Source `Options`. -/
structure Options where
  Agents : List Str
  ProjectDir : Str
  Global : Bool
  deriving DecidableEq

/-- Source `Result`. -/
structure Result where
  Agent : Str
  Path : Str
  Existed : Bool
  PriorVersion : Str
  deriving DecidableEq

/-- Source `skillEntry`; the Go map `files` is an association list with
distinct keys. -/
structure skillEntry where
  name : Str
  files : List (Str × Str)
  deriving DecidableEq

/-! ## Go maps as association lists -/

/-- The map update `m[k] = v`. -/
def mapSet {β : Type} (m : List (Str × β)) (k : Str) (v : β) : List (Str × β) :=
  match m with
  | [] => [(k, v)]
  | (k1, v1) :: rest => if k1 = k then (k, v) :: rest else (k1, v1) :: mapSet rest k v

/-- The map read `m[k]`, with the zero value `nil` for a missing key. -/
def mapGet (m : List (Str × List Str)) (k : Str) : List Str :=
  (m.lookup k).getD []

/-- Go string comparison `a <= b`: lexicographic by bytes, which for UTF-8 is
lexicographic by code points. -/
def strLe : Str → Str → Bool
  | [], _ => true
  | _ :: _, [] => false
  | a :: as, b :: bs =>
    if a.toNat < b.toNat then true
    else if b.toNat < a.toNat then false
    else strLe as bs

/-- The expression `slices.Sorted(maps.Keys(m))`. -/
def sortedKeys {β : Type} (m : List (Str × β)) : List Str :=
  (m.map Prod.fst).insertionSort (fun a b => strLe a b = true)

/-! ## Target resolution -/

/-- The directory that the loop body of `resolveTargets` computes for an
agent. -/
def targetDir (P : Platform) (opts : Options) (a : agent) : Str :=
  if opts.Global then resolvePath P a.globalDir [] true
  else filepathJoin opts.ProjectDir a.skillsDir

/-- The loop of `resolveTargets` over the remaining agent names. -/
def resolveTargetsFrom (P : Platform) (opts : Options) :
    List Str → List (Str × List Str) → Except Err (List (Str × List Str))
  | [], targets => .ok targets
  | name :: rest, targets =>
    match agentIndex name with
    | none => .error (.unknownAgent name)
    | some a =>
      let dir := targetDir P opts a
      resolveTargetsFrom P opts rest (mapSet targets dir (mapGet targets dir ++ [name]))

/-- Source `resolveTargets`. -/
def resolveTargets (P : Platform) (opts : Options) : Except Err (List (Str × List Str)) :=
  resolveTargetsFrom P opts opts.Agents []

/-! ## The target file system (package os) -/

/-- What a location of the file system holds. -/
inductive Node
  | file (data : Str)
  | dir
  deriving DecidableEq

/-- A state of the file system: what each location holds, a location being
the list of path components from the root.  In a state of a real file system
the root is a directory and so is the parent of every node (`FS.WF`). -/
abbrev FS := List Str → Option Node

/-- A call of package os made by the code. -/
inductive Event
  | stat (path : Str)
  | readFile (path : Str)
  | removeAll (path : Str)
  | mkdirAll (path : Str)
  | writeFile (path : Str) (data : Str)
  deriving DecidableEq

/-- The world the code runs in: the file system and the log of the calls of
package os made so far, oldest first. -/
structure World where
  fs : FS
  log : List Event

/-- Path resolution of the kernel for a file system without symbolic links:
empty components and `.` are passed over, `..` goes to the parent and stays
at the root.  The stack holds the components reached, last one first. -/
def walkComps : List Str → List Str → List Str
  | st, [] => st
  | st, c :: cs =>
    if c = [] ∨ c = ".".toList then walkComps st cs
    else if c = "..".toList then walkComps st.tail cs
    else walkComps (c :: st) cs

/-- The location a path names: a rooted path is resolved from the root, any
other path from the working directory. -/
def locate (P : Platform) (p : Str) : List Str :=
  (walkComps (if filepathIsAbs p then [] else P.cwd.reverse) (splitPath p)).reverse

/-- The location holds a regular file. -/
def isFileAt (fs : FS) (loc : List Str) : Bool :=
  match fs loc with
  | some (.file _) => true
  | _ => false

/-- Some proper ancestor of the location is a regular file. -/
def ancestorIsFile (fs : FS) (loc : List Str) : Bool :=
  loc.inits.dropLast.any (isFileAt fs)

/-- The location or one of its ancestors is a regular file. -/
def prefixIsFile (fs : FS) (loc : List Str) : Bool :=
  loc.inits.any (isFileAt fs)

/-- The well-formed states: the root is a directory, and the parent of every
node is a directory. -/
def FS.WF (fs : FS) : Prop :=
  fs [] = some .dir ∧ ∀ loc c, fs (loc ++ [c]) ≠ none → fs loc = some .dir

/-- The world after one more call has been logged. -/
def World.logged (w : World) (e : Event) : World :=
  { w with log := w.log ++ [e] }

/-- Go `os.Stat(p)`, reduced to `err == nil`: the path names a node. -/
def osStat (P : Platform) (w : World) (p : Str) : Bool × World :=
  (decide (p ≠ []) && (w.fs (locate P p)).isSome, w.logged (.stat p))

/-- Go `os.ReadFile(p)`: the content of a regular file, `none` for an error. -/
def osReadFile (P : Platform) (w : World) (p : Str) : Option Str × World :=
  (if p = [] then none
   else match w.fs (locate P p) with
     | some (.file d) => some d
     | _ => none,
   w.logged (.readFile p))

/-- The test `endsWithDot` of package os: the final component is `.`. -/
def endsWithDot (p : Str) : Bool :=
  decide (p = ".".toList) || "/.".toList.isSuffixOf p

/-- Go `os.RemoveAll(p)`: the node and everything below it are removed; a
missing node is not an error, the empty path does nothing, a final component
`.` is refused, and so is a path that leads through a regular file. -/
def osRemoveAll (P : Platform) (w : World) (p : Str) : Except Err Unit × World :=
  let w1 := w.logged (.removeAll p)
  if p = [] then (.ok (), w1)
  else if endsWithDot p then (.error (.invalid p), w1)
  else if ancestorIsFile w.fs (locate P p) then (.error (.notDir p), w1)
  else (.ok (), { w1 with fs := fun q => if locate P p <+: q then none else w.fs q })

/-- Go `os.MkdirAll(p, perm)`: the directory and its missing ancestors are
created; fails when the path is empty or leads to or through a regular file. -/
def osMkdirAll (P : Platform) (w : World) (p : Str) : Except Err Unit × World :=
  let w1 := w.logged (.mkdirAll p)
  if p = [] then (.error (.notExist p), w1)
  else if prefixIsFile w.fs (locate P p) then (.error (.notDir p), w1)
  else (.ok (), { w1 with fs := fun q =>
    if (q <+: locate P p) ∧ w.fs q = none then some .dir else w.fs q })

/-- Go `os.WriteFile(p, data, perm)`: the file is created or replaced; fails
when the parent is missing or not a directory, or the path names a directory. -/
def osWriteFile (P : Platform) (w : World) (p data : Str) : Except Err Unit × World :=
  let w1 := w.logged (.writeFile p data)
  let loc := locate P p
  if p = [] then (.error (.notExist p), w1)
  else if loc = [] then (.error (.isDir p), w1)
  else match w.fs loc.dropLast with
    | none => (.error (.notExist p), w1)
    | some (.file _) => (.error (.notDir p), w1)
    | some .dir =>
      if w.fs loc = some .dir then (.error (.isDir p), w1)
      else (.ok (), { w1 with fs := fun q => if q = loc then some (.file data) else w.fs q })

/-! ## The source file tree (package io/fs) -/

mutual
/-- A node of the source tree handed to `Install` as an `fs.FS`. -/
inductive SrcNode
  | file (data : Str)
  | dir (entries : SrcEntries)
/-- The entries of a directory, in the order in which `fs.ReadDir` returns
them (sorted by name). -/
inductive SrcEntries
  | nil
  | cons (name : Str) (node : SrcNode) (rest : SrcEntries)
end

mutual
/-- The node at a path of the source tree, a path being the list of its
components and `[]` the root `"."`. -/
def SrcNode.sub : SrcNode → List Str → Option SrcNode
  | n, [] => some n
  | .file _, _ :: _ => none
  | .dir es, c :: cs => es.sub c cs
/-- The node at a path that starts with the entry named `c`. -/
def SrcEntries.sub : SrcEntries → Str → List Str → Option SrcNode
  | .nil, _, _ => none
  | .cons n t rest, c, cs => if n = c then t.sub cs else rest.sub c cs
end

/-- Go `fs.ReadFile(fsys, p)`: the content of a regular file of the tree. -/
def readSrcFile (fsys : SrcNode) (p : List Str) : Option Str :=
  match fsys.sub p with
  | some (.file d) => some d
  | _ => none

/-- What a `fs.WalkDirFunc` sees of the entry it is called on. -/
structure DirEntry where
  name : Str
  isDir : Bool

/-- What a `fs.WalkDirFunc` returns: `nil`, `fs.SkipDir`, `fs.SkipAll` or
another error. -/
inductive Ctl
  | nil
  | skipDir
  | skipAll
  | err (e : Err)
  deriving DecidableEq

mutual
/-- The function `walkDir` of package io/fs on the node at path `p`, whose
entry name is `nm`.  The callback is called on the node first; on a directory
for which it returns `nil` the entries are walked in order.  `SkipDir` from a
directory is absorbed here, every other non-nil result is handed upwards. -/
def walkDir {σ : Type} (fn : List Str → Option DirEntry → σ → Ctl × σ) :
    List Str → Str → SrcNode → σ → Ctl × σ
  | p, nm, .file _, st => fn p (some ⟨nm, false⟩) st
  | p, nm, .dir es, st =>
    match fn p (some ⟨nm, true⟩) st with
    | (.nil, st1) => walkEntries fn p es st1
    | (.skipDir, st1) => (.nil, st1)
    | (c, st1) => (c, st1)
/-- The loop of `walkDir` over the entries of the directory at path `p`:
`SkipDir` from an entry ends the loop, leaving the remaining entries
unvisited; any other error ends the walk. -/
def walkEntries {σ : Type} (fn : List Str → Option DirEntry → σ → Ctl × σ) :
    List Str → SrcEntries → σ → Ctl × σ
  | _, .nil, st => (.nil, st)
  | p, .cons n t rest, st =>
    match walkDir fn (p ++ [n]) n t st with
    | (.nil, st1) => walkEntries fn p rest st1
    | (.skipDir, st1) => (.nil, st1)
    | (c, st1) => (c, st1)
end

/-- The entry name that `fs.Stat` reports for a path. -/
def baseName (p : List Str) : Str :=
  p.getLast?.getD ".".toList

/-- Go `fs.WalkDir(fsys, root, fn)`: when `root` cannot be found the callback
is called once with the error; `SkipDir` and `SkipAll` are not errors of the
walk. -/
def WalkDir {σ : Type} (fn : List Str → Option DirEntry → σ → Ctl × σ)
    (fsys : SrcNode) (root : List Str) (st : σ) : Option Err × σ :=
  let r := match fsys.sub root with
    | none => fn root none st
    | some node => walkDir fn root (baseName root) node st
  match r with
  | (.err e, st1) => (some e, st1)
  | (_, st1) => (none, st1)

/-! ## Bundle discovery -/

/-- Source `isExcluded`, with `excludedFiles` inlined. -/
def isExcluded (name : Str) : Bool :=
  decide (name = "README.md".toList) || decide (name = "metadata.json".toList) ||
    hasPrefix name "_".toList

/-- The callback of the inner walk of `findSkills`, which fills the map
`files` of the bundle rooted at `skillDir`.  `filepath.Rel(skillDir, fp)` is
the path `fp` without the components of `skillDir`. -/
def collectFn (fsys : SrcNode) (skillDir : List Str) :
    List Str → Option DirEntry → List (Str × Str) → Ctl × List (Str × Str)
  | fp, none, files => (.err (.notExist (joinPath fp)), files)
  | fp, some fd, files =>
    if fd.isDir then
      if fd.name = ".git".toList then (.skipDir, files) else (.nil, files)
    else if isExcluded fd.name then (.nil, files)
    else
      match readSrcFile fsys fp with
      | none => (.err (.notExist (joinPath fp)), files)
      | some content =>
        let rel := if skillDir ≠ [] then fp.drop skillDir.length else fp
        (.nil, mapSet files (joinPath rel) content)

/-- The callback of the outer walk of `findSkills`.  The list `out` holds,
with every bundle, the directory it was found in (`skillDir`), which the
source does not keep. -/
def discoverFn (tbl : Char → Char) (fsys : SrcNode) :
    List Str → Option DirEntry → List (List Str × skillEntry) →
      Ctl × List (List Str × skillEntry)
  | p, none, out => (.err (.notExist (joinPath p)), out)
  | p, some d, out =>
    if d.isDir ∨ d.name ≠ "SKILL.md".toList then (.nil, out)
    else
      match readSrcFile fsys p with
      | none => (.err (.notExist (joinPath p)), out)
      | some data =>
        match parseName tbl data with
        | .error e => (.err (.wrap (joinPath p) e), out)
        | .ok name =>
          let skillDir := p.dropLast
          match WalkDir (collectFn fsys skillDir) fsys skillDir [] with
          | (some e, _) => (.err e, out)
          | (none, files) => (.skipDir, out ++ [(skillDir, ⟨name, files⟩)])

/-- Source `findSkills`, every bundle paired with its root directory. -/
def findSkillRoots (tbl : Char → Char) (fsys : SrcNode) :
    Except Err (List (List Str × skillEntry)) :=
  match WalkDir (discoverFn tbl fsys) fsys [] [] with
  | (some e, _) => .error e
  | (none, out) => .ok out

/-- Source `findSkills`. -/
def findSkills (tbl : Char → Char) (fsys : SrcNode) : Except Err (List skillEntry) :=
  match findSkillRoots tbl fsys with
  | .error e => .error e
  | .ok out => .ok (out.map Prod.snd)

/-! ## Install, Remove and version lookup -/

/-- Source `installedVersionAt`; the error of the parser is dropped
(`v, _ :=`), which leaves `v` empty. -/
def installedVersionAt (P : Platform) (w : World) (skillDir : Str) : Str × World :=
  match osReadFile P w (filepathJoin skillDir "SKILL.md".toList) with
  | (none, w1) => ([], w1)
  | (some data, w1) =>
    (match parseFrontmatterField data "version".toList with
      | .ok v => v
      | .error _ => [],
     w1)

/-- The loop of `writeFiles` over the entries of the map, in the order
given. -/
def writeEntries (P : Platform) (dir : Str) :
    List (Str × Str) → World → Except Err Unit × World
  | [], w => (.ok (), w)
  | (rel, content) :: rest, w =>
    let target := filepathJoin dir rel
    match osMkdirAll P w (filepathDir target) with
    | (.error e, w1) => (.error e, w1)
    | (.ok _, w1) =>
      match osWriteFile P w1 target content with
      | (.error e, w2) => (.error e, w2)
      | (.ok _, w2) => writeEntries P dir rest w2

/-- Source `writeFiles`. -/
def writeFiles (P : Platform) (w : World) (dir : Str) (files : List (Str × Str)) :
    Except Err Unit × World :=
  match osRemoveAll P w dir with
  | (.error e, w1) => (.error e, w1)
  | (.ok _, w1) => writeEntries P dir (P.filesOrder files) w1

/-- The inner loop of `Install`, over the sorted target directories, for one
bundle; `results` is the slice built so far. -/
def installInto (P : Platform) (targets : List (Str × List Str)) (s : skillEntry) :
    List Str → World → List Result → Except Err (List Result) × World
  | [], w, results => (.ok results, w)
  | dir :: rest, w, results =>
    let agentNames := mapGet targets dir
    let skillDir := filepathJoin dir s.name
    let (existed, w1) := osStat P w skillDir
    let (priorVersion, w2) := installedVersionAt P w1 skillDir
    match writeFiles P w2 skillDir s.files with
    | (.error e, w3) => (.error (.wrap skillDir e), w3)
    | (.ok _, w3) =>
      installInto P targets s rest w3
        (results ++ agentNames.map (fun an => ⟨an, skillDir, existed, priorVersion⟩))

/-- The outer loop of `Install`, over the bundles. -/
def installAll (P : Platform) (targets : List (Str × List Str)) :
    List skillEntry → World → List Result → Except Err (List Result) × World
  | [], w, results => (.ok results, w)
  | s :: rest, w, results =>
    match installInto P targets s (sortedKeys targets) w results with
    | (.error e, w1) => (.error e, w1)
    | (.ok results1, w1) => installAll P targets rest w1 results1

/-- Source `Install`: the result and the world after the call. -/
def Install (P : Platform) (fsys : SrcNode) (opts : Options) (w : World) :
    Except Err (List Result) × World :=
  if opts.Agents.length = 0 then (.error .noAgents, w)
  else
    match findSkills P.lowerTable fsys with
    | .error e => (.error e, w)
    | .ok skills =>
      if skills.length = 0 then (.error .noSkill, w)
      else
        match resolveTargets P opts with
        | .error e => (.error e, w)
        | .ok targets => installAll P targets skills w []

/-- The loop of `Remove` over the sorted target directories. -/
def removeFrom (P : Platform) (targets : List (Str × List Str)) (skillName : Str) :
    List Str → World → List Result → Except Err (List Result) × World
  | [], w, results => (.ok results, w)
  | dir :: rest, w, results =>
    let agentNames := mapGet targets dir
    let skillDir := filepathJoin dir skillName
    let (existed, w1) := osStat P w skillDir
    let step : Except Err Unit × World :=
      if existed then osRemoveAll P w1 skillDir else (.ok (), w1)
    match step with
    | (.error e, w2) => (.error (.wrap skillDir e), w2)
    | (.ok _, w2) =>
      removeFrom P targets skillName rest w2
        (results ++ agentNames.map (fun an => ⟨an, skillDir, existed, []⟩))

/-- Source `Remove`: the result and the world after the call. -/
def Remove (P : Platform) (skillName : Str) (opts : Options) (w : World) :
    Except Err (List Result) × World :=
  if opts.Agents.length = 0 then (.error .noAgents, w)
  else if skillName = [] then (.error .nameRequired, w)
  else
    let skillName := sanitizeName P.lowerTable skillName
    match resolveTargets P opts with
    | .error e => (.error e, w)
    | .ok targets => removeFrom P targets skillName (sortedKeys targets) w []

/-- The loop of `InstalledVersion` over the sorted target directories. -/
def versionFrom (P : Platform) (skillName : Str) : List Str → World → Str × World
  | [], w => ([], w)
  | dir :: rest, w =>
    match installedVersionAt P w (filepathJoin dir skillName) with
    | (v, w1) => if v ≠ [] then (v, w1) else versionFrom P skillName rest w1

/-- Source `InstalledVersion`: the result and the world after the call. -/
def InstalledVersion (P : Platform) (skillName : Str) (opts : Options) (w : World) :
    Except Err Str × World :=
  match resolveTargets P opts with
  | .error e => (.error e, w)
  | .ok targets =>
    match versionFrom P skillName (sortedKeys targets) w with
    | (v, w1) => (.ok v, w1)

/-! ## Files used in examples -/

/-- The file system that holds the root directory and nothing else. -/
def emptyFS : FS :=
  fun q => if q = [] then some .dir else none

/-- The world with an empty file system and an empty log. -/
def emptyWorld : World :=
  ⟨emptyFS, []⟩

/-- The manifest text that the test helper `skillFSVersioned` builds. -/
def manifestText (name version : Str) : Str :=
  "---\nname: ".toList ++ name ++ "\n".toList ++
    (if version ≠ [] then "version: \"".toList ++ version ++ "\"\n".toList else []) ++
    "---\n\n# ".toList ++ name ++ "\n".toList

/-- Test helper `skillFSVersioned`: a tree holding one manifest at its root. -/
def skillFSVersioned (name version : Str) : SrcNode :=
  .dir (.cons "SKILL.md".toList (.file (manifestText name version)) .nil)

/-- Test helper `skillFS`. -/
def skillFS (name : Str) : SrcNode :=
  skillFSVersioned name []

/-- A file name in the sense of `fs.ValidPath`: not empty, free of the
separator, and neither `.` nor `..`. -/
def validName (c : Str) : Bool :=
  decide (c ≠ []) && decide ('/' ∉ c) && decide (c ≠ ".".toList) && decide (c ≠ "..".toList)

/-- The components on the stack of `cleanAux` are neither empty nor `.`. -/
def StackOk (st : List Str) : Prop :=
  ∀ c ∈ st, c ≠ [] ∧ c ≠ ".".toList

/-- The text `filepath.Clean` writes for the kept components. -/
def render (r : Bool) (o : List Str) : Str :=
  if r then '/' :: joinPath o
  else if o = [] then ".".toList
  else joinPath o

/-- The location reached from the root (`r`) or from the working directory
along a list of components. -/
def loc (P : Platform) (r : Bool) (o : List Str) : List Str :=
  (walkComps (if r then [] else P.cwd.reverse) o).reverse

/-- Components that may stand in a cleaned path. -/
def CompsOk (o : List Str) : Prop :=
  ∀ c ∈ o, c ≠ [] ∧ c ≠ ".".toList ∧ '/' ∉ c

/-- The file system that holds the listed regular files, given by location and
content, and the directories that lead to them. -/
def fsOfFiles (files : List (List Str × Str)) : FS := fun q =>
  match files.lookup q with
  | some d => some (.file d)
  | none => if q = [] ∨ files.any (fun f => q.isPrefixOf f.1) then some .dir else none

/-- A platform without environment variables, working directory `/`. -/
def plainPlatform : Platform :=
  Platform.simple (fun _ => []) []

/-- Every identifier filed in the map is filed under the directory its agent
resolves to. -/
def TargetsGood (P : Platform) (opts : Options) (m : List (Str × List Str)) : Prop :=
  ∀ D ns, (D, ns) ∈ m → ∀ n ∈ ns, ∃ a, agentIndex n = some a ∧ targetDir P opts a = D

/-- The path of a call of `os.RemoveAll`. -/
def Event.removePath : Event → Option Str
  | .removeAll p => some p
  | _ => none

/-- The path of a call of `os.Stat`. -/
def Event.statPath : Event → Option Str
  | .stat p => some p
  | _ => none

/-- A relative path all of whose components are file names. -/
def validRel (rel : Str) : Bool :=
  (splitPath rel).all validName

/-- The directory has an entry of the given name. -/
def SrcEntries.hasName : SrcEntries → Str → Bool
  | .nil, _ => false
  | .cons n _ rest, c => decide (n = c) || rest.hasName c

/-- The entries of a directory as a list. -/
def SrcEntries.toList : SrcEntries → List (Str × SrcNode)
  | .nil => []
  | .cons n t rest => (n, t) :: rest.toList

mutual
/-- The trees of a real `fs.FS`: in every directory the entry names are file
names (`fs.ValidPath`) and pairwise distinct. -/
def SrcNode.wf : SrcNode → Bool
  | .file _ => true
  | .dir es => es.wf
/-- The entry lists of well-formed trees. -/
def SrcEntries.wf : SrcEntries → Bool
  | .nil => true
  | .cons n t rest => validName n && !rest.hasName n && t.wf && rest.wf
end

mutual
/-- The files that the bundle walk keeps of the node with entry name `nm`,
each with its path below the node: a regular file is kept unless its name is
excluded, a directory named `.git` is passed over, and any other directory
contributes what is kept of its entries. -/
def keptFiles : Str → SrcNode → List (List Str × Str)
  | nm, .file d => if isExcluded nm then [] else [([], d)]
  | nm, .dir es => if nm = ".git".toList then [] else keptEntries es
/-- The files kept of the entries of a directory. -/
def keptEntries : SrcEntries → List (List Str × Str)
  | .nil => []
  | .cons n t rest => (keptFiles n t).map (fun f => (n :: f.1, f.2)) ++ keptEntries rest
end

/-- The map after the files `l`, given with their paths below `pre`, have
been entered in this order. -/
def insertAll (pre : List Str) (m : List (Str × Str)) (l : List (List Str × Str)) :
    List (Str × Str) :=
  l.foldl (fun m f => mapSet m (joinPath (pre ++ f.1)) f.2) m

/-- What the outer walk of `findSkills` records for a bundle: its root is a
directory of the tree, its name is a sanitized name, and its file map is the
one the inner walk builds for that directory. -/
def BundleOk (tbl : Char → Char) (fsys : SrcNode) (re : List Str × skillEntry) : Prop :=
  ∃ es raw, fsys.sub re.1 = some (.dir es) ∧ es.wf = true ∧
    re.2.name = sanitizeName tbl raw ∧
    re.2.files = insertAll [] [] (keptFiles (baseName re.1) (.dir es))

/-- A source tree with a manifest, excluded files, a kept file, a nested
directory and a `.git` directory. -/
def exampleTree : SrcNode :=
  .dir (.cons ".git".toList (.dir (.cons "config".toList (.file "[core]".toList) .nil))
    (.cons "README.md".toList (.file "repo readme".toList)
    (.cons "SKILL.md".toList (.file (manifestText "x".toList []))
    (.cons "_internal.md".toList (.file "private".toList)
    (.cons "metadata.json".toList (.file "{}".toList)
    (.cons "references.md".toList (.file "keep this".toList)
    (.cons "sub".toList (.dir (.cons "a.md".toList (.file "nested".toList) .nil))
    .nil)))))))

/-- The bundle that `findSkills` returns for `exampleTree`. -/
def exampleBundle : skillEntry :=
  ⟨"x".toList,
   [("SKILL.md".toList, manifestText "x".toList []),
    ("references.md".toList, "keep this".toList),
    ("sub/a.md".toList, "nested".toList)]⟩

/-- A source tree with a manifest in a directory named `.git` and a manifest
in a directory below a directory named `.git`. -/
def gitTree : SrcNode :=
  .dir (.cons ".git".toList
      (.dir (.cons "SKILL.md".toList (.file (manifestText "g".toList [])) .nil))
    (.cons "a".toList
      (.dir (.cons ".git".toList
        (.dir (.cons "x".toList
          (.dir (.cons "SKILL.md".toList (.file (manifestText "x".toList [])) .nil))
          .nil))
        .nil))
    .nil))

/-- A platform whose only environment variable is `HOME`. -/
def homePlatform (home : Str) : Platform :=
  Platform.simple (fun k => if k = "HOME".toList then home else []) []

/-- The text between the opening `---` of a trimmed manifest and the next
`---`, when there is one. -/
def headerBlock (data : Str) : Option Str :=
  (cut "---".toList ((trimSpace data).drop 3)).map Prod.fst

/-- The unquoting that the specification describes, in its words: one layer
of matching quote characters is removed.  When the text begins and ends with
the same quote character (`"` or `'`) that one pair is stripped; otherwise
nothing is. -/
def unquoteOnce (s : Str) : Str :=
  match s with
  | [] => []
  | c :: rest =>
    if c ∈ "\"'".toList ∧ rest ≠ [] ∧ rest.getLast? = some c then rest.dropLast else s

/-- The header block of a manifest built by the test helper. -/
def helperBlock (n v : Str) : Str :=
  "\nname: ".toList ++ n ++ "\nversion: \"".toList ++ v ++ "\"\n".toList

/-- The version that `installedVersionAt` reads at a bundle directory in a
given state of the file system. -/
def versionIn (P : Platform) (fs : FS) (skillDir : Str) : Str :=
  (installedVersionAt P ⟨fs, []⟩ skillDir).1

/-- The first non-empty text of a list, `""` when there is none. -/
def firstNonEmpty (l : List Str) : Str :=
  (l.find? (fun v => decide (v ≠ []))).getD []

/-- A source tree with two bundle directories whose manifests declare the
same name. -/
def twinTree : SrcNode :=
  .dir (.cons "a".toList
      (.dir (.cons "SKILL.md".toList (.file (manifestText "x".toList [])) .nil))
    (.cons "b".toList
      (.dir (.cons "SKILL.md".toList (.file (manifestText "x".toList [])) .nil))
    .nil))

/-- The identifiers of `opts.Agents` whose agent resolves to the directory
`D`, in the order they have in `opts.Agents`. -/
def agentsAt (P : Platform) (opts : Options) (D : Str) : List Str :=
  opts.Agents.filter (fun n =>
    match agentIndex n with
    | some a => decide (targetDir P opts a = D)
    | none => false)

/-- The agent and the path of a result. -/
def Result.key (r : Result) : Str × Str :=
  (r.Agent, r.Path)

/-- A platform that differs from `Platform.simple` in the order in which
`range envDefaults` visits the map only: the entries come in reverse. -/
def Platform.reversed (getenv : Str → Str) (cwd : List Str) : Platform where
  lowerTable := id
  getenv := getenv
  envOrder := envDefaults.reverse
  envOrder_perm := List.reverse_perm _
  filesOrder := id
  filesOrder_perm := fun _ => List.Perm.refl _
  cwd := cwd

/-- An environment in which the value of one variable holds the placeholder
of another. -/
def nestedEnv (k : Str) : Str :=
  if k = "HOME".toList then "/h".toList
  else if k = "XDG_CONFIG_HOME".toList then "$CODEX_HOME".toList
  else []

/-- The resolved target directories of a call, in the order in which
`Install` and `Remove` visit them; none when the resolution fails. -/
def targetKeys (P : Platform) (opts : Options) : List Str :=
  match resolveTargets P opts with
  | .ok t => sortedKeys t
  | .error _ => []

/-- No bundle location of the call (a bundle name below a resolved target
directory) lies at or below another one. -/
def BundlesApart (P : Platform) (opts : Options) (names : List Str) : Prop :=
  ∀ n1 ∈ names, ∀ D1 ∈ targetKeys P opts, ∀ n2 ∈ names, ∀ D2 ∈ targetKeys P opts,
    (n1, D1) ≠ (n2, D2) → ¬ (locate P D1 ++ [n1]) <+: (locate P D2 ++ [n2])

instance (P : Platform) (opts : Options) (names : List Str) :
    Decidable (BundlesApart P opts names) := by
  unfold BundlesApart
  infer_instance

/-- An environment in which the configuration directory of one agent lies
within a bundle directory of another agent. -/
def nestingEnv (k : Str) : Str :=
  if k = "HOME".toList then "/h".toList
  else if k = "CLAUDE_CONFIG_DIR".toList then "/h/.cursor/skills/x".toList
  else []

/-- A world that holds one stale file in a bundle directory. -/
def staleWorld : World :=
  ⟨fsOfFiles [(["p".toList, ".claude".toList, "skills".toList, "x".toList, "old.md".toList],
    "stale".toList)], []⟩

/-- An environment in which two templates that differ as texts resolve to
texts that differ and name the same directory: the value of
`XDG_CONFIG_HOME` ends in a separator. -/
def aliasEnv (k : Str) : Str :=
  if k = "HOME".toList then "/h".toList
  else if k = "XDG_CONFIG_HOME".toList then "/h/.config/".toList
  else []

/-- A world in which the bundle `x` is installed below `/h/.config/agents/skills`. -/
def aliasWorld : World :=
  ⟨fsOfFiles [(["h".toList, ".config".toList, "agents".toList, "skills".toList, "x".toList,
    "SKILL.md".toList], "m".toList)], []⟩

/-- A source tree whose only manifest lies in a directory named `.git`. -/
def dotGitTree : SrcNode :=
  .dir (.cons ".git".toList
    (.dir (.cons "SKILL.md".toList (.file (manifestText "g".toList [])) .nil)) .nil)

/-- An environment in which `XDG_CONFIG_HOME` holds a relative path. -/
def relativeEnv (k : Str) : Str :=
  if k = "HOME".toList then "/h".toList
  else if k = "XDG_CONFIG_HOME".toList then "rel".toList
  else []

/-- A world in which the working directory `/w` holds a directory `x` with
one file. -/
def cwdWorld : World :=
  ⟨fsOfFiles [(["w".toList, "x".toList, "keep.txt".toList], "data".toList)], []⟩

/-- An environment in which `CODEX_HOME` starts with `~` and goes on without a
separator. -/
def tildeEnv (k : Str) : Str :=
  if k = "HOME".toList then "/h".toList
  else if k = "CODEX_HOME".toList then "~codex".toList
  else []

/-- The value that `expandEnv` puts in place of the placeholder of the map
entry `(k, def)`: the trimmed value of the variable, or when that is empty the
fallback with its first `~` replaced by the home directory. -/
def placeholderValue (P : Platform) (kd : Str × Str) : Str :=
  let v := trimSpace (P.getenv kd.1)
  if v = [] then replaceFirst kd.2 "~".toList (userHomeDir P) else v

/-- Worker of `expandOnce`; `skip` counts the runes of a matched placeholder
that are still to be passed over. -/
def expandOnceAux (P : Platform) : Nat → Str → Str
  | _, [] => []
  | k + 1, _ :: cs => expandOnceAux P k cs
  | 0, c :: cs =>
    match envDefaults.find? (fun kd => ('$' :: kd.1).isPrefixOf (c :: cs)) with
    | some kd => placeholderValue P kd ++ expandOnceAux P kd.1.length cs
    | none => c :: expandOnceAux P 0 cs

/-- The expansion that the specification describes, in its words: one pass
over the template in which each occurrence of a placeholder is replaced by the
value of its variable; the substituted values are not looked at again. -/
def expandOnce (P : Platform) (path : Str) : Str :=
  expandOnceAux P 0 path

/-- A piece of a template: a text, or the placeholder of a map entry. -/
inductive Piece
  | lit (s : Str)
  | var (kd : Str × Str)

/-- The text of a piece in the template. -/
def Piece.text : Piece → Str
  | .lit s => s
  | .var kd => '$' :: kd.1

/-- The text of a piece after one pass over the template. -/
def Piece.value (P : Platform) : Piece → Str
  | .lit s => s
  | .var kd => placeholderValue P kd

/-- The text of a piece when the loop of `expandEnv` has visited the entries
`done`. -/
def Piece.textAfter (P : Platform) (done : List (Str × Str)) : Piece → Str
  | .lit s => s
  | .var kd => if kd ∈ done then placeholderValue P kd else '$' :: kd.1

/-- A text piece holds no `$`, and a placeholder is one of `envDefaults`. -/
def Piece.Ok : Piece → Prop
  | .lit s => '$' ∉ s
  | .var kd => kd ∈ envDefaults

instance (p : Piece) : Decidable p.Ok := by
  cases p <;> unfold Piece.Ok <;> infer_instance

/-- The process of `P` at a later call of the package: the case table, the
environment and the working directory are those of `P`, the orders in which
the two maps are visited are those of `Q`.  Go draws the iteration order of a
map anew at each `range`, so two calls made by one process run under platforms
that differ in this way. -/
def Platform.reorder (P Q : Platform) : Platform where
  lowerTable := P.lowerTable
  getenv := P.getenv
  envOrder := Q.envOrder
  envOrder_perm := Q.envOrder_perm
  filesOrder := Q.filesOrder
  filesOrder_perm := Q.filesOrder_perm
  cwd := P.cwd

/-- The resolution of the targets cannot depend on the order in which
`expandEnv` visits its map: project mode, in which no template is expanded, or
an environment in which no substituted value holds a `$`. -/
def OrderFree (P : Platform) (opts : Options) : Prop :=
  opts.Global = false ∨ ∀ kd ∈ envDefaults, '$' ∉ placeholderValue P kd

instance (P : Platform) (opts : Options) : Decidable (OrderFree P opts) := by
  unfold OrderFree
  infer_instance

/-- The pieces of a template of the registry: a placeholder at the start, if
there is one, and the text after it. -/
def templatePieces (t : Str) : List Piece :=
  match envDefaults.find? (fun kd => ('$' :: kd.1).isPrefixOf t) with
  | some kd => [.var kd, .lit (t.drop (kd.1.length + 1))]
  | none => [.lit t]

/-- A platform whose two maps are visited in the reverse of the source order:
used with `Platform.reorder` for a later call of a process. -/
def reversedOrders : Platform where
  lowerTable := id
  getenv := fun _ => []
  envOrder := envDefaults.reverse
  envOrder_perm := List.reverse_perm _
  filesOrder := List.reverse
  filesOrder_perm := fun l => List.reverse_perm l
  cwd := []

/-! # Theorems -/

theorem isAllowed_mem {c : Char} (h : isAllowed c = true) :
    c ∈ "abcdefghijklmnopqrstuvwxyz0123456789._-".toList := by
  have hc : Char.ofNat c.toNat = c := Char.ofNat_toNat c
  simp only [isAllowed, Bool.or_eq_true, Bool.and_eq_true, decide_eq_true_eq] at h
  generalize c.toNat = n at hc h
  subst hc
  have hn : n = 45 ∨ n = 46 ∨ n = 95 ∨ (48 ≤ n ∧ n ≤ 57) ∨ (97 ≤ n ∧ n ≤ 122) := by
    omega
  rcases hn with h1 | h1 | h1 | ⟨h1, h2⟩ | ⟨h1, h2⟩
  · subst h1; decide
  · subst h1; decide
  · subst h1; decide
  · interval_cases n <;> decide
  · interval_cases n <;> decide

theorem isAllowed_utf8Size {c : Char} (h : isAllowed c = true) : c.utf8Size = 1 := by
  have hall : ∀ d ∈ "abcdefghijklmnopqrstuvwxyz0123456789._-".toList, d.utf8Size = 1 := by
    decide
  exact hall c (isAllowed_mem h)

theorem replaceUnsafeAux_allowed (b : Bool) (s : Str) :
    ∀ c ∈ replaceUnsafeAux b s, isAllowed c = true := by
  induction s generalizing b with
  | nil => simp [replaceUnsafeAux]
  | cons a as ih =>
    intro c hc
    unfold replaceUnsafeAux at hc
    split at hc
    · rcases List.mem_cons.mp hc with h | h
      · subst h; assumption
      · exact ih _ c h
    · split at hc
      · exact ih _ c hc
      · rcases List.mem_cons.mp hc with h | h
        · subst h; decide
        · exact ih _ c h

theorem trim_prefix_dropWhile (cut s : Str) :
    trim cut s <+: s.dropWhile (fun c => decide (c ∈ cut)) :=
  List.rdropWhile_prefix _ _

theorem trim_sublist (cut s : Str) : (trim cut s).Sublist s :=
  ((trim_prefix_dropWhile cut s).sublist).trans (List.dropWhile_sublist _)

/-- What `sanitizeName` returns when the fallback is not taken: a non-empty
prefix, of at most 255 runes, of the trimmed text. -/
theorem sanitizeName_cases (tbl : Char → Char) (x : Str) :
    sanitizeName tbl x = "unnamed-skill".toList ∨
    (sanitizeName tbl x ≠ [] ∧
      sanitizeName tbl x <+: trim ".-".toList (replaceUnsafe (toLower tbl x))) := by
  unfold sanitizeName
  simp only
  split
  · left; rfl
  · right
    rename_i hne
    split
    · refine ⟨?_, List.take_prefix _ _⟩
      intro h
      rw [List.take_eq_nil_iff] at h
      rcases h with h | h
      · omega
      · exact hne h
    · exact ⟨hne, List.prefix_refl _⟩

theorem sanitizeName_length (tbl : Char → Char) (x : Str) :
    (sanitizeName tbl x).length ≤ 255 := by
  unfold sanitizeName
  simp only
  split
  · decide
  · split
    · simp [List.length_take]
    · omega

theorem sanitizeName_allowed (tbl : Char → Char) (x : Str) :
    ∀ c ∈ sanitizeName tbl x, isAllowed c = true := by
  intro c hc
  rcases sanitizeName_cases tbl x with h | ⟨_, h⟩
  · rw [h] at hc
    revert c
    decide
  · exact replaceUnsafeAux_allowed _ _ c
      ((trim_sublist _ _).subset (h.sublist.subset hc))

theorem sanitizeName_ne_nil (tbl : Char → Char) (x : Str) : sanitizeName tbl x ≠ [] := by
  rcases sanitizeName_cases tbl x with h | ⟨h, _⟩
  · rw [h]; decide
  · exact h

/-- The first rune of a sanitized name is neither `.` nor `-`. -/
theorem sanitizeName_head (tbl : Char → Char) (x : Str) :
    ∀ c ∈ (sanitizeName tbl x).head?, c ≠ '.' ∧ c ≠ '-' := by
  intro c hc
  rcases sanitizeName_cases tbl x with h | ⟨hne, hp⟩
  · rw [h] at hc
    revert c
    decide
  · have hp2 := hp.trans (trim_prefix_dropWhile _ _)
    obtain ⟨t, ht⟩ := hp2
    cases hs : sanitizeName tbl x with
    | nil => exact absurd hs hne
    | cons a as =>
      rw [hs] at hc ht
      simp only [List.head?_cons, Option.mem_def, Option.some.injEq] at hc
      subst hc
      have hd : List.dropWhile (fun c => decide (c ∈ ".-".toList))
          (replaceUnsafe (toLower tbl x)) ≠ [] := by
        rw [← ht]; simp
      have := List.head_dropWhile_not (fun c => decide (c ∈ ".-".toList))
        (replaceUnsafe (toLower tbl x)) hd
      simp only [← ht, List.cons_append, List.head_cons, decide_eq_false_iff_not] at this
      constructor
      · rintro rfl; exact this (by decide)
      · rintro rfl; exact this (by decide)

theorem utf8Len_eq_length_of_allowed (s : Str) (h : ∀ c ∈ s, isAllowed c = true) :
    utf8Len s = s.length := by
  induction s with
  | nil => rfl
  | cons a as ih =>
    have h1 := isAllowed_utf8Size (h a (List.mem_cons_self _ _))
    have h2 := ih (fun c hc => h c (List.mem_cons_of_mem _ hc))
    simp only [utf8Len, List.map_cons, List.sum_cons, List.length_cons] at *
    omega

/-- C1. For every input, `sanitizeName` returns a single safe path component:
non-empty, at most 255 bytes, made of characters of `[a-z0-9._-]` only (hence
without `/` and `\`), and different from `.` and `..`; on `../../etc/evil` it
returns `etc-evil`. -/
theorem sanitizeName_safe_component (tbl : Char → Char) (x : Str) :
    sanitizeName tbl x ≠ [] ∧
    utf8Len (sanitizeName tbl x) ≤ 255 ∧
    (∀ c ∈ sanitizeName tbl x, c ∈ "abcdefghijklmnopqrstuvwxyz0123456789._-".toList) ∧
    '/' ∉ sanitizeName tbl x ∧ '\\' ∉ sanitizeName tbl x ∧
    sanitizeName tbl x ≠ ".".toList ∧ sanitizeName tbl x ≠ "..".toList ∧
    sanitizeName tbl "../../etc/evil".toList = "etc-evil".toList := by
  have hall := sanitizeName_allowed tbl x
  have hhead := sanitizeName_head tbl x
  refine ⟨sanitizeName_ne_nil tbl x, ?_, fun c hc => isAllowed_mem (hall c hc), ?_, ?_, ?_, ?_, ?_⟩
  · rw [utf8Len_eq_length_of_allowed _ hall]
    exact sanitizeName_length tbl x
  · intro h; exact absurd (hall _ h) (by decide)
  · intro h; exact absurd (hall _ h) (by decide)
  · intro h
    rw [h] at hhead
    exact (hhead '.' (by simp)).1 rfl
  · intro h
    rw [h] at hhead
    exact (hhead '.' (by simp)).1 rfl
  · rfl

/-! ### Idempotence of the sanitizer -/

theorem toLowerRune_of_allowed (tbl : Char → Char) {c : Char} (h : isAllowed c = true) :
    toLowerRune tbl c = c := by
  simp only [isAllowed, Bool.or_eq_true, Bool.and_eq_true, decide_eq_true_eq] at h
  unfold toLowerRune
  rw [if_pos (by omega), if_neg (by omega)]

theorem toLower_of_allowed (tbl : Char → Char) (s : Str) (h : ∀ c ∈ s, isAllowed c = true) :
    toLower tbl s = s := by
  unfold toLower
  conv_rhs => rw [← List.map_id s]
  exact List.map_congr_left (fun c hc => toLowerRune_of_allowed tbl (h c hc))

theorem replaceUnsafeAux_of_allowed (b : Bool) (s : Str) (h : ∀ c ∈ s, isAllowed c = true) :
    replaceUnsafeAux b s = s := by
  induction s generalizing b with
  | nil => rfl
  | cons a as ih =>
    unfold replaceUnsafeAux
    rw [if_pos (h a (List.mem_cons_self _ _)),
      ih false (fun c hc => h c (List.mem_cons_of_mem _ hc))]

/-- On a text made of allowed runes, `sanitizeName` only trims and cuts. -/
theorem sanitizeName_of_allowed (tbl : Char → Char) (s : Str)
    (h : ∀ c ∈ s, isAllowed c = true) :
    sanitizeName tbl s =
      if trim ".-".toList s = [] then "unnamed-skill".toList
      else if (trim ".-".toList s).length > 255 then (trim ".-".toList s).take 255
      else trim ".-".toList s := by
  unfold sanitizeName replaceUnsafe
  rw [toLower_of_allowed tbl s h, replaceUnsafeAux_of_allowed false s h]

theorem trim_length_le (cut s : Str) : (trim cut s).length ≤ s.length :=
  (trim_sublist cut s).length_le

theorem trim_eq_self_iff (cut s : Str) (hs : s ≠ []) :
    trim cut s = s ↔ (s.head hs ∉ cut ∧ s.getLast hs ∉ cut) := by
  constructor
  · intro h
    have h1 : s.dropWhile (fun c => decide (c ∈ cut)) = s := by
      have hl := (trim_prefix_dropWhile cut s).length_le
      rw [h] at hl
      exact (List.dropWhile_sublist _).eq_of_length_le hl
    have h2 : s.rdropWhile (fun c => decide (c ∈ cut)) = s := by
      unfold trim at h
      rw [h1] at h
      exact h
    constructor
    · have := List.dropWhile_eq_self_iff.mp h1 (List.length_pos.mpr hs)
      simpa [List.head_eq_getElem] using this
    · have := List.rdropWhile_eq_self_iff.mp h2 hs
      simpa using this
  · rintro ⟨h1, h2⟩
    have e1 : s.dropWhile (fun c => decide (c ∈ cut)) = s := by
      apply List.dropWhile_eq_self_iff.mpr
      intro hl
      simpa [List.head_eq_getElem] using h1
    have e2 : s.rdropWhile (fun c => decide (c ∈ cut)) = s := by
      apply List.rdropWhile_eq_self_iff.mpr
      intro hl
      simpa using h2
    unfold trim
    rw [e1, e2]

theorem sanitizeName_head_not_mem (tbl : Char → Char) (x : Str) :
    (sanitizeName tbl x).head (sanitizeName_ne_nil tbl x) ∉ ".-".toList := by
  have h := sanitizeName_head tbl x
    ((sanitizeName tbl x).head (sanitizeName_ne_nil tbl x))
    (by simp [List.head?_eq_head (sanitizeName_ne_nil tbl x)])
  intro hm
  simp only [String.toList, List.mem_cons, List.mem_singleton, List.not_mem_nil, or_false] at hm
  rcases hm with hm | hm
  · exact h.1 hm
  · exact h.2 hm

theorem trim_cut_eq_self_iff (s : Str) (hne : s ≠ []) (hlen : s.length ≤ 255)
    (hhd : s.head hne ∉ ".-".toList) :
    (if trim ".-".toList s = [] then "unnamed-skill".toList
      else if (trim ".-".toList s).length > 255 then (trim ".-".toList s).take 255
      else trim ".-".toList s) = s ↔ s.getLast hne ∉ ".-".toList := by
  constructor
  · intro h
    have htl := trim_length_le ".-".toList s
    have ht : trim ".-".toList s = s := by
      split at h
      · subst h
        exact (trim_eq_self_iff _ _ (by decide)).mpr ⟨by decide, by decide⟩
      · split at h
        · omega
        · exact h
    exact ((trim_eq_self_iff _ _ hne).mp ht).2
  · intro h
    have ht : trim ".-".toList s = s := (trim_eq_self_iff _ _ hne).mpr ⟨hhd, h⟩
    rw [ht, if_neg hne, if_neg (by omega)]

/-- A second pass of the sanitizer changes nothing exactly when the name does
not end in a rune of the trim set. -/
theorem sanitizeName_idem_iff (tbl : Char → Char) (x : Str) :
    sanitizeName tbl (sanitizeName tbl x) = sanitizeName tbl x ↔
      (sanitizeName tbl x).getLast (sanitizeName_ne_nil tbl x) ∉ ".-".toList := by
  rw [sanitizeName_of_allowed tbl _ (sanitizeName_allowed tbl x)]
  exact trim_cut_eq_self_iff _ (sanitizeName_ne_nil tbl x) (sanitizeName_length tbl x)
    (sanitizeName_head_not_mem tbl x)

theorem trim_getLast_not_mem (cut s : Str) (h : trim cut s ≠ []) :
    (trim cut s).getLast h ∉ cut := by
  have := List.rdropWhile_last_not (fun c => decide (c ∈ cut))
    (s.dropWhile (fun c => decide (c ∈ cut))) h
  simpa using this

theorem sanitizeName_getLast_of_short (tbl : Char → Char) (x : Str)
    (h : (trim ".-".toList (replaceUnsafe (toLower tbl x))).length ≤ 255) :
    (sanitizeName tbl x).getLast (sanitizeName_ne_nil tbl x) ∉ ".-".toList := by
  have key : ∀ s : Str, s = sanitizeName tbl x → ∀ hs : s ≠ [], s.getLast hs ∉ ".-".toList := by
    intro s hs
    unfold sanitizeName at hs
    simp only at hs
    split at hs
    · subst hs; decide
    · rw [if_neg (by omega)] at hs
      subst hs
      intro hne
      exact trim_getLast_not_mem _ _ hne
  exact key _ rfl _

/-- C2, counterexample. A 256-byte name `aaa...a.b` (254 times `a`) is cut
after the `.`; the second pass trims that `.` and returns a shorter name. -/
theorem sanitizeName_not_idempotent :
    sanitizeName id (List.replicate 254 'a' ++ ".b".toList) = List.replicate 254 'a' ++ ['.'] ∧
    sanitizeName id (sanitizeName id (List.replicate 254 'a' ++ ".b".toList)) =
      List.replicate 254 'a' ∧
    sanitizeName id (sanitizeName id (List.replicate 254 'a' ++ ".b".toList)) ≠
      sanitizeName id (List.replicate 254 'a' ++ ".b".toList) := by
  decide!

/-- C2 (amended). A second pass of `sanitizeName` returns its argument exactly
when the sanitized name does not end in `.` or `-`; that is the case for every
input whose lower-cased, collapsed and trimmed text has at most 255 bytes, so
that nothing was cut off. -/
theorem sanitizeName_idempotent_unless_cut (tbl : Char → Char) (x : Str) :
    (sanitizeName tbl (sanitizeName tbl x) = sanitizeName tbl x ↔
      ∀ c ∈ (sanitizeName tbl x).getLast?, c ≠ '.' ∧ c ≠ '-') ∧
    ((trim ".-".toList (replaceUnsafe (toLower tbl x))).length ≤ 255 →
      sanitizeName tbl (sanitizeName tbl x) = sanitizeName tbl x) := by
  have hne := sanitizeName_ne_nil tbl x
  have hiff := sanitizeName_idem_iff tbl x
  refine ⟨?_, fun h => hiff.mpr (sanitizeName_getLast_of_short tbl x h)⟩
  rw [hiff, List.getLast?_eq_getLast _ hne]
  simp only [String.toList, List.mem_cons, List.mem_singleton, List.not_mem_nil, or_false,
    Option.mem_def, Option.some.injEq, forall_eq', not_or]






/-! ### Splitting and joining -/

theorem splitOnChar_ne_nil (sep : Char) (s : Str) : splitOnChar sep s ≠ [] := by
  induction s with
  | nil => simp [splitOnChar]
  | cons c cs ih =>
    unfold splitOnChar
    split
    · simp
    · cases h : splitOnChar sep cs with
      | nil => exact absurd h ih
      | cons x xs => simp

theorem splitOnChar_cons_sep (sep : Char) (cs : Str) :
    splitOnChar sep (sep :: cs) = [] :: splitOnChar sep cs := by
  conv_lhs => unfold splitOnChar
  simp

theorem splitOnChar_cons_ne (sep c : Char) (cs x : Str) (xs : List Str) (h : c ≠ sep)
    (hs : splitOnChar sep cs = x :: xs) :
    splitOnChar sep (c :: cs) = (c :: x) :: xs := by
  conv_lhs => unfold splitOnChar
  rw [if_neg h, hs]

theorem splitOnChar_exists (sep : Char) (s : Str) :
    ∃ x xs, splitOnChar sep s = x :: xs := by
  cases h : splitOnChar sep s with
  | nil => exact absurd h (splitOnChar_ne_nil sep s)
  | cons x xs => exact ⟨x, xs, rfl⟩

theorem splitOnChar_no_sep (sep : Char) (s : Str) : ∀ x ∈ splitOnChar sep s, sep ∉ x := by
  induction s with
  | nil => simp [splitOnChar]
  | cons c cs ih =>
    intro x hx
    by_cases h : c = sep
    · subst h
      rw [splitOnChar_cons_sep] at hx
      rcases List.mem_cons.mp hx with rfl | hx
      · simp
      · exact ih x hx
    · obtain ⟨y, ys, hs⟩ := splitOnChar_exists sep cs
      rw [splitOnChar_cons_ne sep c cs y ys h hs] at hx
      rw [hs] at ih
      rcases List.mem_cons.mp hx with rfl | hx
      · intro hm
        rcases List.mem_cons.mp hm with e | hm
        · exact h e.symm
        · exact ih _ (List.mem_cons_self _ _) hm
      · exact ih x (List.mem_cons_of_mem _ hx)

theorem splitOnChar_of_not_mem (sep : Char) (s : Str) (h : sep ∉ s) :
    splitOnChar sep s = [s] := by
  induction s with
  | nil => rfl
  | cons c cs ih =>
    have hc : c ≠ sep := fun e => h (by simp [e])
    have hcs : sep ∉ cs := fun hm => h (List.mem_cons_of_mem _ hm)
    exact splitOnChar_cons_ne sep c cs cs [] hc (ih hcs)

theorem splitOnChar_append_sep (sep : Char) (a b : Str) :
    splitOnChar sep (a ++ sep :: b) = splitOnChar sep a ++ splitOnChar sep b := by
  induction a with
  | nil => rw [List.nil_append, splitOnChar_cons_sep]; rfl
  | cons c cs ih =>
    by_cases h : c = sep
    · subst h
      rw [List.cons_append, splitOnChar_cons_sep, splitOnChar_cons_sep, ih]
      rfl
    · obtain ⟨y, ys, hs⟩ := splitOnChar_exists sep cs
      rw [List.cons_append, splitOnChar_cons_ne sep c cs y ys h hs,
        splitOnChar_cons_ne sep c _ y (ys ++ splitOnChar sep b) h (by rw [ih, hs]; rfl)]
      rfl

theorem joinWith_cons (sep : Char) (x : Str) (rest : List Str) (h : rest ≠ []) :
    joinWith sep (x :: rest) = x ++ sep :: joinWith sep rest := by
  cases rest with
  | nil => exact absurd rfl h
  | cons y ys => rfl

theorem splitOnChar_joinWith (sep : Char) (cs : List Str) (h : ∀ x ∈ cs, sep ∉ x)
    (hne : cs ≠ []) : splitOnChar sep (joinWith sep cs) = cs := by
  induction cs with
  | nil => exact absurd rfl hne
  | cons x rest ih =>
    by_cases hr : rest = []
    · subst hr
      simp only [joinWith]
      exact splitOnChar_of_not_mem sep x (h x (List.mem_cons_self _ _))
    · rw [joinWith_cons sep x rest hr, splitOnChar_append_sep,
        splitOnChar_of_not_mem sep x (h x (List.mem_cons_self _ _)),
        ih (fun y hy => h y (List.mem_cons_of_mem _ hy)) hr]
      rfl

theorem joinWith_append_singleton (sep : Char) (cs : List Str) (x : Str) (h : cs ≠ []) :
    joinWith sep (cs ++ [x]) = joinWith sep cs ++ sep :: x := by
  induction cs with
  | nil => exact absurd rfl h
  | cons y rest ih =>
    by_cases hr : rest = []
    · subst hr; simp [joinWith]
    · rw [List.cons_append, joinWith_cons sep y _ (by simp), joinWith_cons sep y rest hr, ih hr]
      simp

/-! ### Cleaning and locating -/

theorem validName_iff (c : Str) :
    validName c = true ↔ c ≠ [] ∧ '/' ∉ c ∧ c ≠ ".".toList ∧ c ≠ "..".toList := by
  simp [validName, and_assoc]

theorem walkComps_append (st xs ys : List Str) :
    walkComps st (xs ++ ys) = walkComps (walkComps st xs) ys := by
  induction xs generalizing st with
  | nil => rfl
  | cons c cs ih =>
    simp only [List.cons_append, walkComps]
    split
    · exact ih _
    · split
      · exact ih _
      · exact ih _

theorem walkComps_valid (st cs : List Str) (h : ∀ c ∈ cs, validName c = true) :
    walkComps st cs = cs.reverse ++ st := by
  induction cs generalizing st with
  | nil => rfl
  | cons c cs ih =>
    obtain ⟨h1, _, h3, h4⟩ := (validName_iff c).mp (h c (List.mem_cons_self _ _))
    simp only [walkComps]
    rw [if_neg (not_or.mpr ⟨h1, h3⟩), if_neg h4,
      ih _ (fun d hd => h d (List.mem_cons_of_mem _ hd))]
    simp

theorem cleanAux_append (r : Bool) (st xs ys : List Str) :
    cleanAux r st (xs ++ ys) = cleanAux r (cleanAux r st xs) ys := by
  induction xs generalizing st with
  | nil => rfl
  | cons c cs ih =>
    simp only [List.cons_append, cleanAux]
    split
    · exact ih _
    · split
      · split
        · split
          · exact ih _
          · exact ih _
        · split
          · exact ih _
          · exact ih _
      · exact ih _

theorem cleanAux_valid (r : Bool) (st cs : List Str) (h : ∀ c ∈ cs, validName c = true) :
    cleanAux r st cs = cs.reverse ++ st := by
  induction cs generalizing st with
  | nil => rfl
  | cons c cs ih =>
    obtain ⟨h1, _, h3, h4⟩ := (validName_iff c).mp (h c (List.mem_cons_self _ _))
    simp only [cleanAux]
    rw [if_neg (not_or.mpr ⟨h1, h3⟩), if_neg h4,
      ih _ (fun d hd => h d (List.mem_cons_of_mem _ hd))]
    simp

theorem StackOk.cons {c : Str} {st : List Str} (h1 : c ≠ []) (h2 : c ≠ ".".toList)
    (hst : StackOk st) : StackOk (c :: st) := by
  intro d hd
  rcases List.mem_cons.mp hd with rfl | hd
  · exact ⟨h1, h2⟩
  · exact hst d hd

theorem StackOk.tail {c : Str} {st : List Str} (hst : StackOk (c :: st)) : StackOk st :=
  fun d hd => hst d (List.mem_cons_of_mem _ hd)

theorem StackOk.nil : StackOk [] := by
  intro d hd; simp at hd

theorem cleanAux_stackOk (r : Bool) (st xs : List Str) (hst : StackOk st) :
    StackOk (cleanAux r st xs) := by
  induction xs generalizing st with
  | nil => exact hst
  | cons c cs ih =>
    simp only [cleanAux]
    split
    · exact ih _ hst
    · rename_i h1
      obtain ⟨h1a, h1b⟩ := not_or.mp h1
      split
      · split
        · split
          · exact ih _ StackOk.nil
          · exact ih _ (StackOk.cons h1a h1b StackOk.nil)
        · split
          · exact ih _ (StackOk.cons h1a h1b hst)
          · exact ih _ hst.tail
      · exact ih _ (StackOk.cons h1a h1b hst)

theorem cleanAux_mem (r : Bool) (st xs : List Str) :
    ∀ c ∈ cleanAux r st xs, c ∈ st ∨ c ∈ xs := by
  induction xs generalizing st with
  | nil => intro c hc; exact Or.inl hc
  | cons x cs ih =>
    intro c hc
    simp only [cleanAux] at hc
    have step : ∀ st', (∀ d ∈ st', d ∈ st ∨ d = x) → c ∈ cleanAux r st' cs →
        c ∈ st ∨ c ∈ x :: cs := by
      intro st' hst' h
      rcases ih st' c h with h | h
      · rcases hst' c h with h | h
        · exact Or.inl h
        · exact Or.inr (by simp [h])
      · exact Or.inr (List.mem_cons_of_mem _ h)
    split at hc
    · exact step st (fun d hd => Or.inl hd) hc
    · split at hc
      · split at hc
        · split at hc
          · exact step [] (by intro d hd; simp at hd) hc
          · exact step [x] (by intro d hd; simp at hd; exact Or.inr hd) hc
        · rename_i top below
          split at hc
          · refine step (x :: top :: below) ?_ hc
            intro d hd
            rcases List.mem_cons.mp hd with h | h
            · exact Or.inr h
            · exact Or.inl h
          · exact step below (fun d hd => Or.inl (List.mem_cons_of_mem _ hd)) hc
      · refine step (x :: st) ?_ hc
        intro d hd
        rcases List.mem_cons.mp hd with h | h
        · exact Or.inr h
        · exact Or.inl h

theorem walkComps_snoc (st0 xs : List Str) (c : Str) :
    walkComps st0 (xs ++ [c]) =
      if c = [] ∨ c = ".".toList then walkComps st0 xs
      else if c = "..".toList then (walkComps st0 xs).tail
      else c :: walkComps st0 xs := by
  rw [walkComps_append]
  simp only [walkComps]

/-- Cleaning does not change where a list of components leads. -/
theorem walkComps_cleanAux (r : Bool) (st0 st xs : List Str) (hr : r = true → st0 = [])
    (hst : StackOk st) :
    walkComps st0 (cleanAux r st xs).reverse = walkComps (walkComps st0 st.reverse) xs := by
  induction xs generalizing st with
  | nil => rfl
  | cons c cs ih =>
    simp only [cleanAux, walkComps]
    split
    · exact ih _ hst
    · rename_i h1
      obtain ⟨h1a, h1b⟩ := not_or.mp h1
      split
      · rename_i h2
        split
        · split
          · rename_i hrt
            rw [ih _ StackOk.nil]
            simp [walkComps, hr hrt]
          · rw [ih _ (StackOk.cons h1a h1b StackOk.nil)]
            congr 1
            rw [List.reverse_singleton, ← List.nil_append [c], walkComps_snoc, if_neg h1,
              if_pos h2]
            rfl
        · rename_i top below
          split
          · rename_i htop
            rw [ih _ (StackOk.cons h1a h1b hst)]
            congr 1
            rw [List.reverse_cons, walkComps_snoc, if_neg h1, if_pos h2]
          · rename_i htop
            rw [ih _ hst.tail]
            congr 1
            have ht := hst top (List.mem_cons_self _ _)
            rw [List.reverse_cons, walkComps_snoc, if_neg (not_or.mpr ⟨ht.1, ht.2⟩),
              if_neg htop]
            rfl
      · rename_i h2
        rw [ih _ (StackOk.cons h1a h1b hst)]
        congr 1
        rw [List.reverse_cons, walkComps_snoc, if_neg h1, if_neg h2]

/-! ### Locations of cleaned and joined paths -/

theorem filepathIsAbs_nil : filepathIsAbs [] = false := rfl

theorem filepathIsAbs_cons (c : Char) (s : Str) : filepathIsAbs (c :: s) = decide (c = '/') := by
  simp only [filepathIsAbs, hasPrefix, String.toList, List.isPrefixOf, Bool.and_true]
  by_cases h : c = '/'
  · subst h; rfl
  · have h2 : ¬ '/' = c := fun e => h e.symm
    simp [h, h2]

theorem filepathIsAbs_append (a b : Str) (h : a ≠ []) :
    filepathIsAbs (a ++ b) = filepathIsAbs a := by
  cases a with
  | nil => exact absurd rfl h
  | cons c cs => rw [List.cons_append, filepathIsAbs_cons, filepathIsAbs_cons]

theorem locate_eq (P : Platform) (p : Str) :
    locate P p = loc P (filepathIsAbs p) (splitPath p) := rfl

theorem filepathClean_eq (p : Str) (h : p ≠ []) :
    filepathClean p =
      render (filepathIsAbs p) (cleanAux (filepathIsAbs p) [] (splitPath p)).reverse := by
  unfold filepathClean render
  rw [if_neg h]

theorem compsOk_clean (r : Bool) (p : Str) : CompsOk (cleanAux r [] (splitPath p)).reverse := by
  intro c hc
  rw [List.mem_reverse] at hc
  have h1 := cleanAux_stackOk r [] (splitPath p) StackOk.nil c hc
  refine ⟨h1.1, h1.2, ?_⟩
  rcases cleanAux_mem r [] (splitPath p) c hc with h | h
  · simp at h
  · exact splitOnChar_no_sep '/' p c h

theorem joinPath_head_ne (o : List Str) (ho : CompsOk o) (hne : o ≠ []) :
    ∃ c s, joinPath o = c :: s ∧ c ≠ '/' := by
  cases o with
  | nil => exact absurd rfl hne
  | cons x rest =>
    obtain ⟨h1, _, h3⟩ := ho x (List.mem_cons_self _ _)
    cases x with
    | nil => exact absurd rfl h1
    | cons c cs =>
      refine ⟨c, ?_, ?_, ?_⟩
      · exact (joinPath (( c :: cs) :: rest)).tail
      · unfold joinPath
        cases rest with
        | nil => rfl
        | cons y ys => rfl
      · intro e; exact h3 (by simp [e])

theorem isAbs_render (r : Bool) (o : List Str) (ho : CompsOk o) :
    filepathIsAbs (render r o) = r := by
  unfold render
  cases r with
  | true => simp [filepathIsAbs_cons]
  | false =>
    simp only [Bool.false_eq_true, if_false]
    split
    · rfl
    · rename_i hne
      obtain ⟨c, s, hcs, hc⟩ := joinPath_head_ne o ho hne
      rw [hcs, filepathIsAbs_cons]
      simp [hc]

theorem splitPath_joinPath (o : List Str) (ho : ∀ c ∈ o, '/' ∉ c) (hne : o ≠ []) :
    splitPath (joinPath o) = o :=
  splitOnChar_joinWith '/' o ho hne

theorem walkComps_nil_cons (st xs : List Str) : walkComps st ([] :: xs) = walkComps st xs := by
  simp [walkComps]

theorem walk_split_render (r : Bool) (st0 o : List Str) (ho : CompsOk o) :
    walkComps st0 (splitPath (render r o)) = walkComps st0 o := by
  have hsep : ∀ c ∈ o, '/' ∉ c := fun c hc => (ho c hc).2.2
  unfold render
  cases r with
  | true =>
    simp only [if_true]
    unfold splitPath
    rw [splitOnChar_cons_sep, walkComps_nil_cons]
    by_cases hne : o = []
    · subst hne; rfl
    · have := splitPath_joinPath o hsep hne
      unfold splitPath at this
      rw [this]
  | false =>
    simp only [Bool.false_eq_true, if_false]
    split
    · rename_i h; subst h; rfl
    · rename_i hne
      rw [splitPath_joinPath o hsep hne]

theorem loc_clean (P : Platform) (r : Bool) (xs : List Str) :
    loc P r (cleanAux r [] xs).reverse = loc P r xs := by
  unfold loc
  rw [walkComps_cleanAux r _ [] xs (by intro h; simp [h]) StackOk.nil]
  rfl

theorem locate_render (P : Platform) (r : Bool) (o : List Str) (ho : CompsOk o) :
    locate P (render r o) = loc P r o := by
  rw [locate_eq, isAbs_render r o ho]
  unfold loc
  rw [walk_split_render r _ o ho]

/-- Cleaning a path does not change the location it names. -/
theorem locate_clean (P : Platform) (p : Str) : locate P (filepathClean p) = locate P p := by
  by_cases h : p = []
  · subst h; rfl
  · rw [filepathClean_eq p h, locate_render P _ _ (compsOk_clean _ p), loc_clean, locate_eq]

theorem compsOk_of_valid (cs : List Str) (h : ∀ c ∈ cs, validName c = true) : CompsOk cs := by
  intro c hc
  obtain ⟨h1, h2, h3, _⟩ := (validName_iff c).mp (h c hc)
  exact ⟨h1, h3, h2⟩

theorem loc_append_valid (P : Platform) (r : Bool) (o cs : List Str)
    (h : ∀ c ∈ cs, validName c = true) : loc P r (o ++ cs) = loc P r o ++ cs := by
  unfold loc
  rw [walkComps_append, walkComps_valid _ cs h]
  simp

theorem walk_split_joinPath_valid (st cs : List Str) (h : ∀ c ∈ cs, validName c = true) :
    walkComps st (splitPath (joinPath cs)) = cs.reverse ++ st := by
  by_cases hne : cs = []
  · subst hne; rfl
  · rw [splitPath_joinPath cs (fun c hc => (compsOk_of_valid cs h c hc).2.2) hne,
      walkComps_valid st cs h]

/-- A relative path made of file names, joined to a directory, names the
location below that of the directory. -/
theorem locate_join (P : Platform) (D : Str) (cs : List Str)
    (h : ∀ c ∈ cs, validName c = true) (hne : cs ≠ []) :
    locate P (filepathJoin D (joinPath cs)) = locate P D ++ cs := by
  have hj : joinPath cs ≠ [] := by
    obtain ⟨c, s, hcs, _⟩ := joinPath_head_ne cs (compsOk_of_valid cs h) hne
    rw [hcs]; simp
  unfold filepathJoin
  by_cases hD : D = []
  · subst hD
    rw [if_neg (by simp), if_pos hj, locate_clean, locate_eq, locate_eq]
    obtain ⟨c, s, hcs, hc⟩ := joinPath_head_ne cs (compsOk_of_valid cs h) hne
    have habs : filepathIsAbs (joinPath cs) = false := by
      rw [hcs, filepathIsAbs_cons]; simp [hc]
    rw [habs, filepathIsAbs_nil]
    unfold loc
    rw [walk_split_joinPath_valid _ cs h]
    simp [splitPath, splitOnChar, walkComps]
  · rw [if_pos hD, locate_clean, locate_eq, locate_eq, filepathIsAbs_append D _ hD]
    unfold loc splitPath
    rw [splitOnChar_append_sep, walkComps_append]
    have := walk_split_joinPath_valid
      (walkComps (if filepathIsAbs D = true then [] else P.cwd.reverse) (splitOnChar '/' D)) cs h
    unfold splitPath at this
    rw [this]
    simp

/-! ### Effects of the calls of package os -/

theorem osStat_fs (P : Platform) (w : World) (p : Str) : (osStat P w p).2.fs = w.fs := rfl

theorem osStat_log (P : Platform) (w : World) (p : Str) :
    (osStat P w p).2.log = w.log ++ [.stat p] := rfl

theorem osRemoveAll_log (P : Platform) (w : World) (p : Str) :
    (osRemoveAll P w p).2.log = w.log ++ [.removeAll p] := by
  unfold osRemoveAll
  simp only
  split
  · rfl
  · split
    · rfl
    · split <;> rfl

/-- `os.RemoveAll` changes nothing outside the subtree it is given. -/
theorem osRemoveAll_frame (P : Platform) (w : World) (p : Str) (q : List Str)
    (h : ¬ locate P p <+: q) : (osRemoveAll P w p).2.fs q = w.fs q := by
  unfold osRemoveAll
  simp only
  split
  · rfl
  · split
    · rfl
    · split
      · rfl
      · simp [World.logged, h]

theorem validName_sanitizeName (tbl : Char → Char) (x : Str) :
    validName (sanitizeName tbl x) = true := by
  have hall := sanitizeName_allowed tbl x
  have hhead := sanitizeName_head tbl x
  refine (validName_iff _).mpr ⟨sanitizeName_ne_nil tbl x, ?_, ?_, ?_⟩
  · intro h; exact absurd (hall _ h) (by decide)
  · intro h
    rw [h] at hhead
    exact (hhead '.' (by simp)).1 rfl
  · intro h
    rw [h] at hhead
    exact (hhead '.' (by simp)).1 rfl

theorem joinPath_singleton (s : Str) : joinPath [s] = s := rfl

/-- Joining a file name to a directory names the child of that name. -/
theorem locate_join_name (P : Platform) (D s : Str) (h : validName s = true) :
    locate P (filepathJoin D s) = locate P D ++ [s] := by
  have := locate_join P D [s] (by simpa using h) (by simp)
  rwa [joinPath_singleton] at this

/-- The loop of `Remove`: it stats and removes bundle paths of the listed
directories only, and leaves the rest of the file system as it is. -/
theorem removeFrom_spec (P : Platform) (targets : List (Str × List Str)) (s : Str)
    (dirs : List Str) (w : World) (results : List Result) :
    ∃ new : List Event,
      (removeFrom P targets s dirs w results).2.log = w.log ++ new ∧
      (∀ e ∈ new, ∃ D ∈ dirs,
        e = .stat (filepathJoin D s) ∨ e = .removeAll (filepathJoin D s)) ∧
      (∀ q, (∀ D ∈ dirs, ¬ locate P (filepathJoin D s) <+: q) →
        (removeFrom P targets s dirs w results).2.fs q = w.fs q) := by
  induction dirs generalizing w results with
  | nil => exact ⟨[], by simp [removeFrom], by simp, fun q _ => rfl⟩
  | cons D rest ih =>
    unfold removeFrom
    simp only
    by_cases hex : (osStat P w (filepathJoin D s)).1 = true
    · rw [if_pos hex]
      cases hrm : osRemoveAll P (osStat P w (filepathJoin D s)).2 (filepathJoin D s) with
      | mk r w2 =>
        have hlog : w2.log = w.log ++ [.stat (filepathJoin D s), .removeAll (filepathJoin D s)] := by
          have := osRemoveAll_log P (osStat P w (filepathJoin D s)).2 (filepathJoin D s)
          rw [hrm, osStat_log] at this
          simpa using this
        have hfs : ∀ q, ¬ locate P (filepathJoin D s) <+: q → w2.fs q = w.fs q := by
          intro q hq
          have := osRemoveAll_frame P (osStat P w (filepathJoin D s)).2 (filepathJoin D s) q hq
          rwa [hrm] at this
        cases r with
        | error e =>
          refine ⟨[.stat (filepathJoin D s), .removeAll (filepathJoin D s)], hlog, ?_, ?_⟩
          · intro e he
            refine ⟨D, List.mem_cons_self _ _, ?_⟩
            simpa using he
          · intro q hq
            exact hfs q (hq D (List.mem_cons_self _ _))
        | ok u =>
          obtain ⟨new, h1, h2, h3⟩ := ih w2
            (results ++ (mapGet targets D).map
              (fun an => ⟨an, filepathJoin D s, (osStat P w (filepathJoin D s)).1, []⟩))
          refine ⟨[.stat (filepathJoin D s), .removeAll (filepathJoin D s)] ++ new, ?_, ?_, ?_⟩
          · simp only [h1, hlog, List.append_assoc]
          · intro e he
            rcases List.mem_append.mp he with he | he
            · exact ⟨D, List.mem_cons_self _ _, by simpa using he⟩
            · obtain ⟨D', hD', h⟩ := h2 e he
              exact ⟨D', List.mem_cons_of_mem _ hD', h⟩
          · intro q hq
            simp only
            rw [h3 q (fun D' hD' => hq D' (List.mem_cons_of_mem _ hD'))]
            exact hfs q (hq D (List.mem_cons_self _ _))
    · rw [if_neg hex]
      simp only
      obtain ⟨new, h1, h2, h3⟩ := ih (osStat P w (filepathJoin D s)).2
        (results ++ (mapGet targets D).map
          (fun an => ⟨an, filepathJoin D s, (osStat P w (filepathJoin D s)).1, []⟩))
      refine ⟨[.stat (filepathJoin D s)] ++ new, ?_, ?_, ?_⟩
      · simp only [h1, osStat_log, List.append_assoc]
      · intro e he
        rcases List.mem_append.mp he with he | he
        · exact ⟨D, List.mem_cons_self _ _, Or.inl (by simpa using he)⟩
        · obtain ⟨D', hD', h⟩ := h2 e he
          exact ⟨D', List.mem_cons_of_mem _ hD', h⟩
      · intro q hq
        rw [h3 q (fun D' hD' => hq D' (List.mem_cons_of_mem _ hD'))]
        rfl

theorem mem_sortedKeys {β : Type} (m : List (Str × β)) (D : Str) :
    D ∈ sortedKeys m ↔ D ∈ m.map Prod.fst :=
  (List.perm_insertionSort _ _).mem_iff

/-- C3. `Remove` stats and deletes nothing but the paths `D/sanitizeName(name)`
of the resolved target directories `D`; each such path names the child
`sanitizeName(name)` of the location of `D`; and whatever is not at or below
one of these locations is the same after the call as before. -/
theorem Remove_stays_below_targets (P : Platform) (name : Str) (opts : Options) (w : World) :
    ∃ new : List Event,
      (Remove P name opts w).2.log = w.log ++ new ∧
      (∀ e ∈ new, ∃ targets D, resolveTargets P opts = .ok targets ∧
        D ∈ targets.map Prod.fst ∧
        (e = .stat (filepathJoin D (sanitizeName P.lowerTable name)) ∨
          e = .removeAll (filepathJoin D (sanitizeName P.lowerTable name)))) ∧
      (∀ D, locate P (filepathJoin D (sanitizeName P.lowerTable name)) =
        locate P D ++ [sanitizeName P.lowerTable name]) ∧
      (∀ q, (∀ targets, resolveTargets P opts = .ok targets → ∀ D ∈ targets.map Prod.fst,
          ¬ locate P D ++ [sanitizeName P.lowerTable name] <+: q) →
        (Remove P name opts w).2.fs q = w.fs q) := by
  have hloc : ∀ D, locate P (filepathJoin D (sanitizeName P.lowerTable name)) =
      locate P D ++ [sanitizeName P.lowerTable name] :=
    fun D => locate_join_name P D _ (validName_sanitizeName _ _)
  unfold Remove
  split
  · exact ⟨[], by simp, by simp, hloc, fun q _ => rfl⟩
  · split
    · exact ⟨[], by simp, by simp, hloc, fun q _ => rfl⟩
    · simp only
      cases hrt : resolveTargets P opts with
      | error e => exact ⟨[], by simp, by simp, hloc, fun q _ => rfl⟩
      | ok targets =>
        simp only
        obtain ⟨new, h1, h2, h3⟩ := removeFrom_spec P targets
          (sanitizeName P.lowerTable name) (sortedKeys targets) w []
        refine ⟨new, h1, ?_, hloc, ?_⟩
        · intro e he
          obtain ⟨D, hD, h⟩ := h2 e he
          exact ⟨targets, D, rfl, (mem_sortedKeys targets D).mp hD, h⟩
        · intro q hq
          apply h3 q
          intro D hD
          rw [hloc D]
          exact hq targets rfl D ((mem_sortedKeys targets D).mp hD)

/-- C4, failing input. With the manifest of some other tool at
`/p/.claude/evil/SKILL.md` and target directory `/p/.claude/skills`,
`InstalledVersion("../evil")` reads that manifest, outside the target
directory, and returns its version, while for the sanitized name `evil` it
reads `/p/.claude/skills/evil/SKILL.md` and returns the empty string. -/
theorem InstalledVersion_unsanitized :
    sanitizeName id "../evil".toList = "evil".toList ∧
    resolveTargets plainPlatform ⟨["claude-code".toList], "/p".toList, false⟩ =
      .ok [("/p/.claude/skills".toList, ["claude-code".toList])] ∧
    (InstalledVersion plainPlatform "../evil".toList
      ⟨["claude-code".toList], "/p".toList, false⟩
      ⟨fsOfFiles [(["p".toList, ".claude".toList, "evil".toList, "SKILL.md".toList],
        manifestText "evil".toList "6.6.6".toList)], []⟩).1 = .ok "6.6.6".toList ∧
    (InstalledVersion plainPlatform "../evil".toList
      ⟨["claude-code".toList], "/p".toList, false⟩
      ⟨fsOfFiles [(["p".toList, ".claude".toList, "evil".toList, "SKILL.md".toList],
        manifestText "evil".toList "6.6.6".toList)], []⟩).2.log =
      [.readFile "/p/.claude/evil/SKILL.md".toList] ∧
    (InstalledVersion plainPlatform "evil".toList
      ⟨["claude-code".toList], "/p".toList, false⟩
      ⟨fsOfFiles [(["p".toList, ".claude".toList, "evil".toList, "SKILL.md".toList],
        manifestText "evil".toList "6.6.6".toList)], []⟩).1 = .ok [] ∧
    (InstalledVersion plainPlatform "evil".toList
      ⟨["claude-code".toList], "/p".toList, false⟩
      ⟨fsOfFiles [(["p".toList, ".claude".toList, "evil".toList, "SKILL.md".toList],
        manifestText "evil".toList "6.6.6".toList)], []⟩).2.log =
      [.readFile "/p/.claude/skills/evil/SKILL.md".toList] := by
  decide

/-- C10, failing input. In the tree with the files `A/SKILL.md` and `SKILL.md`
the directory `A` sorts before `SKILL.md`, so the walk has left it before the
manifest of the root ends the walk of the root: `findSkills` returns the
bundle rooted at `A` and the bundle rooted at `.`, whose file map holds
`A/SKILL.md` as well. -/
theorem findSkills_nested_bundle :
    findSkillRoots id
      (.dir (.cons "A".toList
          (.dir (.cons "SKILL.md".toList (.file (manifestText "inner".toList [])) .nil))
        (.cons "SKILL.md".toList (.file (manifestText "outer".toList [])) .nil))) =
    .ok [(["A".toList], ⟨"inner".toList,
            [("SKILL.md".toList, manifestText "inner".toList [])]⟩),
         ([], ⟨"outer".toList,
            [("A/SKILL.md".toList, manifestText "inner".toList []),
             ("SKILL.md".toList, manifestText "outer".toList [])]⟩)] := by
  decide

/-! ### Validation -/

theorem resolveTargetsFrom_unknown (P : Platform) (opts : Options) (names : List Str)
    (m : List (Str × List Str)) (h : ∃ a ∈ names, agentIndex a = none) :
    ∃ e, resolveTargetsFrom P opts names m = .error e := by
  induction names generalizing m with
  | nil => obtain ⟨a, ha, _⟩ := h; simp at ha
  | cons n rest ih =>
    unfold resolveTargetsFrom
    cases hn : agentIndex n with
    | none => exact ⟨_, rfl⟩
    | some a =>
      simp only
      apply ih
      obtain ⟨b, hb, hbn⟩ := h
      rcases List.mem_cons.mp hb with rfl | hb
      · rw [hn] at hbn; cases hbn
      · exact ⟨b, hb, hbn⟩

/-- C5. `Install` fails when the agent list is empty, when some identifier of
the list is not in the registry, or when no bundle is discovered; `Remove`
fails when the agent list is empty, the name is empty, or some identifier is
unknown.  In each of these cases the world after the call is the world before
it: the file system is unchanged and no call of package os was made. -/
theorem validation_fails_without_effect (P : Platform) (fsys : SrcNode) (name : Str)
    (opts : Options) (w : World) :
    ((opts.Agents = [] ∨ (∃ a ∈ opts.Agents, agentIndex a = none) ∨
        findSkills P.lowerTable fsys = .ok []) →
      ∃ e, Install P fsys opts w = (.error e, w)) ∧
    ((opts.Agents = [] ∨ name = [] ∨ ∃ a ∈ opts.Agents, agentIndex a = none) →
      ∃ e, Remove P name opts w = (.error e, w)) := by
  constructor
  · intro h
    unfold Install
    split
    · exact ⟨_, rfl⟩
    · rename_i hlen
      have hne : opts.Agents ≠ [] := fun e => hlen (by simp [e])
      cases hfs : findSkills P.lowerTable fsys with
      | error e => exact ⟨_, rfl⟩
      | ok skills =>
        simp only
        split
        · exact ⟨_, rfl⟩
        · rename_i hsk
          rcases h with h | h | h
          · exact absurd h hne
          · obtain ⟨e, he⟩ := resolveTargetsFrom_unknown P opts opts.Agents [] h
            unfold resolveTargets
            rw [he]
            exact ⟨_, rfl⟩
          · rw [hfs] at h
            cases h
            exact absurd rfl hsk
  · intro h
    unfold Remove
    split
    · exact ⟨_, rfl⟩
    · rename_i hlen
      have hne : opts.Agents ≠ [] := fun e => hlen (by simp [e])
      split
      · exact ⟨_, rfl⟩
      · rename_i hname
        rcases h with h | h | h
        · exact absurd h hne
        · exact absurd h hname
        · obtain ⟨e, he⟩ := resolveTargetsFrom_unknown P opts opts.Agents [] h
          simp only
          unfold resolveTargets
          rw [he]
          exact ⟨_, rfl⟩

/-! ### The target map -/

theorem mapGet_nil (k : Str) : mapGet [] k = [] := rfl

theorem mapGet_cons_self (k : Str) (v : List Str) (m : List (Str × List Str)) :
    mapGet ((k, v) :: m) k = v := by
  simp [mapGet, List.lookup_cons]

theorem mapGet_cons_ne (k k1 : Str) (v : List Str) (m : List (Str × List Str)) (h : k1 ≠ k) :
    mapGet ((k1, v) :: m) k = mapGet m k := by
  have : (k == k1) = false := by
    rw [beq_eq_false_iff_ne]
    exact fun e => h e.symm
  simp [mapGet, List.lookup_cons, this]

theorem mapSet_keys {β : Type} (m : List (Str × β)) (k : Str) (v : β) :
    (mapSet m k v).map Prod.fst =
      if k ∈ m.map Prod.fst then m.map Prod.fst else m.map Prod.fst ++ [k] := by
  induction m with
  | nil => rfl
  | cons e rest ih =>
    obtain ⟨k1, v1⟩ := e
    unfold mapSet
    by_cases h : k1 = k
    · subst h
      rw [if_pos rfl, if_pos (by rw [List.map_cons]; exact List.mem_cons_self _ _)]
      rfl
    · have h2 : ¬ k = k1 := fun e => h e.symm
      rw [if_neg h, List.map_cons, ih, List.map_cons]
      by_cases hk : k ∈ rest.map Prod.fst
      · rw [if_pos hk, if_pos (List.mem_cons_of_mem _ hk)]
      · rw [if_neg hk, if_neg (by
          intro hm
          rcases List.mem_cons.mp hm with hm | hm
          · exact h2 hm
          · exact hk hm)]
        rfl

theorem mapSet_nodup {β : Type} (m : List (Str × β)) (k : Str) (v : β)
    (h : (m.map Prod.fst).Nodup) : ((mapSet m k v).map Prod.fst).Nodup := by
  rw [mapSet_keys]
  split
  · exact h
  · rename_i hk
    refine List.Nodup.append h (List.nodup_singleton k) ?_
    intro x hx hx2
    rw [List.mem_singleton] at hx2
    subst hx2
    exact hk hx

theorem mem_mapSet {β : Type} (m : List (Str × β)) (k : Str) (v : β) (e : Str × β)
    (h : e ∈ mapSet m k v) : e ∈ m ∨ e = (k, v) := by
  induction m with
  | nil => simpa [mapSet] using h
  | cons e1 rest ih =>
    obtain ⟨k1, v1⟩ := e1
    unfold mapSet at h
    split at h
    · rcases List.mem_cons.mp h with h | h
      · exact Or.inr h
      · exact Or.inl (List.mem_cons_of_mem _ h)
    · rcases List.mem_cons.mp h with h | h
      · exact Or.inl (by simp [h])
      · rcases ih h with h | h
        · exact Or.inl (List.mem_cons_of_mem _ h)
        · exact Or.inr h

theorem mem_mapGet (m : List (Str × List Str)) (k n : Str) (h : n ∈ mapGet m k) :
    ∃ ns, (k, ns) ∈ m ∧ n ∈ ns := by
  induction m with
  | nil => simp [mapGet] at h
  | cons e rest ih =>
    obtain ⟨k1, v1⟩ := e
    by_cases hk : k1 = k
    · subst hk
      rw [mapGet_cons_self] at h
      exact ⟨v1, List.mem_cons_self _ _, h⟩
    · rw [mapGet_cons_ne k k1 v1 rest hk] at h
      obtain ⟨ns, h1, h2⟩ := ih h
      exact ⟨ns, List.mem_cons_of_mem _ h1, h2⟩

theorem flat_mapSet (m : List (Str × List Str)) (k n : Str) :
    ((mapSet m k (mapGet m k ++ [n])).flatMap Prod.snd).Perm (m.flatMap Prod.snd ++ [n]) := by
  induction m with
  | nil => simp [mapSet, mapGet]
  | cons e rest ih =>
    obtain ⟨k1, v1⟩ := e
    unfold mapSet
    by_cases h : k1 = k
    · subst h
      rw [if_pos rfl, mapGet_cons_self]
      simp only [List.flatMap_cons, List.append_assoc]
      exact List.Perm.append_left _ List.perm_append_comm
    · rw [if_neg h, mapGet_cons_ne k k1 v1 rest h]
      simp only [List.flatMap_cons, List.append_assoc]
      exact List.Perm.append_left _ ih

theorem flatMap_keys (m : List (Str × List Str)) (h : (m.map Prod.fst).Nodup) :
    (m.map Prod.fst).flatMap (mapGet m) = m.flatMap Prod.snd := by
  induction m with
  | nil => rfl
  | cons e rest ih =>
    obtain ⟨k1, v1⟩ := e
    rw [List.map_cons, List.nodup_cons] at h
    simp only [List.map_cons, List.flatMap_cons, mapGet_cons_self]
    congr 1
    rw [← ih h.2]
    apply List.flatMap_congr
    intro k hk
    exact mapGet_cons_ne k k1 v1 rest (fun e => h.1 (e ▸ hk))

theorem resolveTargetsFrom_spec (P : Platform) (opts : Options) (names : List Str)
    (m t : List (Str × List Str)) (h : resolveTargetsFrom P opts names m = .ok t)
    (hnd : (m.map Prod.fst).Nodup) (hgood : TargetsGood P opts m) :
    (t.map Prod.fst).Nodup ∧ TargetsGood P opts t ∧
    (t.flatMap Prod.snd).Perm (m.flatMap Prod.snd ++ names) ∧
    (∀ D, D ∈ t.map Prod.fst ↔ D ∈ m.map Prod.fst ∨
      ∃ n ∈ names, ∃ a, agentIndex n = some a ∧ targetDir P opts a = D) := by
  induction names generalizing m with
  | nil =>
    simp only [resolveTargetsFrom, Except.ok.injEq] at h
    subst h
    exact ⟨hnd, hgood, by simp, by simp⟩
  | cons n rest ih =>
    unfold resolveTargetsFrom at h
    cases hn : agentIndex n with
    | none => rw [hn] at h; cases h
    | some a =>
      rw [hn] at h
      simp only at h
      have hgood' : TargetsGood P opts
          (mapSet m (targetDir P opts a) (mapGet m (targetDir P opts a) ++ [n])) := by
        intro D ns hmem x hx
        rcases mem_mapSet _ _ _ _ hmem with h1 | h1
        · exact hgood D ns h1 x hx
        · simp only [Prod.mk.injEq] at h1
          obtain ⟨rfl, rfl⟩ := h1
          rcases List.mem_append.mp hx with hx | hx
          · obtain ⟨ns', h2, h3⟩ := mem_mapGet _ _ _ hx
            exact hgood _ ns' h2 x h3
          · simp only [List.mem_singleton] at hx
            subst hx
            exact ⟨a, hn, rfl⟩
      obtain ⟨h1, h2, h3, h4⟩ := ih _ h (mapSet_nodup _ _ _ hnd) hgood'
      refine ⟨h1, h2, ?_, ?_⟩
      · refine h3.trans ?_
        refine ((flat_mapSet m (targetDir P opts a) n).append_right rest).trans ?_
        simp
      · intro D
        rw [h4 D, mapSet_keys]
        constructor
        · rintro (hD | ⟨x, hx, b, hb, hD⟩)
          · split at hD
            · exact Or.inl hD
            · rcases List.mem_append.mp hD with hD | hD
              · exact Or.inl hD
              · simp only [List.mem_singleton] at hD
                exact Or.inr ⟨n, List.mem_cons_self _ _, a, hn, hD.symm⟩
          · exact Or.inr ⟨x, List.mem_cons_of_mem _ hx, b, hb, hD⟩
        · rintro (hD | ⟨x, hx, b, hb, hD⟩)
          · left
            split
            · exact hD
            · exact List.mem_append_left _ hD
          · rcases List.mem_cons.mp hx with rfl | hx
            · left
              rw [hn] at hb
              cases hb
              subst hD
              split
              · assumption
              · simp
            · exact Or.inr ⟨x, hx, b, hb, hD⟩

/-- What `resolveTargets` returns: a map with one key for each directory that
some listed agent resolves to, whose values together are the agent list. -/
theorem resolveTargets_spec (P : Platform) (opts : Options) (t : List (Str × List Str))
    (h : resolveTargets P opts = .ok t) :
    (t.map Prod.fst).Nodup ∧ TargetsGood P opts t ∧
    ((sortedKeys t).flatMap (mapGet t)).Perm opts.Agents ∧
    (∀ D, D ∈ t.map Prod.fst ↔
      ∃ n ∈ opts.Agents, ∃ a, agentIndex n = some a ∧ targetDir P opts a = D) := by
  obtain ⟨h1, h2, h3, h4⟩ := resolveTargetsFrom_spec P opts opts.Agents [] t h
    (by simp) (by intro D ns hm; simp at hm)
  refine ⟨h1, h2, ?_, by simpa using h4⟩
  have hp : (sortedKeys t).Perm (t.map Prod.fst) := List.perm_insertionSort _ _
  refine (hp.flatMap_right _).trans ?_
  rw [flatMap_keys t h1]
  simpa using h3

/-! ### Logs of the loops -/

theorem osReadFile_fs (P : Platform) (w : World) (p : Str) : (osReadFile P w p).2.fs = w.fs := rfl

theorem osReadFile_log (P : Platform) (w : World) (p : Str) :
    (osReadFile P w p).2.log = w.log ++ [.readFile p] := rfl

theorem osMkdirAll_log (P : Platform) (w : World) (p : Str) :
    (osMkdirAll P w p).2.log = w.log ++ [.mkdirAll p] := by
  unfold osMkdirAll
  simp only
  split
  · rfl
  · split <;> rfl

theorem osWriteFile_log (P : Platform) (w : World) (p d : Str) :
    (osWriteFile P w p d).2.log = w.log ++ [.writeFile p d] := by
  unfold osWriteFile
  simp only
  split
  · rfl
  · split
    · rfl
    · split
      · rfl
      · rfl
      · split <;> rfl

theorem installedVersionAt_fs (P : Platform) (w : World) (d : Str) :
    (installedVersionAt P w d).2.fs = w.fs := by
  unfold installedVersionAt
  split <;> rename_i h <;> simp only <;> rw [← osReadFile_fs P w, h]

theorem installedVersionAt_log (P : Platform) (w : World) (d : Str) :
    (installedVersionAt P w d).2.log =
      w.log ++ [.readFile (filepathJoin d "SKILL.md".toList)] := by
  unfold installedVersionAt
  split <;> rename_i h <;> simp only <;> rw [← osReadFile_log P w, h]

theorem writeEntries_log (P : Platform) (dir : Str) (files : List (Str × Str)) (w : World) :
    ∃ new, (writeEntries P dir files w).2.log = w.log ++ new ∧
      new.filterMap Event.removePath = [] ∧ new.filterMap Event.statPath = [] := by
  induction files generalizing w with
  | nil => exact ⟨[], by simp [writeEntries], rfl, rfl⟩
  | cons f rest ih =>
    obtain ⟨rel, content⟩ := f
    unfold writeEntries
    simp only
    have h1 := osMkdirAll_log P w (filepathDir (filepathJoin dir rel))
    cases hm : osMkdirAll P w (filepathDir (filepathJoin dir rel)) with
    | mk r1 w1 =>
      rw [hm] at h1
      cases r1 with
      | error e => exact ⟨_, h1, rfl, rfl⟩
      | ok u =>
        simp only
        have h2 := osWriteFile_log P w1 (filepathJoin dir rel) content
        cases hw : osWriteFile P w1 (filepathJoin dir rel) content with
        | mk r2 w2 =>
          rw [hw] at h2
          simp only at h1 h2
          cases r2 with
          | error e =>
            exact ⟨[.mkdirAll (filepathDir (filepathJoin dir rel)),
              .writeFile (filepathJoin dir rel) content], by simp [h2, h1], rfl, rfl⟩
          | ok u2 =>
            obtain ⟨new, h3, h4, h5⟩ := ih w2
            refine ⟨[.mkdirAll (filepathDir (filepathJoin dir rel)),
              .writeFile (filepathJoin dir rel) content] ++ new, by simp [h3, h2, h1], ?_, ?_⟩
            · rw [List.filterMap_append, h4]; rfl
            · rw [List.filterMap_append, h5]; rfl

theorem writeFiles_log (P : Platform) (w : World) (dir : Str) (files : List (Str × Str)) :
    ∃ new, (writeFiles P w dir files).2.log = w.log ++ new ∧
      new.filterMap Event.removePath = [dir] ∧ new.filterMap Event.statPath = [] := by
  unfold writeFiles
  have h1 := osRemoveAll_log P w dir
  cases hr : osRemoveAll P w dir with
  | mk r1 w1 =>
    rw [hr] at h1
    simp only at h1
    cases r1 with
    | error e => exact ⟨_, h1, rfl, rfl⟩
    | ok u =>
      simp only
      obtain ⟨new, h3, h4, h5⟩ := writeEntries_log P dir (P.filesOrder files) w1
      refine ⟨[.removeAll dir] ++ new, by simp [h3, h1], ?_, ?_⟩
      · rw [List.filterMap_append, h4]; rfl
      · rw [List.filterMap_append, h5]; rfl

/-- The results one bundle adds for the directories `dirs`, and the calls of
`os.RemoveAll` made for it: one for each directory. -/
theorem installInto_spec (P : Platform) (targets : List (Str × List Str)) (s : skillEntry)
    (dirs : List Str) (w : World) (results res : List Result) (w' : World)
    (h : installInto P targets s dirs w results = (.ok res, w')) :
    ∃ chunk new, res = results ++ chunk ∧
      chunk.map (fun r => r.Agent) = dirs.flatMap (mapGet targets) ∧
      (∀ r ∈ chunk, ∃ D ∈ dirs, r.Agent ∈ mapGet targets D ∧ r.Path = filepathJoin D s.name) ∧
      w'.log = w.log ++ new ∧
      new.filterMap Event.removePath = dirs.map (fun D => filepathJoin D s.name) := by
  induction dirs generalizing w results with
  | nil =>
    simp only [installInto, Prod.mk.injEq, Except.ok.injEq] at h
    obtain ⟨rfl, rfl⟩ := h
    exact ⟨[], [], by simp, rfl, by simp, by simp, rfl⟩
  | cons D rest ih =>
    unfold installInto at h
    simp only at h
    obtain ⟨new1, hl1, hr1, _⟩ := writeFiles_log P
      (installedVersionAt P (osStat P w (filepathJoin D s.name)).2 (filepathJoin D s.name)).2
      (filepathJoin D s.name) s.files
    cases hw : writeFiles P
      (installedVersionAt P (osStat P w (filepathJoin D s.name)).2 (filepathJoin D s.name)).2
      (filepathJoin D s.name) s.files with
    | mk r1 w3 =>
      rw [hw] at h hl1
      cases r1 with
      | error e => simp at h
      | ok u =>
        simp only at h hl1
        obtain ⟨chunk, new, h1, h2, h3, h4, h5⟩ := ih _ _ h
        refine ⟨(mapGet targets D).map (fun an => ⟨an, filepathJoin D s.name,
            (osStat P w (filepathJoin D s.name)).1,
            (installedVersionAt P (osStat P w (filepathJoin D s.name)).2
              (filepathJoin D s.name)).1⟩) ++ chunk,
          [.stat (filepathJoin D s.name),
          .readFile (filepathJoin (filepathJoin D s.name) "SKILL.md".toList)] ++ new1 ++ new,
          by rw [h1, List.append_assoc], ?_, ?_, ?_, ?_⟩
        · rw [List.map_append, h2, List.flatMap_cons, List.map_map]
          congr 1
          exact List.map_id _
        · intro r hr
          rcases List.mem_append.mp hr with hr | hr
          · obtain ⟨an, han, rfl⟩ := List.mem_map.mp hr
            exact ⟨D, List.mem_cons_self _ _, han, rfl⟩
          · obtain ⟨D', hD', h⟩ := h3 r hr
            exact ⟨D', List.mem_cons_of_mem _ hD', h⟩
        · rw [h4, hl1, installedVersionAt_log, osStat_log]
          simp
        · rw [List.filterMap_append, List.filterMap_append, h5, hr1]
          rfl

/-- The results of `Install`, bundle by bundle, and its calls of
`os.RemoveAll`: one for each bundle and target directory. -/
theorem installAll_spec (P : Platform) (targets : List (Str × List Str))
    (skills : List skillEntry) (w : World) (results res : List Result) (w' : World)
    (h : installAll P targets skills w results = (.ok res, w')) :
    ∃ chunks new, res = results ++ chunks.flatten ∧
      List.Forall₂ (fun s chunk =>
        chunk.map (fun r => r.Agent) = (sortedKeys targets).flatMap (mapGet targets) ∧
        ∀ r ∈ chunk, ∃ D ∈ sortedKeys targets,
          r.Agent ∈ mapGet targets D ∧ r.Path = filepathJoin D s.name) skills chunks ∧
      w'.log = w.log ++ new ∧
      new.filterMap Event.removePath =
        skills.flatMap (fun s => (sortedKeys targets).map (fun D => filepathJoin D s.name)) := by
  induction skills generalizing w results with
  | nil =>
    simp only [installAll, Prod.mk.injEq, Except.ok.injEq] at h
    obtain ⟨rfl, rfl⟩ := h
    exact ⟨[], [], by simp, List.Forall₂.nil, by simp, rfl⟩
  | cons s rest ih =>
    unfold installAll at h
    cases hi : installInto P targets s (sortedKeys targets) w results with
    | mk r1 w1 =>
      rw [hi] at h
      cases r1 with
      | error e => simp at h
      | ok res1 =>
        simp only at h
        obtain ⟨chunk, new1, h1, h2, h3, h4, h5⟩ := installInto_spec _ _ _ _ _ _ _ _ hi
        obtain ⟨chunks, new, g1, g2, g3, g4⟩ := ih _ _ h
        refine ⟨chunk :: chunks, new1 ++ new, ?_, List.Forall₂.cons ⟨h2, h3⟩ g2, ?_, ?_⟩
        · rw [g1, h1]; simp
        · rw [g3, h4, List.append_assoc]
        · rw [List.filterMap_append, h5, g4, List.flatMap_cons]

/-- The results of `Remove`, and its calls of package os: a call of `os.Stat`
for each directory and at most one of `os.RemoveAll`. -/
theorem removeFrom_results (P : Platform) (targets : List (Str × List Str)) (s : Str)
    (dirs : List Str) (w : World) (results res : List Result) (w' : World)
    (h : removeFrom P targets s dirs w results = (.ok res, w')) :
    ∃ chunk new, res = results ++ chunk ∧
      chunk.map (fun r => r.Agent) = dirs.flatMap (mapGet targets) ∧
      (∀ r ∈ chunk, ∃ D ∈ dirs, r.Agent ∈ mapGet targets D ∧ r.Path = filepathJoin D s) ∧
      w'.log = w.log ++ new ∧
      new.filterMap Event.statPath = dirs.map (fun D => filepathJoin D s) ∧
      (new.filterMap Event.removePath).Sublist (dirs.map (fun D => filepathJoin D s)) := by
  induction dirs generalizing w results with
  | nil =>
    simp only [removeFrom, Prod.mk.injEq, Except.ok.injEq] at h
    obtain ⟨rfl, rfl⟩ := h
    exact ⟨[], [], by simp, rfl, by simp, by simp, rfl, by simp⟩
  | cons D rest ih =>
    unfold removeFrom at h
    simp only at h
    have key : ∀ (step : Except Err Unit × World) (new1 : List Event),
        step.2.log = w.log ++ new1 →
        new1.filterMap Event.statPath = [filepathJoin D s] →
        (new1.filterMap Event.removePath).Sublist [filepathJoin D s] →
        (match step with
          | (.error e, w2) => ((.error (.wrap (filepathJoin D s) e), w2) :
              Except Err (List Result) × World)
          | (.ok _, w2) => removeFrom P targets s rest w2
              (results ++ (mapGet targets D).map
                (fun an => ⟨an, filepathJoin D s, (osStat P w (filepathJoin D s)).1, []⟩))) =
          (.ok res, w') →
        ∃ chunk new, res = results ++ chunk ∧
          chunk.map (fun r => r.Agent) = (D :: rest).flatMap (mapGet targets) ∧
          (∀ r ∈ chunk, ∃ D' ∈ D :: rest,
            r.Agent ∈ mapGet targets D' ∧ r.Path = filepathJoin D' s) ∧
          w'.log = w.log ++ new ∧
          new.filterMap Event.statPath = (D :: rest).map (fun D => filepathJoin D s) ∧
          (new.filterMap Event.removePath).Sublist
            ((D :: rest).map (fun D => filepathJoin D s)) := by
      intro step new1 hl hs hr hstep
      obtain ⟨r1, w2⟩ := step
      cases r1 with
      | error e => simp at hstep
      | ok u =>
        simp only at hstep hl
        obtain ⟨chunk, new, h1, h2, h3, h4, h5, h6⟩ := ih _ _ hstep
        refine ⟨(mapGet targets D).map (fun an => ⟨an, filepathJoin D s,
            (osStat P w (filepathJoin D s)).1, []⟩) ++ chunk, new1 ++ new,
          by rw [h1, List.append_assoc], ?_, ?_, ?_, ?_, ?_⟩
        · rw [List.map_append, h2, List.flatMap_cons, List.map_map]
          congr 1
          exact List.map_id _
        · intro r hr
          rcases List.mem_append.mp hr with hr | hr
          · obtain ⟨an, han, rfl⟩ := List.mem_map.mp hr
            exact ⟨D, List.mem_cons_self _ _, han, rfl⟩
          · obtain ⟨D', hD', h⟩ := h3 r hr
            exact ⟨D', List.mem_cons_of_mem _ hD', h⟩
        · rw [h4, hl, List.append_assoc]
        · rw [List.filterMap_append, h5, hs]; rfl
        · rw [List.filterMap_append]
          exact List.Sublist.append hr h6
    by_cases hex : (osStat P w (filepathJoin D s)).1 = true
    · rw [if_pos hex] at h
      refine key (osRemoveAll P (osStat P w (filepathJoin D s)).2 (filepathJoin D s))
        [.stat (filepathJoin D s), .removeAll (filepathJoin D s)] ?_ rfl
        (List.Sublist.refl _) h
      rw [osRemoveAll_log, osStat_log]
      simp
    · rw [if_neg hex] at h
      exact key (Except.ok (), (osStat P w (filepathJoin D s)).2)
        [.stat (filepathJoin D s)] (osStat_log P w _) rfl (by simp [Event.removePath]) h

theorem path_of_chunk (P : Platform) (opts : Options) (t : List (Str × List Str))
    (hgood : TargetsGood P opts t) (s : Str) (dirs : List Str) (r : Result)
    (h : ∃ D ∈ dirs, r.Agent ∈ mapGet t D ∧ r.Path = filepathJoin D s) :
    ∃ a, agentIndex r.Agent = some a ∧ r.Path = filepathJoin (targetDir P opts a) s := by
  obtain ⟨D, _, hA, hP⟩ := h
  obtain ⟨ns, h1, h2⟩ := mem_mapGet t D r.Agent hA
  obtain ⟨a, ha, hD⟩ := hgood D ns h1 r.Agent h2
  exact ⟨a, ha, by rw [hP, hD]⟩

/-- The parts of C6 that hold.  On success the agents of the results of `Remove`, and of the results
of `Install` for each discovered bundle, are a permutation of `opts.Agents`;
the path of a result is the bundle path below the directory its agent resolves
to, so agents that resolve to the same directory get the same path; the keys
of the target map are the distinct texts of the resolved directories (two of
which may name one directory); and `Remove` stats
each key once and removes at most once below it, while `Install` makes for
each bundle one call of `os.RemoveAll` (the first step of `writeFiles`) per
key.  In project mode `amp` and `codex` give two results with the path
`/tmp/.agents/skills/x`. -/
theorem results_one_per_agent (P : Platform) (fsys : SrcNode) (name : Str) (opts : Options)
    (w w' : World) (res : List Result) :
    (∀ targets, resolveTargets P opts = .ok targets →
      (targets.map Prod.fst).Nodup ∧ (sortedKeys targets).Nodup ∧
      ∀ D, D ∈ targets.map Prod.fst ↔
        ∃ n ∈ opts.Agents, ∃ a, agentIndex n = some a ∧ targetDir P opts a = D) ∧
    (Remove P name opts w = (.ok res, w') →
      (res.map (fun r => r.Agent)).Perm opts.Agents ∧
      (∀ r ∈ res, ∃ a, agentIndex r.Agent = some a ∧
        r.Path = filepathJoin (targetDir P opts a) (sanitizeName P.lowerTable name)) ∧
      ∃ targets new, resolveTargets P opts = .ok targets ∧ w'.log = w.log ++ new ∧
        new.filterMap Event.statPath = (sortedKeys targets).map
          (fun D => filepathJoin D (sanitizeName P.lowerTable name)) ∧
        (new.filterMap Event.removePath).Sublist ((sortedKeys targets).map
          (fun D => filepathJoin D (sanitizeName P.lowerTable name)))) ∧
    (Install P fsys opts w = (.ok res, w') →
      ∃ skills chunks targets new, findSkills P.lowerTable fsys = .ok skills ∧
        resolveTargets P opts = .ok targets ∧ res = chunks.flatten ∧
        List.Forall₂ (fun s chunk =>
          (chunk.map (fun r => r.Agent)).Perm opts.Agents ∧
          ∀ r ∈ chunk, ∃ a, agentIndex r.Agent = some a ∧
            r.Path = filepathJoin (targetDir P opts a) s.name) skills chunks ∧
        w'.log = w.log ++ new ∧
        new.filterMap Event.removePath =
          skills.flatMap (fun s => (sortedKeys targets).map (fun D => filepathJoin D s.name))) ∧
    (Install plainPlatform (skillFS "x".toList)
        ⟨["amp".toList, "codex".toList], "/tmp".toList, false⟩ emptyWorld).1 =
      .ok [⟨"amp".toList, "/tmp/.agents/skills/x".toList, false, []⟩,
           ⟨"codex".toList, "/tmp/.agents/skills/x".toList, false, []⟩] := by
  refine ⟨?_, ?_, ?_, by decide⟩
  · intro targets ht
    obtain ⟨h1, _, _, h4⟩ := resolveTargets_spec P opts targets ht
    exact ⟨h1, (List.perm_insertionSort _ _).nodup_iff.mpr h1, h4⟩
  · intro h
    unfold Remove at h
    split at h
    · cases h
    · split at h
      · cases h
      · simp only at h
        cases ht : resolveTargets P opts with
        | error e => rw [ht] at h; cases h
        | ok targets =>
          rw [ht] at h
          simp only at h
          obtain ⟨h1, h2, h3, _⟩ := resolveTargets_spec P opts targets ht
          obtain ⟨chunk, new, g1, g2, g3, g4, g5, g6⟩ := removeFrom_results _ _ _ _ _ _ _ _ h
          rw [List.nil_append] at g1
          subst g1
          refine ⟨by rw [g2]; exact h3, ?_, targets, new, rfl, g4, g5, g6⟩
          intro r hr
          exact path_of_chunk P opts targets h2 _ _ r (g3 r hr)
  · intro h
    unfold Install at h
    split at h
    · cases h
    · cases hf : findSkills P.lowerTable fsys with
      | error e => rw [hf] at h; cases h
      | ok skills =>
        rw [hf] at h
        simp only at h
        split at h
        · cases h
        · cases ht : resolveTargets P opts with
          | error e => rw [ht] at h; cases h
          | ok targets =>
            rw [ht] at h
            simp only at h
            obtain ⟨h1, h2, h3, _⟩ := resolveTargets_spec P opts targets ht
            obtain ⟨chunks, new, g1, g2, g3, g4⟩ := installAll_spec _ _ _ _ _ _ _ h
            rw [List.nil_append] at g1
            refine ⟨skills, chunks, targets, new, rfl, rfl, g1, ?_, g3, g4⟩
            refine List.Forall₂.imp ?_ g2
            intro s chunk hc
            refine ⟨by rw [hc.1]; exact h3, ?_⟩
            intro r hr
            exact path_of_chunk P opts targets h2 _ _ r (hc.2 r hr)

/-! ### The directory of a joined path -/

theorem joinWith_splitOnChar (sep : Char) (s : Str) :
    joinWith sep (splitOnChar sep s) = s := by
  induction s with
  | nil => rfl
  | cons c cs ih =>
    by_cases h : c = sep
    · subst h
      rw [splitOnChar_cons_sep, joinWith_cons _ _ _ (splitOnChar_ne_nil _ _), ih]
      rfl
    · obtain ⟨x, xs, hs⟩ := splitOnChar_exists sep cs
      rw [splitOnChar_cons_ne sep c cs x xs h hs]
      rw [hs] at ih
      cases xs with
      | nil =>
        simp only [joinWith] at ih ⊢
        rw [ih]
      | cons y ys =>
        rw [joinWith_cons _ _ _ (by simp)] at ih ⊢
        rw [← ih]
        rfl

theorem rdropWhile_ne_sep (X l : Str) (h : '/' ∉ l) :
    (X ++ '/' :: l).rdropWhile (fun c => decide (c ≠ '/')) = X ++ ['/'] := by
  induction l using List.reverseRecOn with
  | nil => exact List.rdropWhile_concat_neg _ _ _ (by simp)
  | append_singleton l a ih =>
    have ha : a ≠ '/' := fun e => h (by simp [e])
    have hl : '/' ∉ l := fun hm => h (by simp [hm])
    have : X ++ '/' :: (l ++ [a]) = (X ++ '/' :: l) ++ [a] := by simp
    rw [this, List.rdropWhile_concat_pos _ _ _ (by simpa using ha)]
    exact ih hl

theorem rdropWhile_no_sep (l : Str) (h : '/' ∉ l) :
    l.rdropWhile (fun c => decide (c ≠ '/')) = [] := by
  induction l using List.reverseRecOn with
  | nil => rfl
  | append_singleton l a ih =>
    have ha : a ≠ '/' := fun e => h (by simp [e])
    have hl : '/' ∉ l := fun hm => h (by simp [hm])
    rw [List.rdropWhile_concat_pos _ _ _ (by simpa using ha)]
    exact ih hl

/-- The directory of a path whose last component is a file name is the parent
of the location the path names. -/
theorem locate_dir (P : Platform) (t : Str) (xs : List Str) (l : Str)
    (hsplit : splitPath t = xs ++ [l]) (hl : validName l = true) :
    locate P (filepathDir t) = (locate P t).dropLast := by
  obtain ⟨hl1, hl2, hl3, hl4⟩ := (validName_iff l).mp hl
  have ht : t = joinPath (xs ++ [l]) := by
    rw [← hsplit]
    exact (joinWith_splitOnChar '/' t).symm
  have hwalk : ∀ st, walkComps st (xs ++ [l]) = l :: walkComps st xs := by
    intro st
    rw [walkComps_snoc, if_neg (not_or.mpr ⟨hl1, hl3⟩), if_neg hl4]
  unfold filepathDir
  rw [locate_clean]
  by_cases hxs : xs = []
  · subst hxs
    have ht' : t = l := ht
    subst ht'
    rw [rdropWhile_no_sep t hl2, locate_eq, locate_eq, hsplit]
    have habs : filepathIsAbs t = false := by
      cases t with
      | nil => rfl
      | cons c cs =>
        rw [filepathIsAbs_cons]
        simp only [decide_eq_false_iff_not]
        intro e
        exact hl2 (by simp [e])
    rw [habs, filepathIsAbs_nil]
    unfold loc
    rw [hwalk]
    simp [splitPath, splitOnChar, walkComps]
  · have ht2 : t = joinPath xs ++ '/' :: l := by
      rw [ht]
      exact joinWith_append_singleton '/' xs l hxs
    have hxsep : ∀ c ∈ xs, '/' ∉ c := by
      intro c hc
      have := splitOnChar_no_sep '/' t c
      unfold splitPath at hsplit
      rw [hsplit] at this
      exact this (List.mem_append_left _ hc)
    rw [ht2, rdropWhile_ne_sep _ l hl2, locate_eq, locate_eq]
    have habs : filepathIsAbs (joinPath xs ++ ['/']) = filepathIsAbs (joinPath xs ++ '/' :: l) := by
      by_cases hj : joinPath xs = []
      · rw [hj, List.nil_append, List.nil_append, filepathIsAbs_cons, filepathIsAbs_cons]
      · rw [filepathIsAbs_append _ _ hj, filepathIsAbs_append _ _ hj]
    rw [habs]
    unfold loc splitPath
    rw [splitOnChar_append_sep, splitOnChar_append_sep]
    have hsj := splitPath_joinPath xs hxsep hxs
    unfold splitPath joinPath at hsj
    unfold joinPath
    rw [hsj, splitOnChar_of_not_mem '/' l hl2, hwalk]
    have : splitOnChar '/' [] = [[]] := rfl
    rw [this, walkComps_snoc, if_pos (Or.inl rfl)]
    simp

theorem splitPath_render (r : Bool) (o : List Str) (ho : CompsOk o) (hne : o ≠ []) :
    splitPath (render r o) = (if r then [[]] else []) ++ o := by
  have hsep : ∀ c ∈ o, '/' ∉ c := fun c hc => (ho c hc).2.2
  unfold render
  cases r with
  | true =>
    simp only [if_true]
    unfold splitPath
    rw [splitOnChar_cons_sep]
    have := splitPath_joinPath o hsep hne
    unfold splitPath at this
    rw [this]
    rfl
  | false =>
    simp only [Bool.false_eq_true, if_false, List.nil_append]
    rw [if_neg hne]
    exact splitPath_joinPath o hsep hne

/-- The text of a directory joined with a relative path of file names. -/
theorem filepathJoin_render (D : Str) (cs : List Str) (h : ∀ c ∈ cs, validName c = true)
    (hne : cs ≠ []) :
    ∃ r o, CompsOk o ∧ filepathJoin D (joinPath cs) = render r (o ++ cs) := by
  have hok := compsOk_of_valid cs h
  have hsep : ∀ c ∈ cs, '/' ∉ c := fun c hc => (hok c hc).2.2
  obtain ⟨c0, s0, hcs, hc0⟩ := joinPath_head_ne cs hok hne
  have hj : joinPath cs ≠ [] := by rw [hcs]; simp
  unfold filepathJoin
  by_cases hD : D = []
  · subst hD
    rw [if_neg (by simp), if_pos hj, filepathClean_eq _ hj]
    have habs : filepathIsAbs (joinPath cs) = false := by
      rw [hcs, filepathIsAbs_cons]; simp [hc0]
    rw [habs, splitPath_joinPath cs hsep hne, cleanAux_valid false [] cs h]
    refine ⟨false, [], by intro c hc; simp at hc, ?_⟩
    simp
  · rw [if_pos hD, filepathClean_eq _ (by simp), filepathIsAbs_append D _ hD]
    refine ⟨filepathIsAbs D, (cleanAux (filepathIsAbs D) [] (splitPath D)).reverse,
      compsOk_clean _ D, ?_⟩
    congr 1
    unfold splitPath
    rw [splitOnChar_append_sep]
    have := splitPath_joinPath cs hsep hne
    unfold splitPath at this
    rw [this, cleanAux_append, cleanAux_valid _ _ cs h]
    simp

/-- The directory of a file below a directory `D` names the location below
that of `D` along the path of the file without its last component. -/
theorem locate_dir_join (P : Platform) (D : Str) (cs : List Str)
    (h : ∀ c ∈ cs, validName c = true) (hne : cs ≠ []) :
    locate P (filepathDir (filepathJoin D (joinPath cs))) = locate P D ++ cs.dropLast := by
  obtain ⟨r, o, ho, hj⟩ := filepathJoin_render D cs h hne
  have hlast : cs = cs.dropLast ++ [cs.getLast hne] := (List.dropLast_append_getLast hne).symm
  have hoc : CompsOk (o ++ cs) := by
    intro c hc
    rcases List.mem_append.mp hc with hc | hc
    · exact ho c hc
    · exact compsOk_of_valid cs h c hc
  have hsplit : splitPath (filepathJoin D (joinPath cs)) =
      ((if r then [[]] else []) ++ o ++ cs.dropLast) ++ [cs.getLast hne] := by
    rw [hj, splitPath_render r _ hoc (by simp [hne])]
    conv_lhs => rw [hlast]
    simp
  rw [locate_dir P _ _ _ hsplit (h _ (List.getLast_mem hne)), locate_join P D cs h hne]
  conv_lhs => rw [hlast]
  rw [← List.append_assoc, List.dropLast_concat]

/-! ### What the calls of package os do on success -/

theorem osRemoveAll_ok (P : Platform) (w w' : World) (p : Str) (u : Unit) (hp : p ≠ [])
    (h : osRemoveAll P w p = (.ok u, w')) :
    w'.fs = fun q => if locate P p <+: q then none else w.fs q := by
  unfold osRemoveAll at h
  simp only at h
  rw [if_neg hp] at h
  split at h
  · cases h
  · split at h
    · cases h
    · simp only [Prod.mk.injEq] at h
      rw [← h.2]

theorem osMkdirAll_ok (P : Platform) (w w' : World) (p : Str) (u : Unit)
    (h : osMkdirAll P w p = (.ok u, w')) :
    w'.fs = fun q => if (q <+: locate P p) ∧ w.fs q = none then some .dir else w.fs q := by
  unfold osMkdirAll at h
  simp only at h
  split at h
  · cases h
  · split at h
    · cases h
    · simp only [Prod.mk.injEq] at h
      rw [← h.2]

theorem osWriteFile_ok (P : Platform) (w w' : World) (p d : Str) (u : Unit)
    (h : osWriteFile P w p d = (.ok u, w')) :
    w'.fs = fun q => if q = locate P p then some (.file d) else w.fs q := by
  unfold osWriteFile at h
  simp only at h
  split at h
  · cases h
  · split at h
    · cases h
    · split at h
      · cases h
      · cases h
      · split at h
        · cases h
        · simp only [Prod.mk.injEq] at h
          rw [← h.2]

/-! ### Relative paths of file names -/

theorem validRel_comps (rel : Str) (h : validRel rel = true) :
    (∀ c ∈ splitPath rel, validName c = true) ∧ splitPath rel ≠ [] ∧
      rel = joinPath (splitPath rel) := by
  refine ⟨?_, splitOnChar_ne_nil _ _, (joinWith_splitOnChar '/' rel).symm⟩
  simpa [validRel, List.all_eq_true] using h

theorem splitPath_injective (a b : Str) (h : splitPath a = splitPath b) : a = b := by
  rw [← joinWith_splitOnChar '/' a, ← joinWith_splitOnChar '/' b]
  unfold splitPath at h
  rw [h]

theorem locate_join_rel (P : Platform) (dir rel : Str) (h : validRel rel = true) :
    locate P (filepathJoin dir rel) = locate P dir ++ splitPath rel := by
  obtain ⟨h1, h2, h3⟩ := validRel_comps rel h
  conv_lhs => rw [h3]
  exact locate_join P dir _ h1 h2

theorem locate_dir_join_rel (P : Platform) (dir rel : Str) (h : validRel rel = true) :
    locate P (filepathDir (filepathJoin dir rel)) = locate P dir ++ (splitPath rel).dropLast := by
  obtain ⟨h1, h2, h3⟩ := validRel_comps rel h
  conv_lhs => rw [h3]
  exact locate_dir_join P dir _ h1 h2

/-! ### The loop of `writeFiles` -/

/-- What a successful run of the loop of `writeFiles` leaves: locations that
are neither below the directory nor above it are unchanged, nothing is
removed, and a regular file below the directory is either one that was there
and was not written, or one of the entries. -/
theorem writeEntries_sem (P : Platform) (dir : Str) (files : List (Str × Str)) (w w' : World)
    (u : Unit) (hv : ∀ f ∈ files, validRel f.1 = true) (hnd : (files.map Prod.fst).Nodup)
    (h : writeEntries P dir files w = (.ok u, w')) :
    (∀ q, ¬ locate P dir <+: q → ¬ q <+: locate P dir → w'.fs q = w.fs q) ∧
    (∀ q, w.fs q ≠ none → w'.fs q ≠ none) ∧
    (files ≠ [] → w'.fs (locate P dir) ≠ none) ∧
    (∀ q c, w'.fs (locate P dir ++ q) = some (.file c) ↔
      (w.fs (locate P dir ++ q) = some (.file c) ∧ ∀ f ∈ files, splitPath f.1 ≠ q) ∨
      (∃ f ∈ files, splitPath f.1 = q ∧ f.2 = c)) := by
  induction files generalizing w with
  | nil =>
    simp only [writeEntries, Prod.mk.injEq] at h
    rw [← h.2]
    exact ⟨fun _ _ _ => rfl, fun _ hq => hq, fun hne => absurd rfl hne, by simp⟩
  | cons f rest ih =>
    obtain ⟨rel, content⟩ := f
    have hrel : validRel rel = true := hv (rel, content) (List.mem_cons_self _ _)
    have hvr : ∀ f ∈ rest, validRel f.1 = true := fun f hf => hv f (List.mem_cons_of_mem _ hf)
    rw [List.map_cons, List.nodup_cons] at hnd
    unfold writeEntries at h
    simp only at h
    cases hm : osMkdirAll P w (filepathDir (filepathJoin dir rel)) with
    | mk r1 w1 =>
      rw [hm] at h
      cases r1 with
      | error e => cases h
      | ok u1 =>
        simp only at h
        cases hw : osWriteFile P w1 (filepathJoin dir rel) content with
        | mk r2 w2 =>
          rw [hw] at h
          cases r2 with
          | error e => cases h
          | ok u2 =>
            simp only at h
            have e1 := osMkdirAll_ok P w w1 _ u1 hm
            have e2 := osWriteFile_ok P w1 w2 _ _ u2 hw
            rw [locate_dir_join_rel P dir rel hrel] at e1
            rw [locate_join_rel P dir rel hrel] at e2
            obtain ⟨i1, i2, _, i4⟩ := ih w2 hvr hnd.2 h
            have hfs1 : ∀ q c, w1.fs q = some (.file c) ↔ w.fs q = some (.file c) := by
              intro q c
              rw [e1]
              simp only
              split
              · rename_i hq
                simp [hq.2]
              · rfl
            have hnone1 : ∀ q, w.fs q ≠ none → w1.fs q ≠ none := by
              intro q hq
              rw [e1]
              simp only
              split
              · simp
              · exact hq
            have hnone2 : ∀ q, w1.fs q ≠ none → w2.fs q ≠ none := by
              intro q hq
              rw [e2]
              simp only
              split
              · simp
              · exact hq
            have hL1 : w1.fs (locate P dir) ≠ none := by
              rw [e1]
              simp only
              split
              · simp
              · rename_i hq
                intro hn
                exact hq ⟨List.prefix_append _ _, hn⟩
            refine ⟨?_, ?_, ?_, ?_⟩
            · intro q hq1 hq2
              rw [i1 q hq1 hq2, e2]
              simp only
              rw [if_neg (by
                intro e
                exact hq1 (e ▸ List.prefix_append _ _)), e1]
              simp only
              rw [if_neg]
              rintro ⟨hp, _⟩
              rcases List.prefix_or_prefix_of_prefix hp (List.prefix_append (locate P dir) _)
                with h3 | h3
              · exact hq2 h3
              · exact hq1 h3
            · intro q hq
              exact i2 q (hnone2 q (hnone1 q hq))
            · intro _
              exact i2 _ (hnone2 _ hL1)
            · intro q c
              rw [i4 q c]
              have hw2 : w2.fs (locate P dir ++ q) = some (.file c) ↔
                  (q = splitPath rel ∧ c = content) ∨
                  (q ≠ splitPath rel ∧ w.fs (locate P dir ++ q) = some (.file c)) := by
                rw [e2]
                simp only [List.append_right_inj]
                split
                · rename_i hq
                  simp [hq, eq_comm]
                · rename_i hq
                  rw [hfs1]
                  simp [hq]
              rw [hw2]
              constructor
              · rintro (⟨(⟨hq, hc⟩ | ⟨hq, hfile⟩), hall⟩ | ⟨f, hf, hq, hc⟩)
                · exact Or.inr ⟨(rel, content), List.mem_cons_self _ _, hq.symm, hc.symm⟩
                · left
                  refine ⟨hfile, ?_⟩
                  intro f hf
                  rcases List.mem_cons.mp hf with rfl | hf
                  · exact fun e => hq e.symm
                  · exact hall f hf
                · exact Or.inr ⟨f, List.mem_cons_of_mem _ hf, hq, hc⟩
              · rintro (⟨hfile, hall⟩ | ⟨f, hf, hq, hc⟩)
                · left
                  refine ⟨Or.inr ⟨?_, hfile⟩, fun f hf => hall f (List.mem_cons_of_mem _ hf)⟩
                  exact fun e => hall (rel, content) (List.mem_cons_self _ _) e.symm
                · rcases List.mem_cons.mp hf with rfl | hf
                  · left
                    refine ⟨Or.inl ⟨hq.symm, hc.symm⟩, ?_⟩
                    intro g hg e
                    apply hnd.1
                    have : g.1 = rel := splitPath_injective _ _ (e.trans hq.symm)
                    exact List.mem_map.mpr ⟨g, hg, this⟩
                  · exact Or.inr ⟨f, hf, hq, hc⟩

/-! ### Paths of the source tree -/

theorem SrcNode.sub_nil (n : SrcNode) : n.sub [] = some n := by
  cases n <;> rfl

theorem SrcEntries.sub_cons (n : Str) (t : SrcNode) (rest : SrcEntries) (c : Str)
    (cs : List Str) :
    (SrcEntries.cons n t rest).sub c cs = if n = c then t.sub cs else rest.sub c cs := rfl

mutual
theorem SrcNode.sub_append : ∀ (n : SrcNode) (p q : List Str),
    n.sub (p ++ q) = (n.sub p).bind (fun m => m.sub q)
  | n, [], q => by simp [SrcNode.sub_nil]
  | .file d, c :: cs, q => by simp [SrcNode.sub]
  | .dir es, c :: cs, q => by
    simp only [List.cons_append, SrcNode.sub]
    exact SrcEntries.subEntries_append es c cs q
theorem SrcEntries.subEntries_append : ∀ (es : SrcEntries) (c : Str) (cs q : List Str),
    es.sub c (cs ++ q) = (es.sub c cs).bind (fun m => m.sub q)
  | .nil, c, cs, q => by simp [SrcEntries.sub]
  | .cons n t rest, c, cs, q => by
    rw [SrcEntries.sub_cons, SrcEntries.sub_cons]
    split
    · exact SrcNode.sub_append t cs q
    · exact SrcEntries.subEntries_append rest c cs q
end

theorem SrcEntries.wf_cons (n : Str) (t : SrcNode) (rest : SrcEntries)
    (h : (SrcEntries.cons n t rest).wf = true) :
    validName n = true ∧ rest.hasName n = false ∧ t.wf = true ∧ rest.wf = true := by
  unfold SrcEntries.wf at h
  simp only [Bool.and_eq_true, Bool.not_eq_true'] at h
  exact ⟨h.1.1.1, h.1.1.2, h.1.2, h.2⟩

theorem SrcEntries.hasName_of_mem : ∀ (es : SrcEntries) (n : Str) (t : SrcNode),
    (n, t) ∈ es.toList → es.hasName n = true
  | .nil, n, t, h => by simp [SrcEntries.toList] at h
  | .cons m u rest, n, t, h => by
    simp only [SrcEntries.toList, List.mem_cons, Prod.mk.injEq] at h
    unfold SrcEntries.hasName
    rcases h with ⟨rfl, _⟩ | h
    · simp
    · simp [SrcEntries.hasName_of_mem rest n t h]

theorem SrcEntries.sub_of_mem : ∀ (es : SrcEntries), es.wf = true → ∀ (n : Str) (t : SrcNode),
    (n, t) ∈ es.toList → es.sub n [] = some t
  | .nil, _, n, t, h => by simp [SrcEntries.toList] at h
  | .cons m u rest, hwf, n, t, h => by
    obtain ⟨_, hno, _, hrest⟩ := SrcEntries.wf_cons m u rest hwf
    simp only [SrcEntries.toList, List.mem_cons, Prod.mk.injEq] at h
    rw [SrcEntries.sub_cons]
    rcases h with ⟨rfl, rfl⟩ | h
    · rw [if_pos rfl, SrcNode.sub_nil]
    · have hmn : m ≠ n := by
        intro e
        subst e
        rw [SrcEntries.hasName_of_mem rest m t h] at hno
        cases hno
      rw [if_neg hmn]
      exact SrcEntries.sub_of_mem rest hrest n t h

theorem SrcEntries.wf_of_mem : ∀ (es : SrcEntries), es.wf = true → ∀ (n : Str) (t : SrcNode),
    (n, t) ∈ es.toList → validName n = true ∧ t.wf = true
  | .nil, _, n, t, h => by simp [SrcEntries.toList] at h
  | .cons m u rest, hwf, n, t, h => by
    obtain ⟨hv, _, hu, hrest⟩ := SrcEntries.wf_cons m u rest hwf
    simp only [SrcEntries.toList, List.mem_cons, Prod.mk.injEq] at h
    rcases h with ⟨rfl, rfl⟩ | h
    · exact ⟨hv, hu⟩
    · exact SrcEntries.wf_of_mem rest hrest n t h

/-- In a well-formed tree the entry `(n, t)` of the directory at path `p` is
the node at path `p ++ [n]`. -/
theorem sub_child (fsys : SrcNode) (p : List Str) (es : SrcEntries) (hwf : es.wf = true)
    (hp : fsys.sub p = some (.dir es)) (n : Str) (t : SrcNode) (h : (n, t) ∈ es.toList) :
    fsys.sub (p ++ [n]) = some t := by
  rw [SrcNode.sub_append, hp]
  exact SrcEntries.sub_of_mem es hwf n t h

theorem insertAll_append (pre : List Str) (m : List (Str × Str)) (a b : List (List Str × Str)) :
    insertAll pre m (a ++ b) = insertAll pre (insertAll pre m a) b := by
  simp [insertAll, List.foldl_append]

theorem insertAll_map (pre : List Str) (n : Str) (m : List (Str × Str))
    (l : List (List Str × Str)) :
    insertAll pre m (l.map (fun f => (n :: f.1, f.2))) = insertAll (pre ++ [n]) m l := by
  induction l generalizing m with
  | nil => rfl
  | cons f rest ih =>
    simp only [insertAll, List.map_cons, List.foldl_cons] at ih ⊢
    rw [ih]
    simp

/-! ### The inner walk of `findSkills` -/

theorem walkDir_file {σ : Type} (fn : List Str → Option DirEntry → σ → Ctl × σ)
    (p : List Str) (nm d : Str) (st : σ) :
    walkDir fn p nm (.file d) st = fn p (some ⟨nm, false⟩) st := by
  unfold walkDir; rfl

theorem walkDir_dir {σ : Type} (fn : List Str → Option DirEntry → σ → Ctl × σ)
    (p : List Str) (nm : Str) (es : SrcEntries) (st : σ) :
    walkDir fn p nm (.dir es) st =
      match fn p (some ⟨nm, true⟩) st with
      | (.nil, st1) => walkEntries fn p es st1
      | (.skipDir, st1) => (.nil, st1)
      | (c, st1) => (c, st1) := by
  rw [walkDir]

theorem walkEntries_nil {σ : Type} (fn : List Str → Option DirEntry → σ → Ctl × σ)
    (p : List Str) (st : σ) : walkEntries fn p .nil st = (.nil, st) := by
  rw [walkEntries]

theorem walkEntries_cons {σ : Type} (fn : List Str → Option DirEntry → σ → Ctl × σ)
    (p : List Str) (n : Str) (t : SrcNode) (rest : SrcEntries) (st : σ) :
    walkEntries fn p (.cons n t rest) st =
      match walkDir fn (p ++ [n]) n t st with
      | (.nil, st1) => walkEntries fn p rest st1
      | (.skipDir, st1) => (.nil, st1)
      | (c, st1) => (c, st1) := by
  rw [walkEntries]

theorem keptEntries_cons (n : Str) (t : SrcNode) (rest : SrcEntries) :
    keptEntries (.cons n t rest) =
      (keptFiles n t).map (fun f => (n :: f.1, f.2)) ++ keptEntries rest := by
  rw [keptEntries]

theorem collectFn_dir (fsys : SrcNode) (R p : List Str) (nm : Str) (files : List (Str × Str)) :
    collectFn fsys R p (some ⟨nm, true⟩) files =
      if nm = ".git".toList then (.skipDir, files) else (.nil, files) := by
  simp [collectFn]

theorem collectFn_file (fsys : SrcNode) (R pre : List Str) (nm d : Str)
    (files : List (Str × Str)) (h : readSrcFile fsys (R ++ pre) = some d) :
    collectFn fsys R (R ++ pre) (some ⟨nm, false⟩) files =
      if isExcluded nm then (.nil, files) else (.nil, mapSet files (joinPath pre) d) := by
  have hrel : (if R ≠ [] then (R ++ pre).drop R.length else R ++ pre) = pre := by
    split
    · simp
    · rename_i hR
      have : R = [] := by simpa using hR
      subst this
      rfl
  simp only [collectFn, Bool.false_eq_true, if_false, h, hrel]

theorem readSrcFile_of_sub (fsys : SrcNode) (p : List Str) (d : Str)
    (h : fsys.sub p = some (.file d)) : readSrcFile fsys p = some d := by
  unfold readSrcFile
  rw [h]

mutual
/-- The inner walk of `findSkills` below a bundle root `R`, on the node at
path `R ++ pre` of a well-formed tree: it does not fail, and it enters the
kept files of the node in the map, under their paths from the root. -/
theorem collect_walkDir (fsys : SrcNode) (R : List Str) :
    ∀ (node : SrcNode) (pre : List Str) (nm : Str) (files : List (Str × Str)),
      node.wf = true → fsys.sub (R ++ pre) = some node →
      walkDir (collectFn fsys R) (R ++ pre) nm node files =
        (.nil, insertAll pre files (keptFiles nm node))
  | .file d, pre, nm, files, _, hsub => by
    rw [walkDir_file, collectFn_file fsys R pre nm d files (readSrcFile_of_sub fsys _ d hsub)]
    unfold keptFiles
    split
    · rfl
    · simp [insertAll]
  | .dir es, pre, nm, files, hwf, hsub => by
    rw [walkDir_dir, collectFn_dir]
    unfold keptFiles
    by_cases hg : nm = ".git".toList
    · rw [if_pos hg, if_pos hg]
      rfl
    · rw [if_neg hg, if_neg hg]
      simp only
      have hes : es.wf = true := by unfold SrcNode.wf at hwf; exact hwf
      exact collect_walkEntries fsys R es pre files hes
        (fun n t h => by
          rw [← List.append_assoc]
          exact sub_child fsys (R ++ pre) es hes hsub n t h)
        (fun n t h => (SrcEntries.wf_of_mem es hes n t h).2)
/-- The loop of the inner walk over entries of the directory at `R ++ pre`. -/
theorem collect_walkEntries (fsys : SrcNode) (R : List Str) :
    ∀ (es : SrcEntries) (pre : List Str) (files : List (Str × Str)),
      es.wf = true →
      (∀ n t, (n, t) ∈ es.toList → fsys.sub (R ++ (pre ++ [n])) = some t) →
      (∀ n t, (n, t) ∈ es.toList → t.wf = true) →
      walkEntries (collectFn fsys R) (R ++ pre) es files =
        (.nil, insertAll pre files (keptEntries es))
  | .nil, pre, files, _, _, _ => by
    rw [walkEntries_nil]
    rfl
  | .cons n t rest, pre, files, hwf, hsub, hwfs => by
    rw [walkEntries_cons]
    have h1 := collect_walkDir fsys R t (pre ++ [n]) n files
      (hwfs n t (by simp [SrcEntries.toList]))
      (hsub n t (by simp [SrcEntries.toList]))
    rw [List.append_assoc, h1]
    simp only
    have hrest : rest.wf = true := (SrcEntries.wf_cons n t rest hwf).2.2.2
    rw [collect_walkEntries fsys R rest pre _ hrest
      (fun m u h => hsub m u (by simp [SrcEntries.toList, h]))
      (fun m u h => hwfs m u (by simp [SrcEntries.toList, h]))]
    rw [keptEntries_cons, insertAll_append, insertAll_map]
end

/-! ### The kept files, by lookup -/

theorem readSrcFile_eq_some (fsys : SrcNode) (p : List Str) (c : Str) :
    readSrcFile fsys p = some c ↔ fsys.sub p = some (.file c) := by
  unfold readSrcFile
  split
  · rename_i d h
    rw [h]
    simp
  · rename_i h
    constructor
    · intro h2; cases h2
    · intro h2; exact absurd h2 (h c)

theorem SrcEntries.hasName_of_sub : ∀ (es : SrcEntries) (n : Str) (cs : List Str) (x : SrcNode),
    es.sub n cs = some x → es.hasName n = true
  | .nil, n, cs, x, h => by simp [SrcEntries.sub] at h
  | .cons m u rest, n, cs, x, h => by
    rw [SrcEntries.sub_cons] at h
    unfold SrcEntries.hasName
    split at h
    · rename_i hmn
      simp [hmn]
    · simp [SrcEntries.hasName_of_sub rest n cs x h]

theorem SrcNode.sub_dir_cons (es : SrcEntries) (c : Str) (cs : List Str) :
    (SrcNode.dir es).sub (c :: cs) = es.sub c cs := by
  rw [SrcNode.sub]

theorem SrcNode.sub_file_cons (d : Str) (c : Str) (cs : List Str) :
    (SrcNode.file d).sub (c :: cs) = none := by
  rw [SrcNode.sub]

/-- The names of the directories passed on the way to a file, and the name of
the file, for a file at path `rel` below a node with entry name `nm`. -/
theorem getLast_cons_cons (nm n : Str) (rel : List Str) :
    (nm :: n :: rel).getLast (by simp) = (n :: rel).getLast (by simp) := by
  simp [List.getLast_cons]

mutual
/-- The kept files of a node of a well-formed tree are its regular files
whose name is not excluded and which are reached without passing a directory
named `.git`, the node itself counted. -/
theorem mem_keptFiles : ∀ (node : SrcNode) (nm : Str) (rel : List Str) (c : Str),
    node.wf = true →
    ((rel, c) ∈ keptFiles nm node ↔
      node.sub rel = some (.file c) ∧ isExcluded ((nm :: rel).getLast (by simp)) = false ∧
        ".git".toList ∉ (nm :: rel).dropLast)
  | .file d, nm, rel, c, _ => by
    unfold keptFiles
    cases rel with
    | nil =>
      rw [SrcNode.sub_nil]
      by_cases hx : isExcluded nm = true
      · simp [hx]
      · simp [hx, eq_comm]
    | cons n rel' =>
      rw [SrcNode.sub_file_cons]
      split <;> simp
  | .dir es, nm, rel, c, hwf => by
    have hes : es.wf = true := by unfold SrcNode.wf at hwf; exact hwf
    unfold keptFiles
    cases rel with
    | nil =>
      rw [SrcNode.sub_nil]
      have : (([] : List Str), c) ∉ keptEntries es := by
        intro h
        have := (mem_keptEntries es [] c hes).mp h
        obtain ⟨n, rel', h1, _⟩ := this
        cases h1
      split <;> simp [this]
    | cons n rel' =>
      rw [SrcNode.sub_dir_cons]
      by_cases hg : nm = ".git".toList
      · rw [if_pos hg]
        simp [hg]
      · rw [if_neg hg, mem_keptEntries es (n :: rel') c hes]
        have hne : ¬ ".git".toList = nm := fun e => hg e.symm
        constructor
        · rintro ⟨n', r', h1, h2, h3, h4⟩
          cases h1
          refine ⟨h2, ?_, ?_⟩
          · rw [getLast_cons_cons]; exact h3
          · rw [List.dropLast_cons₂]
            intro hm
            rcases List.mem_cons.mp hm with hm | hm
            · exact hne hm
            · exact h4 hm
        · rintro ⟨h2, h3, h4⟩
          refine ⟨n, rel', rfl, h2, ?_, ?_⟩
          · rw [getLast_cons_cons] at h3; exact h3
          · rw [List.dropLast_cons₂] at h4
            exact fun hm => h4 (List.mem_cons_of_mem _ hm)
/-- The kept files of the entries of a directory of a well-formed tree. -/
theorem mem_keptEntries : ∀ (es : SrcEntries) (rel : List Str) (c : Str),
    es.wf = true →
    ((rel, c) ∈ keptEntries es ↔
      ∃ n rel', rel = n :: rel' ∧ es.sub n rel' = some (.file c) ∧
        isExcluded ((n :: rel').getLast (by simp)) = false ∧
        ".git".toList ∉ (n :: rel').dropLast)
  | .nil, rel, c, _ => by
    simp [keptEntries, SrcEntries.sub]
  | .cons m u rest, rel, c, hwf => by
    obtain ⟨_, hno, hu, hrest⟩ := SrcEntries.wf_cons m u rest hwf
    rw [keptEntries_cons, List.mem_append, mem_keptEntries rest rel c hrest]
    constructor
    · rintro (h | ⟨n, rel', h1, h2, h3, h4⟩)
      · obtain ⟨f, hf, hfe⟩ := List.mem_map.mp h
        obtain ⟨r', c'⟩ := f
        simp only [Prod.mk.injEq] at hfe
        obtain ⟨rfl, rfl⟩ := hfe
        obtain ⟨g1, g2, g3⟩ := (mem_keptFiles u m r' c' hu).mp hf
        refine ⟨m, r', rfl, ?_, g2, g3⟩
        rw [SrcEntries.sub_cons, if_pos rfl]
        exact g1
      · refine ⟨n, rel', h1, ?_, h3, h4⟩
        have hmn : m ≠ n := by
          intro e
          subst e
          rw [SrcEntries.hasName_of_sub rest m rel' _ h2] at hno
          cases hno
        rw [SrcEntries.sub_cons, if_neg hmn]
        exact h2
    · rintro ⟨n, rel', h1, h2, h3, h4⟩
      rw [SrcEntries.sub_cons] at h2
      split at h2
      · rename_i hmn
        subst hmn
        left
        subst h1
        exact List.mem_map.mpr ⟨(rel', c), (mem_keptFiles u m rel' c hu).mpr ⟨h2, h3, h4⟩, rfl⟩
      · right
        exact ⟨n, rel', h1, h2, h3, h4⟩
end

mutual
/-- The components of a path that leads somewhere in a well-formed tree are
file names, and the node reached is well-formed. -/
theorem SrcNode.sub_valid : ∀ (node : SrcNode) (p : List Str) (x : SrcNode),
    node.wf = true → node.sub p = some x → (∀ n ∈ p, validName n = true) ∧ x.wf = true
  | node, [], x, hwf, h => by
    rw [SrcNode.sub_nil] at h
    cases h
    exact ⟨by simp, hwf⟩
  | .file d, c :: cs, x, _, h => by
    rw [SrcNode.sub_file_cons] at h
    cases h
  | .dir es, c :: cs, x, hwf, h => by
    rw [SrcNode.sub_dir_cons] at h
    have hes : es.wf = true := by unfold SrcNode.wf at hwf; exact hwf
    exact SrcEntries.subEntries_valid es c cs x hes h
theorem SrcEntries.subEntries_valid : ∀ (es : SrcEntries) (c : Str) (cs : List Str) (x : SrcNode),
    es.wf = true → es.sub c cs = some x → (∀ n ∈ c :: cs, validName n = true) ∧ x.wf = true
  | .nil, c, cs, x, _, h => by simp [SrcEntries.sub] at h
  | .cons m u rest, c, cs, x, hwf, h => by
    obtain ⟨hv, _, hu, hrest⟩ := SrcEntries.wf_cons m u rest hwf
    rw [SrcEntries.sub_cons] at h
    split at h
    · rename_i hmc
      subst hmc
      obtain ⟨h1, h2⟩ := SrcNode.sub_valid u cs x hu h
      refine ⟨?_, h2⟩
      intro n hn
      rcases List.mem_cons.mp hn with rfl | hn
      · exact hv
      · exact h1 n hn
    · exact SrcEntries.subEntries_valid rest c cs x hrest h
end

/-! ### Maps built by successive updates -/

theorem mapSet_mem_self {β : Type} (m : List (Str × β)) (k : Str) (v : β) :
    (k, v) ∈ mapSet m k v := by
  induction m with
  | nil => simp [mapSet]
  | cons e rest ih =>
    obtain ⟨k1, v1⟩ := e
    unfold mapSet
    split
    · exact List.mem_cons_self _ _
    · exact List.mem_cons_of_mem _ ih

theorem mapSet_mem_of_ne {β : Type} (m : List (Str × β)) (k : Str) (v : β) (e : Str × β)
    (he : e ∈ m) (hk : e.1 ≠ k) : e ∈ mapSet m k v := by
  induction m with
  | nil => simp at he
  | cons e1 rest ih =>
    obtain ⟨k1, v1⟩ := e1
    unfold mapSet
    rcases List.mem_cons.mp he with rfl | he
    · rw [if_neg hk]
      exact List.mem_cons_self _ _
    · split
      · exact List.mem_cons_of_mem _ he
      · exact List.mem_cons_of_mem _ (ih he)

/-- Entering pairs that do not contradict each other, or the map, on a key
gives the map that holds the map's pairs and the entered pairs. -/
theorem mem_foldl_mapSet (l m : List (Str × Str))
    (hfun : ∀ a ∈ m ++ l, ∀ b ∈ m ++ l, a.1 = b.1 → a.2 = b.2) (e : Str × Str) :
    e ∈ l.foldl (fun m f => mapSet m f.1 f.2) m ↔ e ∈ m ∨ e ∈ l := by
  induction l generalizing m with
  | nil => simp
  | cons f rest ih =>
    rw [List.foldl_cons, ih]
    · constructor
      · rintro (h | h)
        · rcases mem_mapSet m f.1 f.2 e h with h | h
          · exact Or.inl h
          · exact Or.inr (by rw [h]; exact List.mem_cons_self _ _)
        · exact Or.inr (List.mem_cons_of_mem _ h)
      · rintro (h | h)
        · left
          by_cases hk : e.1 = f.1
          · have := hfun e (by simp [h]) f (by simp) hk
            have he : e = (f.1, f.2) := Prod.ext hk this
            rw [he]
            exact mapSet_mem_self m f.1 f.2
          · exact mapSet_mem_of_ne m f.1 f.2 e h hk
        · rcases List.mem_cons.mp h with rfl | h
          · exact Or.inl (mapSet_mem_self m e.1 e.2)
          · exact Or.inr h
    · intro a ha b hb hab
      have sub : ∀ x ∈ mapSet m f.1 f.2 ++ rest, x ∈ m ++ f :: rest := by
        intro x hx
        rcases List.mem_append.mp hx with hx | hx
        · rcases mem_mapSet m f.1 f.2 x hx with hx | hx
          · simp [hx]
          · rw [hx]; simp
        · simp [hx]
      exact hfun a (sub a ha) b (sub b hb) hab

theorem nodup_foldl_mapSet (l m : List (Str × Str)) (h : (m.map Prod.fst).Nodup) :
    ((l.foldl (fun m f => mapSet m f.1 f.2) m).map Prod.fst).Nodup := by
  induction l generalizing m with
  | nil => exact h
  | cons f rest ih => exact ih _ (mapSet_nodup m f.1 f.2 h)

theorem insertAll_eq_foldl (pre : List Str) (m : List (Str × Str)) (l : List (List Str × Str)) :
    insertAll pre m l =
      (l.map (fun f => (joinPath (pre ++ f.1), f.2))).foldl (fun m f => mapSet m f.1 f.2) m := by
  unfold insertAll
  rw [List.foldl_map]

theorem joinPath_injective (a b : List Str) (ha : ∀ c ∈ a, validName c = true)
    (hb : ∀ c ∈ b, validName c = true) (hane : a ≠ []) (hbne : b ≠ [])
    (h : joinPath a = joinPath b) : a = b := by
  rw [← splitPath_joinPath a (fun c hc => (compsOk_of_valid a ha c hc).2.2) hane,
    ← splitPath_joinPath b (fun c hc => (compsOk_of_valid b hb c hc).2.2) hbne, h]

/-! ### The file map of a bundle -/

/-- The file map that the inner walk builds for the directory `node` with
entry name `nm` holds, under their relative paths, the regular files below
the node whose name is not excluded and which are reached without passing a
directory named `.git`, the node itself counted. -/
theorem mem_bundle_files (nm : Str) (es : SrcEntries) (hwf : es.wf = true) :
    ((insertAll [] [] (keptFiles nm (.dir es))).map Prod.fst).Nodup ∧
    (∀ f ∈ insertAll [] [] (keptFiles nm (.dir es)), validRel f.1 = true) ∧
    ∀ key c, (key, c) ∈ insertAll [] [] (keptFiles nm (.dir es)) ↔
      ∃ rel, key = joinPath rel ∧ (SrcNode.dir es).sub rel = some (.file c) ∧
        isExcluded (baseName rel) = false ∧ ".git".toList ∉ nm :: rel.dropLast := by
  have hnode : (SrcNode.dir es).wf = true := by unfold SrcNode.wf; exact hwf
  have hk : ∀ rel c, (rel, c) ∈ keptFiles nm (.dir es) ↔
      (SrcNode.dir es).sub rel = some (.file c) ∧ isExcluded (baseName rel) = false ∧
        ".git".toList ∉ nm :: rel.dropLast := by
    intro rel c
    rw [mem_keptFiles (.dir es) nm rel c hnode]
    cases rel with
    | nil => simp [SrcNode.sub_nil]
    | cons n r =>
      rw [List.dropLast_cons₂, getLast_cons_cons]
      have : baseName (n :: r) = (n :: r).getLast (by simp) := by
        unfold baseName
        rw [List.getLast?_eq_getLast _ (by simp)]
        rfl
      rw [this]
  have hvalid : ∀ rel c, (rel, c) ∈ keptFiles nm (.dir es) →
      rel ≠ [] ∧ ∀ x ∈ rel, validName x = true := by
    intro rel c h
    have h1 := ((hk rel c).mp h).1
    refine ⟨?_, (SrcNode.sub_valid (.dir es) rel _ hnode h1).1⟩
    rintro rfl
    rw [SrcNode.sub_nil] at h1
    cases h1
  have hfun : ∀ a ∈ ([] : List (Str × Str)) ++
      (keptFiles nm (.dir es)).map (fun f => (joinPath ([] ++ f.1), f.2)),
      ∀ b ∈ ([] : List (Str × Str)) ++
      (keptFiles nm (.dir es)).map (fun f => (joinPath ([] ++ f.1), f.2)),
      a.1 = b.1 → a.2 = b.2 := by
    intro a ha b hb hab
    simp only [List.nil_append, List.mem_map] at ha hb
    obtain ⟨⟨r1, c1⟩, h1, rfl⟩ := ha
    obtain ⟨⟨r2, c2⟩, h2, rfl⟩ := hb
    simp only at hab ⊢
    obtain ⟨v1, v1'⟩ := hvalid r1 c1 h1
    obtain ⟨v2, v2'⟩ := hvalid r2 c2 h2
    have hr : r1 = r2 := joinPath_injective r1 r2 v1' v2' v1 v2 hab
    subst hr
    have e1 := ((hk r1 c1).mp h1).1
    have e2 := ((hk r1 c2).mp h2).1
    rw [e1] at e2
    simpa using e2
  rw [insertAll_eq_foldl]
  refine ⟨nodup_foldl_mapSet _ [] (by simp), ?_, ?_⟩
  · intro f hf
    rw [mem_foldl_mapSet _ [] hfun] at hf
    simp only [List.not_mem_nil, List.nil_append, List.mem_map, false_or] at hf
    obtain ⟨⟨r, c⟩, h1, rfl⟩ := hf
    obtain ⟨v1, v2⟩ := hvalid r c h1
    unfold validRel
    simp only
    rw [splitPath_joinPath r (fun x hx => (compsOk_of_valid r v2 x hx).2.2) v1]
    simpa [List.all_eq_true] using v2
  · intro key c
    rw [mem_foldl_mapSet _ [] hfun]
    simp only [List.not_mem_nil, List.nil_append, List.mem_map, false_or, Prod.mk.injEq]
    constructor
    · rintro ⟨⟨r, c'⟩, h1, h2, h3⟩
      simp only at h2 h3
      subst h3
      exact ⟨r, h2.symm, (hk r c').mp h1⟩
    · rintro ⟨rel, h1, h2⟩
      exact ⟨(rel, c), (hk rel c).mpr h2, h1.symm, rfl⟩

/-! ### The outer walk of `findSkills` -/

/-- The inner walk, started at a directory of a well-formed tree. -/
theorem WalkDir_collect (fsys : SrcNode) (R : List Str) (es : SrcEntries)
    (hsub : fsys.sub R = some (.dir es)) (hwf : es.wf = true) :
    WalkDir (collectFn fsys R) fsys R [] =
      (none, insertAll [] [] (keptFiles (baseName R) (.dir es))) := by
  have h := collect_walkDir fsys R (.dir es) [] (baseName R) []
    (by unfold SrcNode.wf; exact hwf) (by rw [List.append_nil]; exact hsub)
  rw [List.append_nil] at h
  unfold WalkDir
  simp only [hsub, h]

theorem discoverFn_dir (tbl : Char → Char) (fsys : SrcNode) (p : List Str) (nm : Str)
    (out : List (List Str × skillEntry)) :
    discoverFn tbl fsys p (some ⟨nm, true⟩) out = (.nil, out) := by
  simp [discoverFn]

theorem parent_of_file (fsys : SrcNode) (hwf : fsys.wf = true) (p : List Str) (d : Str)
    (hsub : fsys.sub p = some (.file d)) (hp : p ≠ []) :
    ∃ es, fsys.sub p.dropLast = some (.dir es) ∧ es.wf = true := by
  have hsplit : p = p.dropLast ++ [p.getLast hp] := (List.dropLast_append_getLast hp).symm
  rw [hsplit, SrcNode.sub_append] at hsub
  cases hx : fsys.sub p.dropLast with
  | none => rw [hx] at hsub; cases hsub
  | some x =>
    rw [hx] at hsub
    change x.sub [p.getLast hp] = some (.file d) at hsub
    have hxwf := (SrcNode.sub_valid fsys p.dropLast x hwf hx).2
    cases x with
    | file d' => rw [SrcNode.sub_file_cons] at hsub; cases hsub
    | dir es =>
      refine ⟨es, rfl, ?_⟩
      unfold SrcNode.wf at hxwf
      exact hxwf

/-- The callback of the outer walk, on a regular file of a well-formed tree,
records only bundles as described by `BundleOk`. -/
theorem discoverFn_file (tbl : Char → Char) (fsys : SrcNode) (hwf : fsys.wf = true)
    (p : List Str) (d : Str) (out : List (List Str × skillEntry))
    (hsub : fsys.sub p = some (.file d))
    (hout : ∀ x ∈ out, BundleOk tbl fsys x) :
    ∀ x ∈ (discoverFn tbl fsys p (some ⟨baseName p, false⟩) out).2, BundleOk tbl fsys x := by
  unfold discoverFn
  simp only [Bool.false_eq_true, false_or]
  split
  · exact hout
  · rename_i hname
    have hname' : baseName p = "SKILL.md".toList := by simpa using hname
    have hp : p ≠ [] := by
      rintro rfl
      revert hname'
      decide
    rw [readSrcFile_of_sub fsys p d hsub]
    simp only
    cases hpn : parseName tbl d with
    | error e => exact hout
    | ok name =>
      simp only
      obtain ⟨es, hes, heswf⟩ := parent_of_file fsys hwf p d hsub hp
      rw [WalkDir_collect fsys p.dropLast es hes heswf]
      simp only
      intro x hx
      rcases List.mem_append.mp hx with hx | hx
      · exact hout x hx
      · simp only [List.mem_singleton] at hx
        subst hx
        have hraw : ∃ raw, name = sanitizeName tbl raw := by
          unfold parseName at hpn
          split at hpn
          · cases hpn
          · split at hpn
            · cases hpn
            · rename_i raw _ _
              simp only [Except.ok.injEq] at hpn
              exact ⟨raw, hpn.symm⟩
        obtain ⟨raw, hraw⟩ := hraw
        exact ⟨es, raw, hes, heswf, hraw, rfl⟩

theorem baseName_snoc (p : List Str) (n : Str) : baseName (p ++ [n]) = n := by
  simp [baseName]

mutual
/-- The outer walk records only bundles as described by `BundleOk`. -/
theorem discover_walkDir (tbl : Char → Char) (fsys : SrcNode) (hwf : fsys.wf = true) :
    ∀ (node : SrcNode) (p : List Str) (out : List (List Str × skillEntry)),
      node.wf = true → fsys.sub p = some node → (∀ x ∈ out, BundleOk tbl fsys x) →
      ∀ x ∈ (walkDir (discoverFn tbl fsys) p (baseName p) node out).2, BundleOk tbl fsys x
  | .file d, p, out, _, hsub, hout => by
    rw [walkDir_file]
    exact discoverFn_file tbl fsys hwf p d out hsub hout
  | .dir es, p, out, hnode, hsub, hout => by
    rw [walkDir_dir, discoverFn_dir]
    simp only
    have hes : es.wf = true := by unfold SrcNode.wf at hnode; exact hnode
    exact discover_walkEntries tbl fsys hwf es p out hes
      (fun n t h => sub_child fsys p es hes hsub n t h)
      (fun n t h => (SrcEntries.wf_of_mem es hes n t h).2) hout
/-- The loop of the outer walk over entries of the directory at `p`. -/
theorem discover_walkEntries (tbl : Char → Char) (fsys : SrcNode) (hwf : fsys.wf = true) :
    ∀ (es : SrcEntries) (p : List Str) (out : List (List Str × skillEntry)),
      es.wf = true →
      (∀ n t, (n, t) ∈ es.toList → fsys.sub (p ++ [n]) = some t) →
      (∀ n t, (n, t) ∈ es.toList → t.wf = true) →
      (∀ x ∈ out, BundleOk tbl fsys x) →
      ∀ x ∈ (walkEntries (discoverFn tbl fsys) p es out).2, BundleOk tbl fsys x
  | .nil, p, out, _, _, _, hout => by
    rw [walkEntries_nil]
    exact hout
  | .cons n t rest, p, out, hes, hsub, hwfs, hout => by
    rw [walkEntries_cons]
    have h1 := discover_walkDir tbl fsys hwf t (p ++ [n]) out
      (hwfs n t (by simp [SrcEntries.toList]))
      (hsub n t (by simp [SrcEntries.toList])) hout
    rw [baseName_snoc] at h1
    have hrest : rest.wf = true := (SrcEntries.wf_cons n t rest hes).2.2.2
    cases hw : walkDir (discoverFn tbl fsys) (p ++ [n]) n t out with
    | mk c out1 =>
      rw [hw] at h1
      simp only at h1
      cases c with
      | nil =>
        exact discover_walkEntries tbl fsys hwf rest p out1 hrest
          (fun m u h => hsub m u (by simp [SrcEntries.toList, h]))
          (fun m u h => hwfs m u (by simp [SrcEntries.toList, h])) h1
      | skipDir => exact h1
      | skipAll => exact h1
      | err e => exact h1
end

/-- Every bundle that `findSkills` returns for a well-formed tree is as
described by `BundleOk`. -/
theorem findSkillRoots_ok (tbl : Char → Char) (fsys : SrcNode) (hwf : fsys.wf = true)
    (out : List (List Str × skillEntry)) (h : findSkillRoots tbl fsys = .ok out) :
    ∀ x ∈ out, BundleOk tbl fsys x := by
  unfold findSkillRoots WalkDir at h
  rw [SrcNode.sub_nil] at h
  simp only at h
  have h1 := discover_walkDir tbl fsys hwf fsys [] [] hwf (SrcNode.sub_nil fsys)
    (by intro x hx; simp at hx)
  cases hw : walkDir (discoverFn tbl fsys) [] (baseName []) fsys [] with
  | mk c out1 =>
    rw [hw] at h h1
    cases c <;> simp only [Except.ok.injEq] at h
    all_goals first
      | (subst h; exact h1)
      | cases h

theorem findSkills_of_roots (tbl : Char → Char) (fsys : SrcNode)
    (out : List (List Str × skillEntry)) (h : findSkillRoots tbl fsys = .ok out) :
    findSkills tbl fsys = .ok (out.map Prod.snd) := by
  unfold findSkills
  rw [h]

theorem findSkills_roots (tbl : Char → Char) (fsys : SrcNode) (skills : List skillEntry)
    (h : findSkills tbl fsys = .ok skills) :
    ∃ out, findSkillRoots tbl fsys = .ok out ∧ skills = out.map Prod.snd := by
  unfold findSkills at h
  cases hr : findSkillRoots tbl fsys with
  | error e => rw [hr] at h; cases h
  | ok out =>
    rw [hr] at h
    simp only [Except.ok.injEq] at h
    exact ⟨out, rfl, h.symm⟩

/-- The bundles of a well-formed tree have a file name as name, and a file
map keyed by distinct relative paths of file names. -/
theorem findSkills_entries_ok (tbl : Char → Char) (fsys : SrcNode) (hwf : fsys.wf = true)
    (skills : List skillEntry) (h : findSkills tbl fsys = .ok skills) :
    ∀ s ∈ skills, validName s.name = true ∧ (∀ f ∈ s.files, validRel f.1 = true) ∧
      (s.files.map Prod.fst).Nodup := by
  obtain ⟨out, hout, rfl⟩ := findSkills_roots tbl fsys skills h
  intro s hs
  obtain ⟨⟨R, e⟩, hre, rfl⟩ := List.mem_map.mp hs
  obtain ⟨es, raw, _, heswf, hname, hfiles⟩ := findSkillRoots_ok tbl fsys hwf out hout _ hre
  simp only at hname hfiles ⊢
  obtain ⟨h1, h2, _⟩ := mem_bundle_files (baseName R) es heswf
  rw [hname, hfiles]
  exact ⟨validName_sanitizeName tbl raw, h2, h1⟩

/-- C9, counterexample. The tree holds `.git/SKILL.md` and
`a/.git/x/SKILL.md`.  The bundle rooted at `.git` has an empty file map,
although `.git/SKILL.md` is a file under that root whose name is not excluded
and whose path from the root passes no directory; the bundle rooted at
`a/.git/x` has `SKILL.md` in its file map, although that file lies inside the
directory `a/.git`. -/
theorem findSkills_git_roots :
    gitTree.wf = true ∧
    findSkillRoots id gitTree =
      .ok [([".git".toList], ⟨"g".toList, []⟩),
           (["a".toList, ".git".toList, "x".toList],
             ⟨"x".toList, [("SKILL.md".toList, manifestText "x".toList [])]⟩)] ∧
    readSrcFile gitTree [".git".toList, "SKILL.md".toList] = some (manifestText "g".toList []) ∧
    isExcluded "SKILL.md".toList = false := by
  decide

/-- C9 (amended). For a well-formed tree and a bundle that `findSkills`
returns, found in the directory `R`: the keys of the file map are distinct,
and the map holds `c` under a key exactly if the key is the path, relative to
`R`, of a regular file below `R` with content `c`, whose name is none of
`README.md`, `metadata.json` and does not begin with `_`, and for which
neither `R` itself nor a directory passed from `R` to the file is named
`.git`.  Directories above `R` do not count. -/
theorem findSkills_file_map (tbl : Char → Char) (fsys : SrcNode)
    (out : List (List Str × skillEntry)) (R : List Str) (e : skillEntry)
    (hwf : fsys.wf = true) (hfind : findSkillRoots tbl fsys = .ok out) (hmem : (R, e) ∈ out) :
    findSkills tbl fsys = .ok (out.map Prod.snd) ∧
    (e.files.map Prod.fst).Nodup ∧
    ∀ key c, (key, c) ∈ e.files ↔
      ∃ rel, key = joinPath rel ∧ readSrcFile fsys (R ++ rel) = some c ∧
        isExcluded (baseName rel) = false ∧ ".git".toList ∉ baseName R :: rel.dropLast := by
  obtain ⟨es, raw, hsub, heswf, _, hfiles⟩ := findSkillRoots_ok tbl fsys hwf out hfind _ hmem
  simp only at hsub hfiles
  obtain ⟨h1, _, h3⟩ := mem_bundle_files (baseName R) es heswf
  refine ⟨findSkills_of_roots tbl fsys out hfind, by rw [hfiles]; exact h1, ?_⟩
  intro key c
  rw [hfiles, h3 key c]
  have : ∀ rel, readSrcFile fsys (R ++ rel) = some c ↔
      (SrcNode.dir es).sub rel = some (.file c) := by
    intro rel
    rw [readSrcFile_eq_some, SrcNode.sub_append, hsub]
    rfl
  simp only [this]

/-- C9, witness: the bundle of `exampleTree`. -/
theorem findSkills_file_map_witness :
    findSkills id exampleTree = .ok ([(([] : List Str), exampleBundle)].map Prod.snd) ∧
    (exampleBundle.files.map Prod.fst).Nodup ∧
    ∀ key c, (key, c) ∈ exampleBundle.files ↔
      ∃ rel, key = joinPath rel ∧ readSrcFile exampleTree ([] ++ rel) = some c ∧
        isExcluded (baseName rel) = false ∧ ".git".toList ∉ baseName [] :: rel.dropLast :=
  findSkills_file_map id exampleTree [([], exampleBundle)] [] exampleBundle
    (by decide) (by decide) (by decide)

/-! ### The manifest parser -/

theorem cut_of_isPrefixOf (sep s : Str) (h : sep.isPrefixOf s = true) (hs : s ≠ []) :
    cut sep s = some ([], s.drop sep.length) := by
  cases s with
  | nil => exact absurd rfl hs
  | cons c cs =>
    unfold cut
    rw [if_pos h]

theorem splitN_three (sep t : Str) (h : sep.isPrefixOf t = true) (ht : t ≠ []) :
    splitN sep 3 t =
      match cut sep (t.drop sep.length) with
      | none => [[], t.drop sep.length]
      | some (a, b) => [[], a, b] := by
  have e : splitN sep 3 t = match cut sep t with
      | none => [t]
      | some (a, b) => a :: splitN sep 2 b := rfl
  rw [e, cut_of_isPrefixOf sep t h ht]
  simp only
  have e2 : splitN sep 2 (t.drop sep.length) = match cut sep (t.drop sep.length) with
      | none => [t.drop sep.length]
      | some (a, b) => a :: splitN sep 1 b := rfl
  rw [e2]
  cases cut sep (t.drop sep.length) with
  | none => rfl
  | some ab => rfl

theorem hasPrefix_ne_nil (t : Str) (h : hasPrefix t "---".toList = true) : t ≠ [] := by
  intro e
  rw [e] at h
  exact absurd h (by decide)

/-- A manifest with both delimiters: the parser returns what the loop over
the lines of the header block finds. -/
theorem parseFrontmatterField_ok (data field block tail : Str)
    (hp : hasPrefix (trimSpace data) "---".toList = true)
    (hc : cut "---".toList ((trimSpace data).drop 3) = some (block, tail)) :
    parseFrontmatterField data field = .ok (findField field (splitOnChar '\n' block)) := by
  unfold parseFrontmatterField
  simp only
  rw [hp]
  have h3 := splitN_three "---".toList (trimSpace data) hp (hasPrefix_ne_nil _ hp)
  have hl : "---".toList.length = 3 := rfl
  rw [hl, hc] at h3
  simp only at h3
  rw [h3]
  rfl

theorem parseFrontmatterField_missing (data field : Str)
    (hp : hasPrefix (trimSpace data) "---".toList = false) :
    parseFrontmatterField data field = .error .missingFrontmatter := by
  unfold parseFrontmatterField
  simp only
  rw [hp]
  rfl

theorem parseFrontmatterField_unterminated (data field : Str)
    (hp : hasPrefix (trimSpace data) "---".toList = true)
    (hc : cut "---".toList ((trimSpace data).drop 3) = none) :
    parseFrontmatterField data field = .error .malformedFrontmatter := by
  unfold parseFrontmatterField
  simp only
  rw [hp]
  have h3 := splitN_three "---".toList (trimSpace data) hp (hasPrefix_ne_nil _ hp)
  have hl : "---".toList.length = 3 := rfl
  rw [hl, hc] at h3
  simp only at h3
  rw [h3]
  rfl

theorem findField_absent (field : Str) (lines : List Str)
    (h : ∀ line ∈ lines, ∀ k v, cut ":".toList line = some (k, v) → trimSpace k ≠ field) :
    findField field lines = [] := by
  induction lines with
  | nil => rfl
  | cons line rest ih =>
    unfold findField
    have ih2 := ih (fun l hl => h l (List.mem_cons_of_mem _ hl))
    cases hcut : cut ":".toList line with
    | none => exact ih2
    | some kv =>
      obtain ⟨k, v⟩ := kv
      simp only
      rw [if_neg (h line (List.mem_cons_self _ _) k v hcut)]
      exact ih2

theorem findField_first (field : Str) (pre : List Str) (line k v : Str) (rest : List Str)
    (hpre : ∀ l ∈ pre, ∀ k v, cut ":".toList l = some (k, v) → trimSpace k ≠ field)
    (hcut : cut ":".toList line = some (k, v)) (hk : trimSpace k = field) :
    findField field (pre ++ line :: rest) = trim "\"'".toList (trimSpace v) := by
  induction pre with
  | nil =>
    rw [List.nil_append]
    unfold findField
    rw [hcut]
    simp only
    rw [if_pos hk]
  | cons l ls ih =>
    have ih2 := ih (fun l hl => hpre l (List.mem_cons_of_mem _ hl))
    rw [List.cons_append]
    unfold findField
    cases hc : cut ":".toList l with
    | none => exact ih2
    | some kv =>
      obtain ⟨k1, v1⟩ := kv
      simp only
      rw [if_neg (hpre l (List.mem_cons_self _ _) k1 v1 hc)]
      exact ih2

/-- C15. `parseFrontmatterField` fails exactly when the trimmed text does not
begin with `---` (missing delimiter) or no second `---` follows the opening
one (unterminated block); and when it succeeds and no line of the header
block has the field as its key, it returns the empty string. -/
theorem parseFrontmatterField_fails_iff (data field : Str) :
    ((∃ e, parseFrontmatterField data field = .error e) ↔
      hasPrefix (trimSpace data) "---".toList = false ∨
        contains ((trimSpace data).drop 3) "---".toList = false) ∧
    (hasPrefix (trimSpace data) "---".toList = false →
      parseFrontmatterField data field = .error .missingFrontmatter) ∧
    (hasPrefix (trimSpace data) "---".toList = true →
      contains ((trimSpace data).drop 3) "---".toList = false →
      parseFrontmatterField data field = .error .malformedFrontmatter) ∧
    (∀ val, parseFrontmatterField data field = .ok val →
      ∃ block, headerBlock data = some block ∧
        ((∀ line ∈ splitOnChar '\n' block, ∀ k v,
            cut ":".toList line = some (k, v) → trimSpace k ≠ field) → val = [])) := by
  have hcontains : contains ((trimSpace data).drop 3) "---".toList = false ↔
      cut "---".toList ((trimSpace data).drop 3) = none := by
    unfold contains
    cases cut "---".toList ((trimSpace data).drop 3) <;> simp
  refine ⟨?_, parseFrontmatterField_missing data field, ?_, ?_⟩
  · cases hp : hasPrefix (trimSpace data) "---".toList with
    | false =>
      rw [parseFrontmatterField_missing data field hp]
      simp
    | true =>
      cases hc : cut "---".toList ((trimSpace data).drop 3) with
      | none =>
        rw [parseFrontmatterField_unterminated data field hp hc]
        constructor
        · intro _
          exact Or.inr (hcontains.mpr hc)
        · intro _
          exact ⟨_, rfl⟩
      | some bt =>
        obtain ⟨block, tail⟩ := bt
        rw [parseFrontmatterField_ok data field block tail hp hc]
        constructor
        · rintro ⟨e, he⟩
          cases he
        · rintro (h | h)
          · cases h
          · rw [hcontains.mp h] at hc
            cases hc
  · intro hp hc
    exact parseFrontmatterField_unterminated data field hp (hcontains.mp hc)
  · intro val hval
    cases hp : hasPrefix (trimSpace data) "---".toList with
    | false =>
      rw [parseFrontmatterField_missing data field hp] at hval
      cases hval
    | true =>
      cases hc : cut "---".toList ((trimSpace data).drop 3) with
      | none =>
        rw [parseFrontmatterField_unterminated data field hp hc] at hval
        cases hval
      | some bt =>
        obtain ⟨b, tail⟩ := bt
        rw [parseFrontmatterField_ok data field b tail hp hc] at hval
        refine ⟨b, ?_, ?_⟩
        · unfold headerBlock
          rw [hc]
          rfl
        · intro hlines
          rw [findField_absent field _ hlines] at hval
          cases hval
          rfl

/-- C16. `parseName` fails exactly when `parseFrontmatterField` fails for the
field `name` or yields the empty string; otherwise it returns the sanitized
value.  The cases of the test table are evaluated. -/
theorem parseName_fails_iff (tbl : Char → Char) (data : Str) :
    ((∃ e, parseName tbl data = .error e) ↔
      (∃ e, parseFrontmatterField data "name".toList = .error e) ∨
        parseFrontmatterField data "name".toList = .ok []) ∧
    (∀ v, parseFrontmatterField data "name".toList = .ok v → v ≠ [] →
      parseName tbl data = .ok (sanitizeName tbl v)) ∧
    parseName tbl "---\nname: ../../etc/evil\n---\n".toList = .ok "etc-evil".toList ∧
    parseName tbl "---\nname: My Cool Tool!\n---\n".toList = .ok "my-cool-tool".toList ∧
    parseName tbl "---\nname: ...leading-dots\n---\n".toList = .ok "leading-dots".toList ∧
    parseName tbl "no frontmatter".toList = .error .missingFrontmatter ∧
    parseName tbl "---\ndescription: x\n---\n".toList = .error .missingName ∧
    parseName tbl "---\nname: \n---\n".toList = .error .missingName := by
  refine ⟨?_, ?_, rfl, rfl, rfl, rfl, rfl, rfl⟩
  · unfold parseName
    cases parseFrontmatterField data "name".toList with
    | error e => simp
    | ok v =>
      by_cases hv : v = []
      · simp [hv]
      · simp [hv]
  · intro v hv hne
    unfold parseName
    rw [hv]
    simp only
    rw [if_neg hne]

/-! ### Absolute results of the path resolver -/

theorem filepathIsAbs_iff (p : Str) : filepathIsAbs p = true ↔ ∃ r, p = '/' :: r := by
  cases p with
  | nil => simp [filepathIsAbs_nil]
  | cons c cs =>
    rw [filepathIsAbs_cons]
    simp

theorem filepathClean_isAbs (p : Str) (h : filepathIsAbs p = true) :
    filepathIsAbs (filepathClean p) = true := by
  obtain ⟨r, rfl⟩ := (filepathIsAbs_iff _).mp h
  unfold filepathClean
  rw [if_neg (by simp)]
  simp only
  rw [if_pos h]
  exact (filepathIsAbs_iff _).mpr ⟨_, rfl⟩

theorem filepathJoin_isAbs (a b : Str) (h : filepathIsAbs a = true) :
    filepathIsAbs (filepathJoin a b) = true := by
  obtain ⟨r, rfl⟩ := (filepathIsAbs_iff _).mp h
  unfold filepathJoin
  rw [if_pos (by simp)]
  exact filepathClean_isAbs _ ((filepathIsAbs_iff _).mpr ⟨_, rfl⟩)

/-- C20. With an absolute home directory, `resolvePath` returns in global
mode an absolute path or the empty string, and in project mode with an
absolute project root an absolute path. -/
theorem resolvePath_absolute (P : Platform) (path projectDir : Str)
    (hhome : filepathIsAbs (userHomeDir P) = true) :
    (resolvePath P path projectDir true = [] ∨
      filepathIsAbs (resolvePath P path projectDir true) = true) ∧
    (filepathIsAbs projectDir = true →
      filepathIsAbs (resolvePath P path projectDir false) = true) := by
  unfold resolvePath
  simp only
  constructor
  · split
    · right
      split
      · exact hhome
      · exact filepathJoin_isAbs _ _ hhome
    · split
      · right; assumption
      · left; rfl
  · intro hp
    split
    · split
      · exact hhome
      · exact filepathJoin_isAbs _ _ hhome
    · split
      · assumption
      · simp only [Bool.false_eq_true, if_false]
        exact filepathJoin_isAbs _ _ hp

theorem resolvePath_absolute_witness :
    filepathIsAbs (userHomeDir (homePlatform "/h".toList)) = true ∧
    ((resolvePath (homePlatform "/h".toList) "$CODEX_HOME/skills".toList "/p".toList true = [] ∨
      filepathIsAbs
        (resolvePath (homePlatform "/h".toList) "$CODEX_HOME/skills".toList "/p".toList true) =
          true) ∧
    (filepathIsAbs "/p".toList = true →
      filepathIsAbs
        (resolvePath (homePlatform "/h".toList) "$CODEX_HOME/skills".toList "/p".toList false) =
          true)) :=
  ⟨by decide, resolvePath_absolute (homePlatform "/h".toList) _ _ (by decide)⟩

/-! ### Trimming -/

theorem dropWhile_of_head (p : Char → Bool) (l : Str) (h : ∀ c ∈ l.head?, p c = false) :
    l.dropWhile p = l := by
  cases l with
  | nil => rfl
  | cons a as =>
    have := h a (by simp)
    simp [List.dropWhile, this]

theorem rdropWhile_of_last (p : Char → Bool) (l : Str) (h : ∀ c ∈ l.getLast?, p c = false) :
    l.rdropWhile p = l := by
  induction l using List.reverseRecOn with
  | nil => rfl
  | append_singleton l a _ =>
    have := h a (by simp)
    exact List.rdropWhile_concat_neg _ _ _ (by simp [this])

theorem rdropWhile_decomp (p : Char → Bool) (l : Str) :
    ∃ b, l = l.rdropWhile p ++ b ∧ ∀ c ∈ b, p c = true := by
  induction l using List.reverseRecOn with
  | nil => exact ⟨[], rfl, by simp⟩
  | append_singleton l a ih =>
    by_cases ha : p a = true
    · obtain ⟨b, hb1, hb2⟩ := ih
      rw [List.rdropWhile_concat_pos _ _ _ ha]
      refine ⟨b ++ [a], ?_, ?_⟩
      · rw [← List.append_assoc, ← hb1]
      · intro c hc
        rcases List.mem_append.mp hc with hc | hc
        · exact hb2 c hc
        · simp only [List.mem_singleton] at hc
          rw [hc]; exact ha
    · rw [List.rdropWhile_concat_neg _ _ _ ha]
      exact ⟨[], by simp, by simp⟩

/-- What `strings.Trim` returns: the text without a leading and a trailing
run of runes of the cutset, each as long as possible. -/
theorem trim_decomp (cs s : Str) :
    ∃ a b, s = a ++ trim cs s ++ b ∧ (∀ c ∈ a, c ∈ cs) ∧ (∀ c ∈ b, c ∈ cs) ∧
      (∀ c ∈ (trim cs s).head?, c ∉ cs) ∧ (∀ c ∈ (trim cs s).getLast?, c ∉ cs) := by
  obtain ⟨b, hb1, hb2⟩ := rdropWhile_decomp (fun c => decide (c ∈ cs))
    (s.dropWhile (fun c => decide (c ∈ cs)))
  refine ⟨s.takeWhile (fun c => decide (c ∈ cs)), b, ?_, ?_, ?_, ?_, ?_⟩
  · unfold trim
    rw [List.append_assoc, ← hb1, List.takeWhile_append_dropWhile]
  · intro c hc
    simpa using List.mem_takeWhile_imp hc
  · intro c hc
    simpa using hb2 c hc
  · intro c hc
    cases ht : trim cs s with
    | nil => rw [ht] at hc; simp at hc
    | cons x xs =>
      rw [ht] at hc
      simp only [List.head?_cons, Option.mem_def, Option.some.injEq] at hc
      subst hc
      obtain ⟨t, htp⟩ := trim_prefix_dropWhile cs s
      rw [ht] at htp
      have hd : List.dropWhile (fun c => decide (c ∈ cs)) s ≠ [] := by
        rw [← htp]; simp
      have := List.head_dropWhile_not (fun c => decide (c ∈ cs)) s hd
      simpa [← htp] using this
  · intro c hc
    by_cases ht : trim cs s = []
    · rw [ht] at hc; simp at hc
    · have := trim_getLast_not_mem cs s ht
      rw [List.getLast?_eq_getLast _ ht] at hc
      simp only [Option.mem_def, Option.some.injEq] at hc
      rw [← hc]
      exact this

/-- C18, as stated, fails: quote characters that do not match are stripped
(`"1.0'` gives `1.0`), a quote on one side only is stripped (`'tis` gives
`tis`), and so is every further layer (`""nested""` gives `nested`), where one
layer of matching quotes would leave `"1.0'`, `'tis` and `"nested"`. -/
theorem parseFrontmatterField_strips_every_quote :
    parseFrontmatterField "---\nversion: \"1.0'\n---\n".toList "version".toList =
      .ok "1.0".toList ∧
    unquoteOnce (trimSpace " \"1.0'".toList) = "\"1.0'".toList ∧
    parseFrontmatterField "---\nname: 'tis\n---\n".toList "name".toList = .ok "tis".toList ∧
    unquoteOnce (trimSpace " 'tis".toList) = "'tis".toList ∧
    parseFrontmatterField "---\nname: \"\"nested\"\"\n---\n".toList "name".toList =
      .ok "nested".toList ∧
    unquoteOnce (trimSpace " \"\"nested\"\"".toList) = "\"nested\"".toList := by
  decide

/-- C18, amended.  For the first header line whose key is the requested
field, `parseFrontmatterField` returns the text after the first `:` of the
line, without surrounding whitespace and then without every leading and every
trailing quote character (`"` or `'`), matching or not: what is returned
neither begins nor ends with a quote character, and only quote characters
were removed around it. -/
theorem parseFrontmatterField_value (data field block : Str) (pre : List Str)
    (line k v : Str) (rest : List Str)
    (hp : hasPrefix (trimSpace data) "---".toList = true)
    (hb : headerBlock data = some block)
    (hlines : splitOnChar '\n' block = pre ++ line :: rest)
    (hpre : ∀ l ∈ pre, ∀ kv ∈ cut ":".toList l, trimSpace kv.1 ≠ field)
    (hcut : cut ":".toList line = some (k, v)) (hk : trimSpace k = field) :
    ∃ val a b, parseFrontmatterField data field = .ok val ∧
      val = trim "\"'".toList (trimSpace v) ∧
      trimSpace v = a ++ val ++ b ∧
      (∀ c ∈ a, c ∈ "\"'".toList) ∧ (∀ c ∈ b, c ∈ "\"'".toList) ∧
      (∀ c ∈ val.head?, c ∉ "\"'".toList) ∧ (∀ c ∈ val.getLast?, c ∉ "\"'".toList) := by
  unfold headerBlock at hb
  cases hc : cut "---".toList ((trimSpace data).drop 3) with
  | none => rw [hc] at hb; cases hb
  | some bt =>
    obtain ⟨b0, tail⟩ := bt
    rw [hc] at hb
    simp only [Option.map_some', Option.some.injEq] at hb
    subst hb
    obtain ⟨a, b, h1, h2, h3, h4, h5⟩ := trim_decomp "\"'".toList (trimSpace v)
    refine ⟨trim "\"'".toList (trimSpace v), a, b, ?_, rfl, h1, h2, h3, h4, h5⟩
    rw [parseFrontmatterField_ok data field b0 tail hp hc, hlines,
      findField_first field pre line k v rest
        (fun l hl k1 v1 h1 => hpre l hl (k1, v1) (Option.mem_def.mpr h1)) hcut hk]

theorem parseFrontmatterField_value_witness :
    ∃ val a b,
      parseFrontmatterField "---\nname: x\nversion: '\"1.0\"\n---\n".toList "version".toList =
        .ok val ∧
      val = trim "\"'".toList (trimSpace " '\"1.0\"".toList) ∧
      trimSpace " '\"1.0\"".toList = a ++ val ++ b ∧
      (∀ c ∈ a, c ∈ "\"'".toList) ∧ (∀ c ∈ b, c ∈ "\"'".toList) ∧
      (∀ c ∈ val.head?, c ∉ "\"'".toList) ∧ (∀ c ∈ val.getLast?, c ∉ "\"'".toList) :=
  parseFrontmatterField_value "---\nname: x\nversion: '\"1.0\"\n---\n".toList "version".toList
    "\nname: x\nversion: '\"1.0\"\n".toList ["".toList, "name: x".toList]
    "version: '\"1.0\"".toList "version".toList " '\"1.0\"".toList ["".toList]
    (by decide) (by decide) (by decide) (by decide) (by decide) (by decide)

/-! ### Searching for the delimiter -/

theorem cut_cons_skip (sep : Str) (c : Char) (s : Str)
    (h : sep.isPrefixOf (c :: s) = false) :
    cut sep (c :: s) = (cut sep s).map (fun r => (c :: r.1, r.2)) := by
  conv_lhs => unfold cut
  rw [if_neg (by simp [h])]

theorem cut_append_of_not_mem (d : Char) (sep l rest : Str) (hl : d ∉ l) :
    cut (d :: sep) (l ++ rest) = (cut (d :: sep) rest).map (fun r => (l ++ r.1, r.2)) := by
  induction l with
  | nil =>
    rw [List.nil_append]
    cases cut (d :: sep) rest <;> simp
  | cons c cs ih =>
    have hc : c ≠ d := fun e => hl (by simp [e])
    have hcs : d ∉ cs := fun hm => hl (by simp [hm])
    rw [List.cons_append, cut_cons_skip _ _ _ (by simp [List.isPrefixOf, Ne.symm hc]),
      ih hcs]
    cases cut (d :: sep) rest <;> rfl

theorem cut_dashes_lit (l rest : Str) (hl : '-' ∉ l) :
    cut "---".toList (l ++ rest) = (cut "---".toList rest).map (fun r => (l ++ r.1, r.2)) :=
  cut_append_of_not_mem '-' "--".toList l rest hl

theorem cut_char (c : Char) (l r : Str) (h : c ∉ l) :
    cut [c] (l ++ c :: r) = some (l, r) := by
  rw [cut_append_of_not_mem c [] l _ h]
  have : cut [c] (c :: r) = some ([], r) := by
    unfold cut
    rw [if_pos (by simp [List.isPrefixOf])]
    rfl
  rw [this]
  simp

theorem isPrefixOf_dashes_append (n rest : Str)
    (hn : "---".toList.isPrefixOf n = false) (hlen : 3 ≤ n.length) :
    "---".toList.isPrefixOf (n ++ rest) = false := by
  match n, hlen with
  | a :: b :: c :: n', _ =>
    simp only [String.toList, List.isPrefixOf, List.cons_append] at hn ⊢
    exact hn

/-- A text without `---` that is followed by a rune other than `-` holds no
beginning of a delimiter. -/
theorem cut_dashes_append (n rest : Str) (hn : contains n "---".toList = false)
    (hr : ∀ c ∈ rest.head?, c ≠ '-') (hrne : rest ≠ []) :
    cut "---".toList (n ++ rest) =
      (cut "---".toList rest).map (fun r => (n ++ r.1, r.2)) := by
  induction n with
  | nil =>
    rw [List.nil_append]
    cases cut "---".toList rest <;> simp
  | cons c cs ih =>
    obtain ⟨d, rest', rfl⟩ := List.exists_cons_of_ne_nil hrne
    have hd : d ≠ '-' := hr d (by simp)
    have hcn : cut "---".toList (c :: cs) = none := by
      unfold contains at hn
      cases h : cut "---".toList (c :: cs) with
      | none => rfl
      | some x => rw [h] at hn; simp at hn
    have hpre : "---".toList.isPrefixOf (c :: cs) = false := by
      cases h : "---".toList.isPrefixOf (c :: cs) with
      | false => rfl
      | true =>
        unfold cut at hcn
        rw [if_pos h] at hcn
        cases hcn
    have hcs : contains cs "---".toList = false := by
      rw [cut_cons_skip _ _ _ hpre] at hcn
      unfold contains
      cases h : cut "---".toList cs with
      | none => rfl
      | some x => rw [h] at hcn; simp at hcn
    have hpre2 : "---".toList.isPrefixOf (c :: (cs ++ d :: rest')) = false := by
      rcases cs with _ | ⟨x, _ | ⟨y, cs'⟩⟩
      · simp only [String.toList, List.isPrefixOf, List.nil_append]
        simp [Ne.symm hd]
      · simp only [String.toList, List.isPrefixOf, List.cons_append, List.nil_append]
        simp [Ne.symm hd]
      · exact isPrefixOf_dashes_append (c :: x :: y :: cs') _ hpre (by simp)
    rw [List.cons_append, cut_cons_skip _ _ _ hpre2, ih hcs]
    cases cut "---".toList (d :: rest') <;> rfl

/-! ### The lines of the manifest the test helper builds -/

theorem rdropWhile_append_keep (p : Char → Bool) (A B : Str)
    (hA : ∃ A' x, A = A' ++ [x] ∧ p x = false) :
    ∃ B', (A ++ B).rdropWhile p = A ++ B' := by
  obtain ⟨A', x, rfl, hx⟩ := hA
  induction B using List.reverseRecOn with
  | nil =>
    refine ⟨[], ?_⟩
    simp only [List.append_nil]
    exact List.rdropWhile_concat_neg _ _ _ (by simp [hx])
  | append_singleton B b ih =>
    by_cases hb : p b = true
    · obtain ⟨B', hB'⟩ := ih
      refine ⟨B', ?_⟩
      rw [← List.append_assoc, List.rdropWhile_concat_pos _ _ _ hb]
      exact hB'
    · refine ⟨B ++ [b], ?_⟩
      rw [← List.append_assoc (A' ++ [x]) B [b]]
      exact List.rdropWhile_concat_neg _ _ _ hb

theorem trimSpace_manifestText (n v : Str) (hv : v ≠ []) :
    ∃ tail, trimSpace (manifestText n v) = "---".toList ++ helperBlock n v ++ "---".toList ++ tail := by
  have hm : manifestText n v =
      ("---".toList ++ helperBlock n v ++ "---".toList) ++ ("\n\n# ".toList ++ n ++ "\n".toList) := by
    unfold manifestText helperBlock
    rw [if_pos hv]
    simp [String.toList]
  unfold trimSpace
  rw [hm]
  have h1 : ∀ X : Str, List.dropWhile isSpace ("---".toList ++ X) = "---".toList ++ X := by
    intro X
    exact dropWhile_of_head _ _ (by simp [String.toList]; decide)
  rw [List.append_assoc, List.append_assoc, h1, ← List.append_assoc, ← List.append_assoc]
  exact rdropWhile_append_keep isSpace _ _
    ⟨"---".toList ++ helperBlock n v ++ "--".toList, '-', by simp [String.toList], by decide⟩

theorem headerBlock_manifestText (n v : Str) (hv : v ≠ [])
    (hn : contains n "---".toList = false) (hvc : contains v "---".toList = false) :
    hasPrefix (trimSpace (manifestText n v)) "---".toList = true ∧
    ∃ tail, cut "---".toList ((trimSpace (manifestText n v)).drop 3) =
      some (helperBlock n v, tail) := by
  obtain ⟨tail, ht⟩ := trimSpace_manifestText n v hv
  rw [ht]
  constructor
  · simp [hasPrefix, String.toList, List.isPrefixOf]
  · refine ⟨tail, ?_⟩
    have hd : List.drop 3 ("---".toList ++ helperBlock n v ++ "---".toList ++ tail) =
        "\nname: ".toList ++ (n ++ ("\nversion: \"".toList ++ (v ++ ("\"\n".toList ++
          ("---".toList ++ tail))))) := by
      unfold helperBlock
      simp [String.toList]
    rw [hd, cut_dashes_lit "\nname: ".toList _ (by decide),
      cut_dashes_append n _ hn (by simp [String.toList]) (by simp [String.toList]),
      cut_dashes_lit "\nversion: \"".toList _ (by decide),
      cut_dashes_append v _ hvc (by simp [String.toList]) (by simp [String.toList]),
      cut_dashes_lit "\"\n".toList _ (by decide)]
    have hc : cut "---".toList ("---".toList ++ tail) = some ([], tail) := by
      have := cut_of_isPrefixOf "---".toList ("---".toList ++ tail)
        (by simp [String.toList, List.isPrefixOf]) (by simp [String.toList])
      rw [this]
      simp [String.toList]
    rw [hc]
    unfold helperBlock
    simp [String.toList]

theorem splitOnChar_append_sep_cons (sep : Char) (a b : Str) (h : sep ∉ a) :
    splitOnChar sep (a ++ sep :: b) = a :: splitOnChar sep b := by
  induction a with
  | nil => exact splitOnChar_cons_sep sep b
  | cons c cs ih =>
    have hc : c ≠ sep := fun e => h (by simp [e])
    have hcs : sep ∉ cs := fun hm => h (by simp [hm])
    rw [List.cons_append]
    exact splitOnChar_cons_ne sep c _ cs _ hc (ih hcs)

theorem lines_helperBlock (n v : Str) (hn : '\n' ∉ n) (hv : '\n' ∉ v) :
    splitOnChar '\n' (helperBlock n v) =
      [[], "name: ".toList ++ n, "version: \"".toList ++ v ++ "\"".toList, []] := by
  have e : helperBlock n v = [] ++ '\n' :: (("name: ".toList ++ n) ++ '\n' ::
      (("version: \"".toList ++ v ++ "\"".toList) ++ '\n' :: [])) := by
    unfold helperBlock
    simp [String.toList]
  rw [e, splitOnChar_append_sep_cons _ _ _ (by simp),
    splitOnChar_append_sep_cons _ _ _ (by simp [String.toList, hn]),
    splitOnChar_append_sep_cons _ _ _ (by simp [String.toList, hv])]
  rfl

theorem trimSpace_of_ends (s : Str) (h1 : ∀ c ∈ s.head?, isSpace c = false)
    (h2 : ∀ c ∈ s.getLast?, isSpace c = false) : trimSpace s = s := by
  unfold trimSpace
  rw [dropWhile_of_head _ _ h1, rdropWhile_of_last _ _ h2]

theorem trim_of_ends (cs s : Str) (h1 : ∀ c ∈ s.head?, c ∉ cs)
    (h2 : ∀ c ∈ s.getLast?, c ∉ cs) : trim cs s = s := by
  unfold trim
  rw [dropWhile_of_head _ _ (by simpa using h1), rdropWhile_of_last _ _ (by simpa using h2)]

theorem findField_name_line (n : Str) (rest : List Str)
    (hn2 : ∀ c ∈ n.head?, isSpace c = false ∧ c ∉ "\"'".toList)
    (hn3 : ∀ c ∈ n.getLast?, isSpace c = false ∧ c ∉ "\"'".toList) :
    findField "name".toList ([] :: ("name: ".toList ++ n) :: rest) = n := by
  have hline : "name: ".toList ++ n = "name".toList ++ ':' :: (' ' :: n) := by
    simp [String.toList]
  have hcut : cut ":".toList ("name: ".toList ++ n) = some ("name".toList, ' ' :: n) := by
    rw [hline]
    exact cut_char ':' _ _ (by decide)
  have h := findField_first "name".toList [[]] _ _ _ rest
    (by intro l hl k v hc
        simp only [List.mem_singleton] at hl
        subst hl
        cases hc) hcut (by decide)
  rw [List.singleton_append] at h
  rw [h]
  have hts : trimSpace (' ' :: n) = n := by
    unfold trimSpace
    have : List.dropWhile isSpace (' ' :: n) = List.dropWhile isSpace n := by
      rw [List.dropWhile_cons_of_pos (by decide)]
    rw [this, dropWhile_of_head _ _ (fun c hc => (hn2 c hc).1),
      rdropWhile_of_last _ _ (fun c hc => (hn3 c hc).1)]
  rw [hts]
  exact trim_of_ends _ _ (fun c hc => (hn2 c hc).2) (fun c hc => (hn3 c hc).2)

theorem findField_version_line (n v : Str) (rest : List Str) (hv : v ≠ [])
    (hv2 : ∀ c ∈ v.head?, isSpace c = false ∧ c ∉ "\"'".toList)
    (hv3 : ∀ c ∈ v.getLast?, isSpace c = false ∧ c ∉ "\"'".toList) :
    findField "version".toList
      ([] :: ("name: ".toList ++ n) :: ("version: \"".toList ++ v ++ "\"".toList) :: rest) = v := by
  have hline1 : "name: ".toList ++ n = "name".toList ++ ':' :: (' ' :: n) := by
    simp [String.toList]
  have hcut1 : cut ":".toList ("name: ".toList ++ n) = some ("name".toList, ' ' :: n) := by
    rw [hline1]
    exact cut_char ':' _ _ (by decide)
  have hline : "version: \"".toList ++ v ++ "\"".toList =
      "version".toList ++ ':' :: (' ' :: '"' :: (v ++ ['"'])) := by
    simp [String.toList]
  have hcut : cut ":".toList ("version: \"".toList ++ v ++ "\"".toList) =
      some ("version".toList, ' ' :: '"' :: (v ++ ['"'])) := by
    rw [hline]
    exact cut_char ':' _ _ (by decide)
  have h := findField_first "version".toList [[], "name: ".toList ++ n] _ _ _ rest
    (by intro l hl k w hc
        simp only [List.mem_cons, List.mem_singleton, List.not_mem_nil, or_false] at hl
        rcases hl with rfl | rfl
        · cases hc
        · rw [hcut1] at hc
          simp only [Option.some.injEq, Prod.mk.injEq] at hc
          rw [← hc.1]
          decide) hcut (by decide)
  have happ : [[], "name: ".toList ++ n] ++
      ("version: \"".toList ++ v ++ "\"".toList) :: rest =
      [] :: ("name: ".toList ++ n) :: ("version: \"".toList ++ v ++ "\"".toList) :: rest := rfl
  rw [happ] at h
  rw [h]
  obtain ⟨x, xs, rfl⟩ := List.exists_cons_of_ne_nil hv
  have hx := hv2 x (by simp)
  have hts : trimSpace (' ' :: '"' :: (x :: xs ++ ['"'])) = '"' :: (x :: xs ++ ['"']) := by
    unfold trimSpace
    rw [List.dropWhile_cons_of_pos (by decide), dropWhile_of_head _ _ (by simp; decide)]
    have : '"' :: (x :: xs ++ ['"']) = ('"' :: x :: xs) ++ ['"'] := by simp
    rw [this]
    exact List.rdropWhile_concat_neg _ _ _ (by decide)
  rw [hts]
  unfold trim
  rw [List.dropWhile_cons_of_pos (by decide),
    dropWhile_of_head _ _ (by simpa using hx.2),
    List.rdropWhile_concat_pos _ _ _ (by decide)]
  exact rdropWhile_of_last _ _ (fun c hc => by simpa using (hv3 c hc).2)

/-- C17, as stated, fails for a name or a version that holds `---`: the
parser ends the header block at the first `---` after the opening one. -/
theorem manifest_round_trip_dashes :
    parseFrontmatterField (manifestText "a---b".toList "1.0".toList) "name".toList =
      .ok "a".toList ∧
    parseFrontmatterField (manifestText "a---b".toList "1.0".toList) "version".toList =
      .ok [] ∧
    parseFrontmatterField (manifestText "x".toList "1---2".toList) "version".toList =
      .ok "1".toList := by
  decide

/-- C17, amended.  For every name `n` and every non-empty version `v` that
hold no line break and no `---` and neither begin nor end with whitespace or
a quote character, the manifest text of the test helper `skillFSVersioned`
parses to `v` for the field `version` and to `n` for the field `name`. -/
theorem manifest_round_trip (n v : Str) (hv : v ≠ [])
    (hn1 : '\n' ∉ n) (hv1 : '\n' ∉ v)
    (hn2 : ∀ c ∈ n.head?, isSpace c = false ∧ c ∉ "\"'".toList)
    (hn3 : ∀ c ∈ n.getLast?, isSpace c = false ∧ c ∉ "\"'".toList)
    (hv2 : ∀ c ∈ v.head?, isSpace c = false ∧ c ∉ "\"'".toList)
    (hv3 : ∀ c ∈ v.getLast?, isSpace c = false ∧ c ∉ "\"'".toList)
    (hn4 : contains n "---".toList = false) (hv4 : contains v "---".toList = false) :
    parseFrontmatterField (manifestText n v) "version".toList = .ok v ∧
    parseFrontmatterField (manifestText n v) "name".toList = .ok n := by
  obtain ⟨hp, tail, hc⟩ := headerBlock_manifestText n v hv hn4 hv4
  rw [parseFrontmatterField_ok _ _ _ tail hp hc, parseFrontmatterField_ok _ _ _ tail hp hc,
    lines_helperBlock n v hn1 hv1, findField_version_line n v _ hv hv2 hv3,
    findField_name_line n _ hn2 hn3]
  exact ⟨rfl, rfl⟩

theorem manifest_round_trip_witness :
    parseFrontmatterField (manifestText "my tool".toList "3.2.1".toList) "version".toList =
      .ok "3.2.1".toList ∧
    parseFrontmatterField (manifestText "my tool".toList "3.2.1".toList) "name".toList =
      .ok "my tool".toList :=
  manifest_round_trip "my tool".toList "3.2.1".toList (by decide) (by decide) (by decide)
    (by decide) (by decide) (by decide) (by decide) (by decide) (by decide)

/-! ### The order of Go strings -/

theorem strLe_nil (b : Str) : strLe [] b = true := by
  cases b <;> rfl

theorem strLe_cons_cons (a b : Char) (as bs : Str) :
    strLe (a :: as) (b :: bs) =
      if a.toNat < b.toNat then true
      else if b.toNat < a.toNat then false
      else strLe as bs := rfl

theorem char_eq_of_toNat (a b : Char) (h : a.toNat = b.toNat) : a = b := by
  apply Char.ext
  apply UInt32.ext
  exact h

theorem strLe_total (a b : Str) : strLe a b = true ∨ strLe b a = true := by
  induction a generalizing b with
  | nil => exact Or.inl (strLe_nil b)
  | cons x xs ih =>
    cases b with
    | nil => exact Or.inr (strLe_nil _)
    | cons y ys =>
      rw [strLe_cons_cons, strLe_cons_cons]
      by_cases h1 : x.toNat < y.toNat
      · left; rw [if_pos h1]
      · by_cases h2 : y.toNat < x.toNat
        · right; rw [if_pos h2]
        · rw [if_neg h1, if_neg h2, if_neg h2, if_neg h1]
          exact ih ys

theorem strLe_trans (a b c : Str) (h1 : strLe a b = true) (h2 : strLe b c = true) :
    strLe a c = true := by
  induction a generalizing b c with
  | nil => exact strLe_nil c
  | cons x xs ih =>
    cases b with
    | nil => cases h1
    | cons y ys =>
      cases c with
      | nil => cases h2
      | cons z zs =>
        rw [strLe_cons_cons] at h1 h2 ⊢
        by_cases hxy : x.toNat < y.toNat
        · by_cases hyz : y.toNat < z.toNat
          · rw [if_pos (by omega)]
          · rw [if_neg hyz] at h2
            by_cases hzy : z.toNat < y.toNat
            · rw [if_pos hzy] at h2; cases h2
            · rw [if_pos (by omega)]
        · rw [if_neg hxy] at h1
          by_cases hyx : y.toNat < x.toNat
          · rw [if_pos hyx] at h1; cases h1
          · rw [if_neg hyx] at h1
            by_cases hyz : y.toNat < z.toNat
            · rw [if_pos (by omega)]
            · rw [if_neg hyz] at h2
              by_cases hzy : z.toNat < y.toNat
              · rw [if_pos hzy] at h2; cases h2
              · rw [if_neg hzy] at h2
                rw [if_neg (by omega), if_neg (by omega)]
                exact ih ys zs h1 h2

theorem strLe_antisymm (a b : Str) (h1 : strLe a b = true) (h2 : strLe b a = true) :
    a = b := by
  induction a generalizing b with
  | nil =>
    cases b with
    | nil => rfl
    | cons y ys => cases h2
  | cons x xs ih =>
    cases b with
    | nil => cases h1
    | cons y ys =>
      rw [strLe_cons_cons] at h1 h2
      by_cases hxy : x.toNat < y.toNat
      · rw [if_neg (by omega), if_pos hxy] at h2; cases h2
      · rw [if_neg hxy] at h1
        by_cases hyx : y.toNat < x.toNat
        · rw [if_pos hyx] at h1; cases h1
        · rw [if_neg hyx] at h1
          rw [if_neg hyx, if_neg hxy] at h2
          rw [char_eq_of_toNat x y (by omega), ih ys h1 h2]

/-- The keys come in ascending order. -/
theorem sortedKeys_sorted {β : Type} (m : List (Str × β)) :
    (sortedKeys m).Sorted (fun a b => strLe a b = true) := by
  haveI : IsTotal Str (fun a b => strLe a b = true) := ⟨strLe_total⟩
  haveI : IsTrans Str (fun a b => strLe a b = true) := ⟨strLe_trans⟩
  exact List.sorted_insertionSort _ _

/-- The list of keys in ascending order is determined by the set of keys. -/
theorem sortedKeys_unique {β : Type} (m : List (Str × β)) (hnd : (m.map Prod.fst).Nodup)
    (ds : List Str) (hs : ds.Sorted (fun a b => strLe a b = true)) (hd : ds.Nodup)
    (hmem : ∀ D, D ∈ ds ↔ D ∈ m.map Prod.fst) : ds = sortedKeys m := by
  haveI : IsAntisymm Str (fun a b => strLe a b = true) := ⟨strLe_antisymm⟩
  have hp : ds.Perm (sortedKeys m) := by
    have h1 : (sortedKeys m).Perm (m.map Prod.fst) := List.perm_insertionSort _ _
    refine ((List.perm_ext_iff_of_nodup hd hnd).mpr hmem).trans h1.symm
  exact List.eq_of_perm_of_sorted hp hs (sortedKeys_sorted m)

/-! ### Version lookup -/

theorem resolveTargetsFrom_known (P : Platform) (opts : Options) (names : List Str)
    (m : List (Str × List Str)) (h : ∀ a ∈ names, agentIndex a ≠ none) :
    ∃ t, resolveTargetsFrom P opts names m = .ok t := by
  induction names generalizing m with
  | nil => exact ⟨m, rfl⟩
  | cons n rest ih =>
    unfold resolveTargetsFrom
    cases hn : agentIndex n with
    | none => exact absurd hn (h n (List.mem_cons_self _ _))
    | some a =>
      simp only
      exact ih _ (fun b hb => h b (List.mem_cons_of_mem _ hb))

theorem resolveTargets_error_iff (P : Platform) (opts : Options) :
    (∃ e, resolveTargets P opts = .error e) ↔ ∃ a ∈ opts.Agents, agentIndex a = none := by
  constructor
  · rintro ⟨e, he⟩
    by_contra hno
    have hall : ∀ a ∈ opts.Agents, agentIndex a ≠ none := by
      intro a ha hn
      exact hno ⟨a, ha, hn⟩
    obtain ⟨t, ht⟩ := resolveTargetsFrom_known P opts opts.Agents [] hall
    unfold resolveTargets at he
    rw [ht] at he
    cases he
  · intro h
    exact resolveTargetsFrom_unknown P opts opts.Agents [] h

theorem installedVersionAt_read (P : Platform) (w : World) (d : Str) :
    (installedVersionAt P w d).1 =
      match (osReadFile P w (filepathJoin d "SKILL.md".toList)).1 with
      | none => []
      | some data =>
        match parseFrontmatterField data "version".toList with
        | .ok v => v
        | .error _ => [] := by
  unfold installedVersionAt
  cases h : osReadFile P w (filepathJoin d "SKILL.md".toList) with
  | mk o w1 => cases o <;> rfl

theorem installedVersionAt_val (P : Platform) (w : World) (d : Str) :
    (installedVersionAt P w d).1 = versionIn P w.fs d := by
  unfold versionIn
  rw [installedVersionAt_read, installedVersionAt_read]
  rfl

theorem versionFrom_spec (P : Platform) (name : Str) (dirs : List Str) (w : World) :
    (versionFrom P name dirs w).1 =
      firstNonEmpty (dirs.map (fun D => versionIn P w.fs (filepathJoin D name))) ∧
    (versionFrom P name dirs w).2.fs = w.fs := by
  induction dirs generalizing w with
  | nil => exact ⟨rfl, rfl⟩
  | cons D rest ih =>
    unfold versionFrom
    have hv := installedVersionAt_val P w (filepathJoin D name)
    have hf := installedVersionAt_fs P w (filepathJoin D name)
    cases hi : installedVersionAt P w (filepathJoin D name) with
    | mk v w1 =>
      rw [hi] at hv hf
      simp only at hv hf ⊢
      by_cases hne : v ≠ []
      · rw [if_pos hne]
        refine ⟨?_, hf⟩
        unfold firstNonEmpty
        rw [List.map_cons, ← hv, List.find?_cons_of_pos _ (by simpa using hne)]
        rfl
      · rw [if_neg hne]
        obtain ⟨i1, i2⟩ := ih w1
        rw [hf] at i1 i2
        refine ⟨?_, i2⟩
        rw [i1]
        unfold firstNonEmpty
        rw [List.map_cons, ← hv, List.find?_cons_of_neg _ (by simpa using hne)]

theorem filepathClean_ne_nil (p : Str) : filepathClean p ≠ [] := by
  by_cases hp : p = []
  · rw [hp]; decide
  · rw [filepathClean_eq p hp]
    unfold render
    split
    · simp
    · split
      · decide
      · rename_i hne
        obtain ⟨c0, s0, hcs, _⟩ := joinPath_head_ne _ (compsOk_clean _ p) hne
        rw [hcs]
        simp

theorem filepathJoin_ne_nil (a b : Str) (h : b ≠ []) : filepathJoin a b ≠ [] := by
  unfold filepathJoin
  split
  · exact filepathClean_ne_nil _
  · exact filepathClean_ne_nil _

theorem versionIn_eq (P : Platform) (fs : FS) (d : Str) :
    versionIn P fs d =
      match fs (locate P (filepathJoin d "SKILL.md".toList)) with
      | some (.file data) =>
        (match parseFrontmatterField data "version".toList with
          | .ok v => v
          | .error _ => [])
      | _ => [] := by
  unfold versionIn
  rw [installedVersionAt_read]
  unfold osReadFile
  simp only
  rw [if_neg (filepathJoin_ne_nil _ _ (by decide))]
  cases fs (locate P (filepathJoin d "SKILL.md".toList)) with
  | none => rfl
  | some nd => cases nd <;> rfl

/-- C14. `InstalledVersion` fails exactly when an identifier of `opts.Agents`
is not in the registry.  Otherwise it goes through the resolved directories in
ascending order and returns the first non-empty version read from the manifest
`D/name/SKILL.md`, and the empty text when there is none: a missing or
unreadable manifest, a manifest that does not parse and a manifest without a
version all count as empty.  The file system is left as it was. -/
theorem InstalledVersion_first_found (P : Platform) (name : Str) (opts : Options) (w : World) :
    ((∃ e, (InstalledVersion P name opts w).1 = .error e) ↔
      ∃ a ∈ opts.Agents, agentIndex a = none) ∧
    (∀ targets, resolveTargets P opts = .ok targets →
      (sortedKeys targets).Sorted (fun a b => strLe a b = true) ∧
      (InstalledVersion P name opts w).1 = .ok (firstNonEmpty
        ((sortedKeys targets).map (fun D => versionIn P w.fs (filepathJoin D name)))) ∧
      (InstalledVersion P name opts w).2.fs = w.fs) ∧
    (∀ d, versionIn P w.fs d =
      match w.fs (locate P (filepathJoin d "SKILL.md".toList)) with
      | some (.file data) =>
        (match parseFrontmatterField data "version".toList with
          | .ok v => v
          | .error _ => [])
      | _ => []) := by
  refine ⟨?_, ?_, fun d => versionIn_eq P w.fs d⟩
  · rw [← resolveTargets_error_iff P opts]
    unfold InstalledVersion
    cases resolveTargets P opts with
    | error e => simp
    | ok t => simp
  · intro targets ht
    obtain ⟨h1, h2⟩ := versionFrom_spec P name (sortedKeys targets) w
    refine ⟨sortedKeys_sorted targets, ?_, ?_⟩
    · unfold InstalledVersion
      rw [ht]
      simp only
      rw [← h1]
    · unfold InstalledVersion
      rw [ht]
      exact h2

/-! ### The roots of the discovered bundles -/

/-- What the callback of the outer walk does on a regular file: it records
nothing, or it records one bundle, rooted at the directory of the file, and
returns `SkipDir`. -/
theorem discoverFn_file_out (tbl : Char → Char) (fsys : SrcNode) (p : List Str) (nm : Str)
    (out : List (List Str × skillEntry)) :
    ∃ c new, discoverFn tbl fsys p (some ⟨nm, false⟩) out = (c, out ++ new) ∧
      (new = [] ∨ (c = .skipDir ∧ ∃ e, new = [(p.dropLast, e)])) := by
  unfold discoverFn
  simp only [Bool.false_eq_true, false_or]
  split
  · exact ⟨_, [], (by rw [List.append_nil]), Or.inl rfl⟩
  · split
    · exact ⟨_, [], (by rw [List.append_nil]), Or.inl rfl⟩
    · split
      · exact ⟨_, [], (by rw [List.append_nil]), Or.inl rfl⟩
      · split
        · exact ⟨_, [], (by rw [List.append_nil]), Or.inl rfl⟩
        · exact ⟨_, _, rfl, Or.inr ⟨rfl, _, rfl⟩⟩

theorem snoc_prefix_inj (p : List Str) (n m : Str) (R : List Str)
    (h1 : (p ++ [n]) <+: R) (h2 : (p ++ [m]) <+: R) : n = m := by
  have h := List.prefix_of_prefix_length_le h1 h2 (by simp)
  have h3 := List.IsPrefix.eq_of_length h (by simp)
  have := List.append_cancel_left h3
  simpa using this

theorem not_snoc_prefix_self (p : List Str) (n : Str) : ¬ (p ++ [n]) <+: p := by
  intro h
  have := h.length_le
  simp at this

mutual
/-- The bundles recorded by the outer walk below the entry `n` of the
directory `q` have distinct roots; each root lies at or below the entry, or it
is `q` itself, and then the walk of the entry ends with `SkipDir`. -/
theorem roots_walkDir (tbl : Char → Char) (fsys : SrcNode) :
    ∀ (t : SrcNode) (q : List Str) (n nm : Str) (out : List (List Str × skillEntry)),
      t.wf = true →
      ∃ c new, walkDir (discoverFn tbl fsys) (q ++ [n]) nm t out = (c, out ++ new) ∧
        (new.map Prod.fst).Nodup ∧
        ∀ R ∈ new.map Prod.fst, (q ++ [n]) <+: R ∨ (R = q ∧ c = .skipDir)
  | .file d, q, n, nm, out, _ => by
    rw [walkDir_file]
    obtain ⟨c, new, h1, h2⟩ := discoverFn_file_out tbl fsys (q ++ [n]) nm out
    refine ⟨c, new, h1, ?_, ?_⟩
    · rcases h2 with rfl | ⟨_, e, rfl⟩
      · simp
      · simp
    · intro R hR
      rcases h2 with rfl | ⟨hc, e, rfl⟩
      · simp at hR
      · simp only [List.map_cons, List.map_nil, List.mem_singleton] at hR
        right
        rw [hR, List.dropLast_concat]
        exact ⟨rfl, hc⟩
  | .dir es, q, n, nm, out, hwf => by
    rw [walkDir_dir, discoverFn_dir]
    simp only
    have hes : es.wf = true := by unfold SrcNode.wf at hwf; exact hwf
    obtain ⟨c, new, h1, h2, h3⟩ := roots_walkEntries tbl fsys es (q ++ [n]) out hes
    refine ⟨c, new, h1, h2, ?_⟩
    intro R hR
    left
    rcases h3 R hR with rfl | ⟨m, _, hm⟩
    · exact List.prefix_refl _
    · exact (List.prefix_append _ _).trans hm
/-- The bundles recorded by the outer walk over entries of the directory `p`
have distinct roots; each root is `p` or lies at or below one of the
entries. -/
theorem roots_walkEntries (tbl : Char → Char) (fsys : SrcNode) :
    ∀ (es : SrcEntries) (p : List Str) (out : List (List Str × skillEntry)),
      es.wf = true →
      ∃ c new, walkEntries (discoverFn tbl fsys) p es out = (c, out ++ new) ∧
        (new.map Prod.fst).Nodup ∧
        ∀ R ∈ new.map Prod.fst, R = p ∨ ∃ n, es.hasName n = true ∧ (p ++ [n]) <+: R
  | .nil, p, out, _ => by
    rw [walkEntries_nil]
    exact ⟨_, [], (by rw [List.append_nil]), by simp, by simp⟩
  | .cons n t rest, p, out, hwf => by
    obtain ⟨_, hno, ht, hrest⟩ := SrcEntries.wf_cons n t rest hwf
    rw [walkEntries_cons]
    obtain ⟨c, new1, h1, h2, h3⟩ := roots_walkDir tbl fsys t p n n out ht
    rw [h1]
    have hfirst : ∀ R ∈ new1.map Prod.fst,
        R = p ∨ ∃ m, (SrcEntries.cons n t rest).hasName m = true ∧ (p ++ [m]) <+: R := by
      intro R hR
      rcases h3 R hR with h | ⟨h, _⟩
      · exact Or.inr ⟨n, by simp [SrcEntries.hasName], h⟩
      · exact Or.inl h
    cases c with
    | nil =>
      simp only
      obtain ⟨c2, new2, g1, g2, g3⟩ := roots_walkEntries tbl fsys rest p (out ++ new1) hrest
      refine ⟨c2, new1 ++ new2, ?_, ?_, ?_⟩
      · rw [g1, List.append_assoc]
      · rw [List.map_append]
        refine List.Nodup.append h2 g2 ?_
        intro R hR1 hR2
        rcases h3 R hR1 with h | ⟨_, hc⟩
        · rcases g3 R hR2 with rfl | ⟨m, hm, hmR⟩
          · exact not_snoc_prefix_self _ _ h
          · have := snoc_prefix_inj p n m R h hmR
            rw [← this, hno] at hm
            cases hm
        · cases hc
      · intro R hR
        rw [List.map_append, List.mem_append] at hR
        rcases hR with hR | hR
        · exact hfirst R hR
        · rcases g3 R hR with h | ⟨m, hm, hmR⟩
          · exact Or.inl h
          · exact Or.inr ⟨m, by simp [SrcEntries.hasName, hm], hmR⟩
    | skipDir => exact ⟨_, new1, rfl, h2, hfirst⟩
    | skipAll => exact ⟨_, new1, rfl, h2, hfirst⟩
    | err e => exact ⟨_, new1, rfl, h2, hfirst⟩
end

theorem findSkillRoots_nodup (tbl : Char → Char) (fsys : SrcNode) (hwf : fsys.wf = true)
    (out : List (List Str × skillEntry)) (h : findSkillRoots tbl fsys = .ok out) :
    (out.map Prod.fst).Nodup := by
  unfold findSkillRoots WalkDir at h
  simp only [SrcNode.sub_nil] at h
  cases fsys with
  | file d =>
    rw [walkDir_file] at h
    obtain ⟨c, new, h1, h2⟩ := discoverFn_file_out tbl (.file d) [] (baseName []) []
    rw [h1] at h
    rcases h2 with rfl | ⟨hc, e, rfl⟩
    · cases c <;> simp at h <;> subst h <;> simp
    · subst hc
      simp at h
      subst h
      simp
  | dir es =>
    rw [walkDir_dir, discoverFn_dir] at h
    simp only at h
    have hes : es.wf = true := by unfold SrcNode.wf at hwf; exact hwf
    obtain ⟨c, new, h1, h2, _⟩ := roots_walkEntries tbl (.dir es) es [] [] hes
    rw [h1] at h
    cases c <;> simp at h <;> subst h <;> exact h2

/-- C19, as stated, fails: `findSkills` does not compare the names of the
bundles it finds.  Two bundle directories whose manifests declare the same
name give two bundles of that name. -/
theorem findSkills_same_name :
    twinTree.wf = true ∧
    findSkillRoots id twinTree =
      .ok [(["a".toList], ⟨"x".toList, [("SKILL.md".toList, manifestText "x".toList [])]⟩),
           (["b".toList], ⟨"x".toList, [("SKILL.md".toList, manifestText "x".toList [])]⟩)] ∧
    findSkills id twinTree =
      .ok [⟨"x".toList, [("SKILL.md".toList, manifestText "x".toList [])]⟩,
           ⟨"x".toList, [("SKILL.md".toList, manifestText "x".toList [])]⟩] := by
  decide

/-- C19, amended.  The bundles that one call of `findSkills` returns for a
well-formed tree come from pairwise distinct directories, and the name of each
is a sanitized name; the names themselves need not differ. -/
theorem findSkills_distinct_roots (tbl : Char → Char) (fsys : SrcNode)
    (out : List (List Str × skillEntry)) (hwf : fsys.wf = true)
    (h : findSkillRoots tbl fsys = .ok out) :
    findSkills tbl fsys = .ok (out.map Prod.snd) ∧
    (out.map Prod.fst).Nodup ∧
    (∀ x ∈ out, ∃ es raw, fsys.sub x.1 = some (.dir es) ∧
      x.2.name = sanitizeName tbl raw) := by
  refine ⟨findSkills_of_roots tbl fsys out h, findSkillRoots_nodup tbl fsys hwf out h, ?_⟩
  intro x hx
  obtain ⟨es, raw, h1, _, h3, _⟩ := findSkillRoots_ok tbl fsys hwf out h x hx
  exact ⟨es, raw, h1, h3⟩

theorem findSkills_distinct_roots_witness :
    findSkills id twinTree =
      .ok ([(["a".toList], (⟨"x".toList,
              [("SKILL.md".toList, manifestText "x".toList [])]⟩ : skillEntry)),
            (["b".toList], ⟨"x".toList,
              [("SKILL.md".toList, manifestText "x".toList [])]⟩)].map Prod.snd) ∧
    ([(["a".toList], (⟨"x".toList,
              [("SKILL.md".toList, manifestText "x".toList [])]⟩ : skillEntry)),
            (["b".toList], ⟨"x".toList,
              [("SKILL.md".toList, manifestText "x".toList [])]⟩)].map Prod.fst).Nodup ∧
    (∀ x ∈ [(["a".toList], (⟨"x".toList,
              [("SKILL.md".toList, manifestText "x".toList [])]⟩ : skillEntry)),
            (["b".toList], ⟨"x".toList,
              [("SKILL.md".toList, manifestText "x".toList [])]⟩)],
      ∃ es raw, twinTree.sub x.1 = some (.dir es) ∧ x.2.name = sanitizeName id raw) :=
  findSkills_distinct_roots id twinTree _ (by decide) (by decide)

/-! ### The order of the results -/

theorem mapGet_mapSet (m : List (Str × List Str)) (k k' : Str) (v : List Str) :
    mapGet (mapSet m k v) k' = if k = k' then v else mapGet m k' := by
  induction m with
  | nil =>
    unfold mapSet
    by_cases h : k = k'
    · subst h
      rw [mapGet_cons_self, if_pos rfl]
    · rw [mapGet_cons_ne _ _ _ _ h, if_neg h]
  | cons kv rest ih =>
    obtain ⟨k1, v1⟩ := kv
    unfold mapSet
    by_cases h1 : k1 = k
    · rw [if_pos h1]
      subst h1
      by_cases h : k1 = k'
      · subst h
        rw [mapGet_cons_self, if_pos rfl]
      · rw [mapGet_cons_ne _ _ _ _ h, if_neg h, mapGet_cons_ne _ _ _ _ h]
    · rw [if_neg h1]
      by_cases h : k1 = k'
      · subst h
        rw [mapGet_cons_self, mapGet_cons_self, if_neg (Ne.symm h1)]
      · rw [mapGet_cons_ne _ _ _ _ h, mapGet_cons_ne _ _ _ _ h, ih]

/-- The loop of `resolveTargets` files every identifier, in order, under the
directory its agent resolves to. -/
theorem resolveTargetsFrom_mapGet (P : Platform) (opts : Options) (names : List Str)
    (m t : List (Str × List Str)) (h : resolveTargetsFrom P opts names m = .ok t) (D : Str) :
    mapGet t D = mapGet m D ++ names.filter (fun n =>
      match agentIndex n with
      | some a => decide (targetDir P opts a = D)
      | none => false) := by
  induction names generalizing m with
  | nil =>
    simp only [resolveTargetsFrom, Except.ok.injEq] at h
    rw [h]
    simp
  | cons n rest ih =>
    unfold resolveTargetsFrom at h
    cases hn : agentIndex n with
    | none => rw [hn] at h; cases h
    | some a =>
      rw [hn] at h
      simp only at h
      rw [ih _ h, mapGet_mapSet]
      by_cases hD : targetDir P opts a = D
      · rw [if_pos hD, List.filter_cons_of_pos (by simp [hn, hD]), hD, List.append_assoc]
        rfl
      · rw [if_neg hD, List.filter_cons_of_neg (by simp [hn, hD])]

theorem resolveTargets_mapGet (P : Platform) (opts : Options) (t : List (Str × List Str))
    (h : resolveTargets P opts = .ok t) (D : Str) : mapGet t D = agentsAt P opts D := by
  have := resolveTargetsFrom_mapGet P opts opts.Agents [] t h D
  rw [this, mapGet_nil, List.nil_append]
  rfl

theorem removeFrom_keys (P : Platform) (targets : List (Str × List Str)) (s : Str)
    (dirs : List Str) (w : World) (results res : List Result) (w' : World)
    (h : removeFrom P targets s dirs w results = (.ok res, w')) :
    res.map Result.key = results.map Result.key ++
      dirs.flatMap (fun D => (mapGet targets D).map (fun n => (n, filepathJoin D s))) := by
  induction dirs generalizing w results with
  | nil =>
    simp only [removeFrom, Prod.mk.injEq, Except.ok.injEq] at h
    rw [← h.1]
    simp
  | cons D rest ih =>
    unfold removeFrom at h
    simp only at h
    have key : ∀ (step : Except Err Unit × World),
        (match step with
          | (.error e, w2) => ((.error (.wrap (filepathJoin D s) e), w2) :
              Except Err (List Result) × World)
          | (.ok _, w2) => removeFrom P targets s rest w2
              (results ++ (mapGet targets D).map
                (fun an => ⟨an, filepathJoin D s, (osStat P w (filepathJoin D s)).1, []⟩))) =
          (.ok res, w') →
        res.map Result.key = results.map Result.key ++
          (D :: rest).flatMap
            (fun D => (mapGet targets D).map (fun n => (n, filepathJoin D s))) := by
      intro step hstep
      obtain ⟨r1, w2⟩ := step
      cases r1 with
      | error e => simp at hstep
      | ok u =>
        simp only at hstep
        rw [ih _ _ hstep, List.map_append, List.map_map, List.flatMap_cons, List.append_assoc]
        rfl
    by_cases hex : (osStat P w (filepathJoin D s)).1 = true
    · rw [if_pos hex] at h
      exact key _ h
    · rw [if_neg hex] at h
      exact key (Except.ok (), (osStat P w (filepathJoin D s)).2) h

theorem installInto_keys (P : Platform) (targets : List (Str × List Str)) (s : skillEntry)
    (dirs : List Str) (w : World) (results res : List Result) (w' : World)
    (h : installInto P targets s dirs w results = (.ok res, w')) :
    res.map Result.key = results.map Result.key ++
      dirs.flatMap (fun D => (mapGet targets D).map (fun n => (n, filepathJoin D s.name))) := by
  induction dirs generalizing w results with
  | nil =>
    simp only [installInto, Prod.mk.injEq, Except.ok.injEq] at h
    rw [← h.1]
    simp
  | cons D rest ih =>
    unfold installInto at h
    simp only at h
    cases hw : writeFiles P
      (installedVersionAt P (osStat P w (filepathJoin D s.name)).2 (filepathJoin D s.name)).2
      (filepathJoin D s.name) s.files with
    | mk r1 w3 =>
      rw [hw] at h
      cases r1 with
      | error e => simp at h
      | ok u =>
        simp only at h
        rw [ih _ _ h, List.map_append, List.map_map, List.flatMap_cons, List.append_assoc]
        rfl

theorem installAll_keys (P : Platform) (targets : List (Str × List Str))
    (skills : List skillEntry) (w : World) (results res : List Result) (w' : World)
    (h : installAll P targets skills w results = (.ok res, w')) :
    res.map Result.key = results.map Result.key ++
      skills.flatMap (fun s => (sortedKeys targets).flatMap
        (fun D => (mapGet targets D).map (fun n => (n, filepathJoin D s.name)))) := by
  induction skills generalizing w results with
  | nil =>
    simp only [installAll, Prod.mk.injEq, Except.ok.injEq] at h
    rw [← h.1]
    simp
  | cons s rest ih =>
    unfold installAll at h
    cases hi : installInto P targets s (sortedKeys targets) w results with
    | mk r1 w1 =>
      rw [hi] at h
      cases r1 with
      | error e => simp at h
      | ok res1 =>
        simp only at h
        rw [ih _ _ h, installInto_keys P targets s _ w results res1 w1 hi,
          List.flatMap_cons, List.append_assoc]

/-- C11, failing input. With `XDG_CONFIG_HOME=$CODEX_HOME`, `CODEX_HOME` unset
and `HOME=/h`, in global mode, the directory amp resolves to depends on the
order in which `expandEnv` visits the map `envDefaults`, and with it the order
of the results of `Remove("x")` for the agents adal and amp: the result list
is not a function of the inputs alone.  The two platforms differ in that order
only. -/
theorem Remove_order_follows_env_order :
    (Remove (Platform.simple nestedEnv []) "x".toList
        ⟨["adal".toList, "amp".toList], [], true⟩ emptyWorld).1 =
      .ok [⟨"adal".toList, "/h/.adal/skills/x".toList, false, []⟩,
           ⟨"amp".toList, "/h/.codex/agents/skills/x".toList, false, []⟩] ∧
    (Remove (Platform.reversed nestedEnv []) "x".toList
        ⟨["adal".toList, "amp".toList], [], true⟩ emptyWorld).1 =
      .ok [⟨"amp".toList, "x".toList, false, []⟩,
           ⟨"adal".toList, "/h/.adal/skills/x".toList, false, []⟩] := by
  decide

/-- The part of C11 that holds.  The results of a successful `Remove`, and of a successful
`Install` for each bundle, are grouped by resolved target directory, the
directories in ascending order of their text, and within one directory the
identifiers come in the order they have in `opts.Agents`.  The ascending list
of the directories is determined by the set of resolved directories, so the
results do not depend on the order of the target map. -/
theorem results_in_key_order (P : Platform) (fsys : SrcNode) (name : Str) (opts : Options)
    (w w' : World) (res : List Result) :
    (∀ targets, resolveTargets P opts = .ok targets →
      (sortedKeys targets).Sorted (fun a b => strLe a b = true) ∧
      (sortedKeys targets).Nodup ∧
      (∀ D, D ∈ sortedKeys targets ↔
        ∃ n ∈ opts.Agents, ∃ a, agentIndex n = some a ∧ targetDir P opts a = D) ∧
      (∀ D, mapGet targets D = agentsAt P opts D) ∧
      (∀ ds : List Str, ds.Sorted (fun a b => strLe a b = true) → ds.Nodup →
        (∀ D, D ∈ ds ↔ D ∈ sortedKeys targets) → ds = sortedKeys targets)) ∧
    (Remove P name opts w = (.ok res, w') →
      ∃ targets, resolveTargets P opts = .ok targets ∧
        res.map Result.key = (sortedKeys targets).flatMap (fun D =>
          (agentsAt P opts D).map
            (fun n => (n, filepathJoin D (sanitizeName P.lowerTable name))))) ∧
    (Install P fsys opts w = (.ok res, w') →
      ∃ skills targets, findSkills P.lowerTable fsys = .ok skills ∧
        resolveTargets P opts = .ok targets ∧
        res.map Result.key = skills.flatMap (fun s => (sortedKeys targets).flatMap (fun D =>
          (agentsAt P opts D).map (fun n => (n, filepathJoin D s.name))))) ∧
    (Remove plainPlatform "x".toList
        ⟨["cursor".toList, "codex".toList, "claude-code".toList, "amp".toList],
          "/p".toList, false⟩ emptyWorld).1 =
      .ok [⟨"codex".toList, "/p/.agents/skills/x".toList, false, []⟩,
           ⟨"amp".toList, "/p/.agents/skills/x".toList, false, []⟩,
           ⟨"claude-code".toList, "/p/.claude/skills/x".toList, false, []⟩,
           ⟨"cursor".toList, "/p/.cursor/skills/x".toList, false, []⟩] := by
  refine ⟨?_, ?_, ?_, by decide⟩
  · intro targets ht
    obtain ⟨hnd, _, _, hkeys⟩ := resolveTargets_spec P opts targets ht
    have hperm : (sortedKeys targets).Perm (targets.map Prod.fst) :=
      List.perm_insertionSort _ _
    refine ⟨sortedKeys_sorted targets, hperm.nodup_iff.mpr hnd, ?_,
      resolveTargets_mapGet P opts targets ht, ?_⟩
    · intro D
      rw [mem_sortedKeys]
      exact hkeys D
    · intro ds hs hd hmem
      exact sortedKeys_unique targets hnd ds hs hd
        (fun D => (hmem D).trans (mem_sortedKeys targets D))
  · intro h
    unfold Remove at h
    split at h
    · cases h
    · split at h
      · cases h
      · simp only at h
        cases ht : resolveTargets P opts with
        | error e => rw [ht] at h; cases h
        | ok targets =>
          rw [ht] at h
          simp only at h
          refine ⟨targets, rfl, ?_⟩
          rw [removeFrom_keys P targets _ _ w [] res w' h]
          simp only [List.map_nil, List.nil_append, resolveTargets_mapGet P opts targets ht]
  · intro h
    unfold Install at h
    split at h
    · cases h
    · cases hs : findSkills P.lowerTable fsys with
      | error e => rw [hs] at h; cases h
      | ok skills =>
        rw [hs] at h
        simp only at h
        split at h
        · cases h
        · cases ht : resolveTargets P opts with
          | error e => rw [ht] at h; cases h
          | ok targets =>
            rw [ht] at h
            simp only at h
            refine ⟨skills, targets, rfl, rfl, ?_⟩
            rw [installAll_keys P targets skills w [] res w' h]
            simp only [List.map_nil, List.nil_append, resolveTargets_mapGet P opts targets ht]

/-! ### Well-formed states of the file system -/

theorem FS.WF.below_none {fs : FS} (h : fs.WF) (L : List Str) (hL : fs L = none) :
    ∀ t, fs (L ++ t) = none := by
  intro t
  induction t using List.reverseRecOn with
  | nil => rw [List.append_nil]; exact hL
  | append_singleton t c ih =>
    by_contra hne
    rw [← List.append_assoc] at hne
    have := h.2 (L ++ t) c hne
    rw [ih] at this
    cases this

theorem FS.WF.above_dir {fs : FS} (h : fs.WF) (L t : List Str) (ht : t ≠ [])
    (hne : fs (L ++ t) ≠ none) : fs L = some .dir := by
  induction t using List.reverseRecOn generalizing L with
  | nil => exact absurd rfl ht
  | append_singleton t c ih =>
    rw [← List.append_assoc] at hne
    have hd := h.2 (L ++ t) c hne
    by_cases htn : t = []
    · subst htn
      rw [List.append_nil] at hd
      exact hd
    · exact ih L htn (by rw [hd]; simp)

theorem inits_snoc (l : List Str) (a : Str) : (l ++ [a]).inits = l.inits ++ [l ++ [a]] := by
  rw [List.inits_append]
  simp [List.inits]

theorem mem_inits_dropLast (L q : List Str) (h : q ∈ L.inits.dropLast) :
    ∃ t, t ≠ [] ∧ L = q ++ t := by
  induction L using List.reverseRecOn with
  | nil => simp [List.inits] at h
  | append_singleton l a _ =>
    rw [inits_snoc, List.dropLast_concat, List.mem_inits] at h
    obtain ⟨t, rfl⟩ := h
    exact ⟨t ++ [a], by simp, by simp⟩

theorem ancestorIsFile_of_exists {fs : FS} (h : fs.WF) (L : List Str) (hL : fs L ≠ none) :
    ancestorIsFile fs L = false := by
  unfold ancestorIsFile
  rw [List.any_eq_false]
  intro q hq
  obtain ⟨t, ht, rfl⟩ := mem_inits_dropLast L q hq
  have := h.above_dir q t ht hL
  unfold isFileAt
  rw [this]
  simp

/-- Removing a node other than the root leaves a well-formed state. -/
theorem wf_remove {fs : FS} (h : fs.WF) (L : List Str) (hL : L ≠ []) :
    FS.WF (fun q => if L <+: q then none else fs q) := by
  constructor
  · simp only
    rw [if_neg (by simpa using hL)]
    exact h.1
  · intro l c hne
    simp only at hne ⊢
    by_cases hp : L <+: l ++ [c]
    · rw [if_pos hp] at hne
      exact absurd rfl hne
    · rw [if_neg hp] at hne
      rw [if_neg (fun hl => hp (hl.trans (List.prefix_append _ _)))]
      exact h.2 l c hne

/-! ### The path of a bundle directory -/

theorem endsWithDot_last (p : Str) (h : endsWithDot p = true) :
    (splitPath p).getLast? = some ".".toList := by
  unfold endsWithDot at h
  rw [Bool.or_eq_true] at h
  rcases h with h | h
  · rw [decide_eq_true_eq] at h
    rw [h]
    decide
  · rw [List.isSuffixOf_iff_suffix] at h
    obtain ⟨x, rfl⟩ := h
    have e : x ++ "/.".toList = x ++ '/' :: ".".toList := rfl
    unfold splitPath
    rw [e, splitOnChar_append_sep]
    have h1 : splitOnChar '/' ".".toList = [".".toList] := by decide
    rw [h1, List.getLast?_append]
    rfl

theorem endsWithDot_join_name (D s : Str) (hs : validName s = true) :
    endsWithDot (filepathJoin D s) = false := by
  obtain ⟨hs1, hs2, hs3, _⟩ := (validName_iff s).mp hs
  obtain ⟨r, o, ho, hj⟩ := filepathJoin_render D [s] (by simpa using hs) (by simp)
  rw [joinPath_singleton] at hj
  have hoc : CompsOk (o ++ [s]) := by
    intro c hc
    rcases List.mem_append.mp hc with hc | hc
    · exact ho c hc
    · simp only [List.mem_singleton] at hc
      subst hc
      exact ⟨hs1, hs3, hs2⟩
  have hsplit := splitPath_render r (o ++ [s]) hoc (by simp)
  rw [← hj] at hsplit
  cases he : endsWithDot (filepathJoin D s) with
  | false => rfl
  | true =>
    have := endsWithDot_last _ he
    rw [hsplit, ← List.append_assoc, List.getLast?_append] at this
    have e : (some s).or ((if r = true then [[]] else []) ++ o).getLast? = some s := rfl
    rw [List.getLast?_singleton, e] at this
    exact absurd (Option.some.inj this) hs3

theorem validName_ne_nil (s : Str) (hs : validName s = true) : s ≠ [] :=
  ((validName_iff s).mp hs).1

/-! ### Removing a bundle directory -/

/-- On a well-formed state `os.RemoveAll` of a bundle path succeeds. -/
theorem osRemoveAll_bundle (P : Platform) (w : World) (D s : Str) (hs : validName s = true)
    (hwf : w.fs.WF) (hex : w.fs (locate P D ++ [s]) ≠ none) :
    ∃ w', osRemoveAll P w (filepathJoin D s) = (.ok (), w') ∧
      w'.fs = fun q => if (locate P D ++ [s]) <+: q then none else w.fs q := by
  unfold osRemoveAll
  simp only
  rw [if_neg (filepathJoin_ne_nil D s (validName_ne_nil s hs)),
    endsWithDot_join_name D s hs, locate_join_name P D s hs,
    ancestorIsFile_of_exists hwf _ hex]
  exact ⟨_, rfl, rfl⟩

theorem osStat_bundle (P : Platform) (w : World) (D s : Str) (hs : validName s = true) :
    (osStat P w (filepathJoin D s)).1 = (w.fs (locate P D ++ [s])).isSome := by
  unfold osStat
  simp only
  rw [locate_join_name P D s hs,
    decide_eq_true (filepathJoin_ne_nil D s (validName_ne_nil s hs)), Bool.true_and]

/-- On a well-formed state the loop of `Remove` runs to its end, and leaves a
well-formed state. -/
theorem removeFrom_succeeds (P : Platform) (targets : List (Str × List Str)) (s : Str)
    (hs : validName s = true) (dirs : List Str) (w : World) (rs : List Result)
    (hwf : w.fs.WF) :
    ∃ res w', removeFrom P targets s dirs w rs = (.ok res, w') ∧ w'.fs.WF := by
  induction dirs generalizing w rs with
  | nil => exact ⟨rs, w, rfl, hwf⟩
  | cons D rest ih =>
    unfold removeFrom
    simp only
    by_cases hex : (osStat P w (filepathJoin D s)).1 = true
    · rw [if_pos hex]
      have hL : w.fs (locate P D ++ [s]) ≠ none := by
        rw [osStat_bundle P w D s hs] at hex
        intro hn
        rw [hn] at hex
        cases hex
      obtain ⟨w2, h2, hfs⟩ := osRemoveAll_bundle P (osStat P w (filepathJoin D s)).2 D s hs
        hwf hL
      rw [h2]
      simp only
      apply ih
      rw [hfs]
      exact wf_remove hwf _ (by simp)
    · rw [if_neg hex]
      simp only
      exact ih _ _ hwf

/-- What a successful run of the loop of `Remove` reports and leaves, for
bundle locations none of which lies within another. -/
theorem removeFrom_sem (P : Platform) (targets : List (Str × List Str)) (s : Str)
    (hs : validName s = true) (dirs : List Str) (w : World) (rs res : List Result) (w' : World)
    (hnd : dirs.Nodup)
    (hap : ∀ D1 ∈ dirs, ∀ D2 ∈ dirs, D1 ≠ D2 →
      ¬ (locate P D1 ++ [s]) <+: (locate P D2 ++ [s]))
    (h : removeFrom P targets s dirs w rs = (.ok res, w')) :
    res = rs ++ dirs.flatMap (fun D => (mapGet targets D).map
      (fun an => ⟨an, filepathJoin D s, (w.fs (locate P D ++ [s])).isSome, []⟩)) ∧
    (∀ q, (∃ D ∈ dirs, w.fs (locate P D ++ [s]) ≠ none ∧ (locate P D ++ [s]) <+: q) →
      w'.fs q = none) ∧
    (∀ q, (∀ D ∈ dirs, w.fs (locate P D ++ [s]) ≠ none → ¬ (locate P D ++ [s]) <+: q) →
      w'.fs q = w.fs q) := by
  induction dirs generalizing w rs with
  | nil =>
    simp only [removeFrom, Prod.mk.injEq, Except.ok.injEq] at h
    obtain ⟨rfl, rfl⟩ := h
    refine ⟨by simp, ?_, fun _ _ => rfl⟩
    rintro q ⟨D, hD, _⟩
    simp at hD
  | cons D rest ih =>
    rw [List.nodup_cons] at hnd
    have hap' : ∀ D1 ∈ rest, ∀ D2 ∈ rest, D1 ≠ D2 →
        ¬ (locate P D1 ++ [s]) <+: (locate P D2 ++ [s]) :=
      fun D1 h1 D2 h2 => hap D1 (List.mem_cons_of_mem _ h1) D2 (List.mem_cons_of_mem _ h2)
    have hDrest : ∀ D' ∈ rest, ¬ (locate P D ++ [s]) <+: (locate P D' ++ [s]) := by
      intro D' hD'
      apply hap D (List.mem_cons_self _ _) D' (List.mem_cons_of_mem _ hD')
      rintro rfl
      exact hnd.1 hD'
    have hst := osStat_bundle P w D s hs
    unfold removeFrom at h
    simp only at h
    have key : ∀ (w2 : World),
        (∀ q, (w.fs (locate P D ++ [s]) ≠ none ∧ (locate P D ++ [s]) <+: q) →
          w2.fs q = none) →
        (∀ q, (w.fs (locate P D ++ [s]) ≠ none → ¬ (locate P D ++ [s]) <+: q) →
          w2.fs q = w.fs q) →
        removeFrom P targets s rest w2
          (rs ++ (mapGet targets D).map
            (fun an => ⟨an, filepathJoin D s, (osStat P w (filepathJoin D s)).1, []⟩)) =
          (.ok res, w') →
        res = rs ++ (D :: rest).flatMap (fun D => (mapGet targets D).map
          (fun an => ⟨an, filepathJoin D s, (w.fs (locate P D ++ [s])).isSome, []⟩)) ∧
        (∀ q, (∃ D' ∈ D :: rest, w.fs (locate P D' ++ [s]) ≠ none ∧
          (locate P D' ++ [s]) <+: q) → w'.fs q = none) ∧
        (∀ q, (∀ D' ∈ D :: rest, w.fs (locate P D' ++ [s]) ≠ none →
          ¬ (locate P D' ++ [s]) <+: q) → w'.fs q = w.fs q) := by
      intro w2 hnone hframe hstep
      have hsame : ∀ D' ∈ rest, w2.fs (locate P D' ++ [s]) = w.fs (locate P D' ++ [s]) :=
        fun D' hD' => hframe _ (fun _ => hDrest D' hD')
      obtain ⟨i1, i2, i3⟩ := ih w2 _ hnd.2 hap' hstep
      refine ⟨?_, ?_, ?_⟩
      · rw [i1, List.flatMap_cons, List.append_assoc, hst]
        congr 2
        apply List.flatMap_congr
        intro D' hD'
        rw [hsame D' hD']
      · rintro q ⟨D', hD', hne, hpre⟩
        by_cases hq : ∃ D'' ∈ rest, w2.fs (locate P D'' ++ [s]) ≠ none ∧
            (locate P D'' ++ [s]) <+: q
        · exact i2 q hq
        · rw [i3 q (by
            intro D'' hD'' hne'' hpre''
            exact hq ⟨D'', hD'', hne'', hpre''⟩)]
          rcases List.mem_cons.mp hD' with rfl | hD'
          · exact hnone q ⟨hne, hpre⟩
          · exact absurd ⟨D', hD', by rw [hsame D' hD']; exact hne, hpre⟩ hq
      · intro q hq
        rw [i3 q (by
          intro D' hD' hne'
          rw [hsame D' hD'] at hne'
          exact hq D' (List.mem_cons_of_mem _ hD') hne')]
        exact hframe q (hq D (List.mem_cons_self _ _))
    by_cases hex : (osStat P w (filepathJoin D s)).1 = true
    · rw [if_pos hex] at h
      cases hr : osRemoveAll P (osStat P w (filepathJoin D s)).2 (filepathJoin D s) with
      | mk r1 w2 =>
        rw [hr] at h
        cases r1 with
        | error e => simp at h
        | ok u =>
          simp only at h
          have hfs := osRemoveAll_ok P _ w2 _ u
            (filepathJoin_ne_nil D s (validName_ne_nil s hs)) hr
          rw [locate_join_name P D s hs] at hfs
          refine key w2 ?_ ?_ h
          · rintro q ⟨_, hpre⟩
            rw [hfs]
            simp only
            rw [if_pos hpre]
          · intro q hq
            have hL : w.fs (locate P D ++ [s]) ≠ none := by
              rw [hst] at hex
              intro hn
              rw [hn] at hex
              cases hex
            rw [hfs]
            simp only
            rw [if_neg (hq hL)]
            rfl
    · rw [if_neg hex] at h
      simp only at h
      refine key _ ?_ ?_ h
      · rintro q ⟨hne, _⟩
        rw [hst] at hex
        exact absurd (Option.isSome_iff_ne_none.mpr hne) hex
      · intro q _
        rfl

/-! ### What `writeFiles` leaves -/

/-- After a successful `writeFiles` the directory holds the entries of the
map, each at its relative path, and no other regular file; what lies neither
in the directory nor above it is unchanged. -/
theorem writeFiles_sem (P : Platform) (w w' : World) (dir : Str) (files : List (Str × Str))
    (u : Unit) (hdir : dir ≠ []) (hv : ∀ f ∈ files, validRel f.1 = true)
    (hnd : (files.map Prod.fst).Nodup)
    (h : writeFiles P w dir files = (.ok u, w')) :
    (∀ q, ¬ locate P dir <+: q → ¬ q <+: locate P dir → w'.fs q = w.fs q) ∧
    (∀ q, ¬ locate P dir <+: q → w.fs q ≠ none → w'.fs q ≠ none) ∧
    (files ≠ [] → w'.fs (locate P dir) ≠ none) ∧
    (∀ q c, w'.fs (locate P dir ++ q) = some (.file c) ↔
      ∃ f ∈ files, splitPath f.1 = q ∧ f.2 = c) := by
  unfold writeFiles at h
  cases hr : osRemoveAll P w dir with
  | mk r1 w1 =>
    rw [hr] at h
    cases r1 with
    | error e => cases h
    | ok u1 =>
      simp only at h
      have hfs := osRemoveAll_ok P w w1 dir u1 hdir hr
      have hperm := P.filesOrder_perm files
      have hv' : ∀ f ∈ P.filesOrder files, validRel f.1 = true :=
        fun f hf => hv f (hperm.mem_iff.mp hf)
      have hnd' : ((P.filesOrder files).map Prod.fst).Nodup :=
        (hperm.map Prod.fst).nodup_iff.mpr hnd
      obtain ⟨i1, i2, i3, i4⟩ := writeEntries_sem P dir (P.filesOrder files) w1 w' u hv' hnd' h
      have hout : ∀ q, ¬ locate P dir <+: q → w1.fs q = w.fs q := by
        intro q hq
        rw [hfs]
        simp only
        rw [if_neg hq]
      refine ⟨?_, ?_, ?_, ?_⟩
      · intro q h1 h2
        rw [i1 q h1 h2, hout q h1]
      · intro q h1 hne
        exact i2 q (by rw [hout q h1]; exact hne)
      · intro hne
        apply i3
        intro he
        apply hne
        have := hperm.length_eq
        rw [he] at this
        exact List.length_eq_zero.mp this.symm
      · intro q c
        rw [i4 q c]
        constructor
        · rintro (⟨hfile, _⟩ | ⟨f, hf, hq, hc⟩)
          · rw [hfs] at hfile
            simp only at hfile
            rw [if_pos (List.prefix_append _ _)] at hfile
            cases hfile
          · exact ⟨f, hperm.mem_iff.mp hf, hq, hc⟩
        · rintro ⟨f, hf, hq, hc⟩
          exact Or.inr ⟨f, hperm.mem_iff.mpr hf, hq, hc⟩

/-- A location that lies neither within a directory nor above it. -/
theorem apart_below (L M q : List Str) (h1 : ¬ M <+: L) (h2 : ¬ L <+: M) (hq : L <+: q) :
    ¬ M <+: q ∧ ¬ q <+: M := by
  constructor
  · intro hM
    rcases List.prefix_or_prefix_of_prefix hM hq with h | h
    · exact h1 h
    · exact h2 h
  · intro hM
    exact h2 (hq.trans hM)

/-! ### The loops of `Install` -/

/-- One pass of the inner loop of `Install`, unfolded. -/
theorem installInto_cons (P : Platform) (targets : List (Str × List Str)) (s : skillEntry)
    (D : Str) (rest : List Str) (w : World) (rs : List Result) :
    installInto P targets s (D :: rest) w rs =
      match writeFiles P
        (installedVersionAt P (osStat P w (filepathJoin D s.name)).2 (filepathJoin D s.name)).2
        (filepathJoin D s.name) s.files with
      | (.error e, w3) => (.error (.wrap (filepathJoin D s.name) e), w3)
      | (.ok _, w3) =>
        installInto P targets s rest w3
          (rs ++ (mapGet targets D).map (fun an => ⟨an, filepathJoin D s.name,
            (osStat P w (filepathJoin D s.name)).1,
            (installedVersionAt P (osStat P w (filepathJoin D s.name)).2
              (filepathJoin D s.name)).1⟩)) := by
  conv_lhs => unfold installInto

theorem installInto_frame (P : Platform) (targets : List (Str × List Str)) (s : skillEntry)
    (hs : validName s.name = true) (hv : ∀ f ∈ s.files, validRel f.1 = true)
    (hnd : (s.files.map Prod.fst).Nodup)
    (dirs : List Str) (w : World) (rs res : List Result) (w' : World)
    (h : installInto P targets s dirs w rs = (.ok res, w')) (q : List Str)
    (hq : ∀ D ∈ dirs, ¬ (locate P D ++ [s.name]) <+: q ∧ ¬ q <+: (locate P D ++ [s.name])) :
    w'.fs q = w.fs q := by
  induction dirs generalizing w rs with
  | nil =>
    simp only [installInto, Prod.mk.injEq] at h
    rw [← h.2]
  | cons D rest ih =>
    rw [installInto_cons] at h
    cases hw : writeFiles P
      (installedVersionAt P (osStat P w (filepathJoin D s.name)).2 (filepathJoin D s.name)).2
      (filepathJoin D s.name) s.files with
    | mk r1 w3 =>
      rw [hw] at h
      cases r1 with
      | error e => cases h
      | ok u =>
        simp only at h
        obtain ⟨f1, _, _, _⟩ := writeFiles_sem P _ w3 _ s.files u
          (filepathJoin_ne_nil D s.name (validName_ne_nil _ hs)) hv hnd hw
        rw [locate_join_name P D s.name hs] at f1
        obtain ⟨h1, h2⟩ := hq D (List.mem_cons_self _ _)
        rw [ih w3 _ h (fun D' hD' => hq D' (List.mem_cons_of_mem _ hD')), f1 q h1 h2,
          installedVersionAt_fs, osStat_fs]

theorem installAll_frame (P : Platform) (targets : List (Str × List Str))
    (skills : List skillEntry)
    (hok : ∀ s ∈ skills, validName s.name = true ∧ (∀ f ∈ s.files, validRel f.1 = true) ∧
      (s.files.map Prod.fst).Nodup)
    (w : World) (rs res : List Result) (w' : World)
    (h : installAll P targets skills w rs = (.ok res, w')) (q : List Str)
    (hq : ∀ s ∈ skills, ∀ D ∈ sortedKeys targets,
      ¬ (locate P D ++ [s.name]) <+: q ∧ ¬ q <+: (locate P D ++ [s.name])) :
    w'.fs q = w.fs q := by
  induction skills generalizing w rs with
  | nil =>
    simp only [installAll, Prod.mk.injEq] at h
    rw [← h.2]
  | cons s rest ih =>
    unfold installAll at h
    cases hi : installInto P targets s (sortedKeys targets) w rs with
    | mk r1 w1 =>
      rw [hi] at h
      cases r1 with
      | error e => cases h
      | ok res1 =>
        simp only at h
        obtain ⟨a1, a2, a3⟩ := hok s (List.mem_cons_self _ _)
        rw [ih (fun s' hs' => hok s' (List.mem_cons_of_mem _ hs')) w1 res1 h
            (fun s' hs' => hq s' (List.mem_cons_of_mem _ hs')),
          installInto_frame P targets s a1 a2 a3 _ w rs res1 w1 hi q
            (hq s (List.mem_cons_self _ _))]

/-! ### What `Install` leaves in a bundle directory -/

/-- After the inner loop of `Install` has run for a bundle, a target
directory whose bundle location lies apart from those of the other target
directories holds the files of the bundle and no other regular file. -/
theorem installInto_sem (P : Platform) (targets : List (Str × List Str)) (s : skillEntry)
    (hs : validName s.name = true) (hv : ∀ f ∈ s.files, validRel f.1 = true)
    (hnd : (s.files.map Prod.fst).Nodup)
    (dirs : List Str) (w : World) (rs res : List Result) (w' : World)
    (h : installInto P targets s dirs w rs = (.ok res, w'))
    (hdn : dirs.Nodup) (D : Str) (hD : D ∈ dirs)
    (hap : ∀ D' ∈ dirs, D' ≠ D →
      ¬ (locate P D' ++ [s.name]) <+: (locate P D ++ [s.name]) ∧
      ¬ (locate P D ++ [s.name]) <+: (locate P D' ++ [s.name])) :
    (s.files ≠ [] → w'.fs (locate P D ++ [s.name]) ≠ none) ∧
    (∀ q c, w'.fs (locate P D ++ [s.name] ++ q) = some (.file c) ↔
      ∃ f ∈ s.files, splitPath f.1 = q ∧ f.2 = c) := by
  induction dirs generalizing w rs with
  | nil => simp at hD
  | cons D0 rest ih =>
    rw [List.nodup_cons] at hdn
    rw [installInto_cons] at h
    cases hw : writeFiles P
      (installedVersionAt P (osStat P w (filepathJoin D0 s.name)).2 (filepathJoin D0 s.name)).2
      (filepathJoin D0 s.name) s.files with
    | mk r1 w3 =>
      rw [hw] at h
      cases r1 with
      | error e => cases h
      | ok u =>
        simp only at h
        rcases List.mem_cons.mp hD with rfl | hD'
        · obtain ⟨_, _, f3, f4⟩ := writeFiles_sem P _ w3 _ s.files u
            (filepathJoin_ne_nil D s.name (validName_ne_nil _ hs)) hv hnd hw
          rw [locate_join_name P D s.name hs] at f3 f4
          have hfr : ∀ q, w'.fs (locate P D ++ [s.name] ++ q) =
              w3.fs (locate P D ++ [s.name] ++ q) := by
            intro q
            apply installInto_frame P targets s hs hv hnd rest w3 _ res w' h
            intro D' hD'
            have hne : D' ≠ D := by
              rintro rfl
              exact hdn.1 hD'
            obtain ⟨a1, a2⟩ := hap D' (List.mem_cons_of_mem _ hD') hne
            exact apart_below _ _ _ a1 a2 (List.prefix_append _ _)
          refine ⟨?_, ?_⟩
          · intro hne
            have := hfr []
            rw [List.append_nil] at this
            rw [this]
            exact f3 hne
          · intro q c
            rw [hfr q]
            exact f4 q c
        · exact ih w3 _ h hdn.2 hD'
            (fun D' hD'' hne => hap D' (List.mem_cons_of_mem _ hD'') hne)

/-- The same for the whole of `Install`: the bundle names are distinct and
the bundle location lies apart from every other bundle location of the
call. -/
theorem installAll_sem (P : Platform) (targets : List (Str × List Str))
    (skills : List skillEntry)
    (hok : ∀ s ∈ skills, validName s.name = true ∧ (∀ f ∈ s.files, validRel f.1 = true) ∧
      (s.files.map Prod.fst).Nodup)
    (hnames : (skills.map (fun s => s.name)).Nodup)
    (w : World) (rs res : List Result) (w' : World)
    (h : installAll P targets skills w rs = (.ok res, w'))
    (hkn : (sortedKeys targets).Nodup) (s : skillEntry) (hs : s ∈ skills)
    (D : Str) (hD : D ∈ sortedKeys targets)
    (hap : ∀ s' ∈ skills, ∀ D' ∈ sortedKeys targets, (s'.name, D') ≠ (s.name, D) →
      ¬ (locate P D' ++ [s'.name]) <+: (locate P D ++ [s.name]) ∧
      ¬ (locate P D ++ [s.name]) <+: (locate P D' ++ [s'.name])) :
    (s.files ≠ [] → w'.fs (locate P D ++ [s.name]) ≠ none) ∧
    (∀ q c, w'.fs (locate P D ++ [s.name] ++ q) = some (.file c) ↔
      ∃ f ∈ s.files, splitPath f.1 = q ∧ f.2 = c) := by
  induction skills generalizing w rs with
  | nil => simp at hs
  | cons s0 rest ih =>
    rw [List.map_cons, List.nodup_cons] at hnames
    unfold installAll at h
    cases hi : installInto P targets s0 (sortedKeys targets) w rs with
    | mk r1 w1 =>
      rw [hi] at h
      cases r1 with
      | error e => cases h
      | ok res1 =>
        simp only at h
        have hok' : ∀ s ∈ rest, validName s.name = true ∧
            (∀ f ∈ s.files, validRel f.1 = true) ∧ (s.files.map Prod.fst).Nodup :=
          fun s' hs' => hok s' (List.mem_cons_of_mem _ hs')
        rcases List.mem_cons.mp hs with rfl | hs'
        · obtain ⟨a1, a2, a3⟩ := hok s (List.mem_cons_self _ _)
          obtain ⟨g1, g2⟩ := installInto_sem P targets s a1 a2 a3 _ w rs res1 w1 hi hkn D hD
            (fun D' hD' hne => hap s (List.mem_cons_self _ _) D' hD'
              (fun e => hne (Prod.mk.inj e).2))
          have hfr : ∀ q, w'.fs (locate P D ++ [s.name] ++ q) =
              w1.fs (locate P D ++ [s.name] ++ q) := by
            intro q
            apply installAll_frame P targets rest hok' w1 res1 res w' h
            intro s' hs' D' hD'
            have hne : (s'.name, D') ≠ (s.name, D) := by
              intro e
              apply hnames.1
              rw [← (Prod.mk.inj e).1]
              exact List.mem_map.mpr ⟨s', hs', rfl⟩
            obtain ⟨b1, b2⟩ := hap s' (List.mem_cons_of_mem _ hs') D' hD' hne
            exact apart_below _ _ _ b1 b2 (List.prefix_append _ _)
          refine ⟨?_, ?_⟩
          · intro hne
            have := hfr []
            rw [List.append_nil] at this
            rw [this]
            exact g1 hne
          · intro q c
            rw [hfr q]
            exact g2 q c
        · exact ih hok' hnames.2 w1 res1 h hs'
            (fun s' hs'' D' hD' hne => hap s' (List.mem_cons_of_mem _ hs'') D' hD' hne)

/-- The loops that a successful `Install` has run. -/
theorem Install_ok (P : Platform) (fsys : SrcNode) (opts : Options) (w w' : World)
    (res : List Result) (h : Install P fsys opts w = (.ok res, w')) :
    ∃ skills targets, findSkills P.lowerTable fsys = .ok skills ∧ skills ≠ [] ∧
      resolveTargets P opts = .ok targets ∧ opts.Agents ≠ [] ∧
      installAll P targets skills w [] = (.ok res, w') := by
  unfold Install at h
  split at h
  · cases h
  · rename_i hA
    cases hs : findSkills P.lowerTable fsys with
    | error e => rw [hs] at h; cases h
    | ok skills =>
      rw [hs] at h
      simp only at h
      split at h
      · cases h
      · rename_i hne
        cases ht : resolveTargets P opts with
        | error e => rw [ht] at h; cases h
        | ok targets =>
          rw [ht] at h
          simp only at h
          refine ⟨skills, targets, rfl, ?_, rfl, ?_, h⟩
          · intro e
            rw [e] at hne
            exact hne rfl
          · intro e
            rw [e] at hA
            exact hA rfl

theorem targetKeys_eq (P : Platform) (opts : Options) (targets : List (Str × List Str))
    (h : resolveTargets P opts = .ok targets) : targetKeys P opts = sortedKeys targets := by
  unfold targetKeys
  rw [h]

theorem sortedKeys_nodup_of_resolve (P : Platform) (opts : Options)
    (targets : List (Str × List Str)) (h : resolveTargets P opts = .ok targets) :
    (sortedKeys targets).Nodup := by
  obtain ⟨hnd, _⟩ := resolveTargets_spec P opts targets h
  have hperm : (sortedKeys targets).Perm (targets.map Prod.fst) := List.perm_insertionSort _ _
  exact hperm.nodup_iff.mpr hnd

/-! ### Project mode: the bundle locations lie apart -/

/-- The project-level directory of every agent of the registry is `skills` or
has two components, the first of which is not `skills`; all components are
file names. -/
theorem skillsDir_shape :
    ∀ a ∈ agents, validRel a.skillsDir = true ∧
      (splitPath a.skillsDir = ["skills".toList] ∨
        ((splitPath a.skillsDir).length = 2 ∧
          (splitPath a.skillsDir).head? ≠ some "skills".toList)) := by
  decide

theorem agentIndex_mem (n : Str) (a : agent) (h : agentIndex n = some a) : a ∈ agents := by
  unfold agentIndex at h
  have := List.mem_of_getLast?_eq_some h
  exact (List.mem_filter.mp this).1

theorem skillsDir_prefix_eq (a b : agent) (ha : a ∈ agents) (hb : b ∈ agents)
    (h : splitPath a.skillsDir <+: splitPath b.skillsDir) :
    splitPath a.skillsDir = splitPath b.skillsDir := by
  obtain ⟨_, sa⟩ := skillsDir_shape a ha
  obtain ⟨_, sb⟩ := skillsDir_shape b hb
  rcases sa with sa | ⟨la, _⟩
  · rcases sb with sb | ⟨_, hb2⟩
    · rw [sa, sb]
    · exfalso
      rw [sa] at h
      obtain ⟨t, ht⟩ := h
      rw [← ht] at hb2
      exact hb2 rfl
  · rcases sb with sb | ⟨lb, _⟩
    · exfalso
      have := h.length_le
      rw [la, sb] at this
      simp at this
    · exact List.IsPrefix.eq_of_length h (by rw [la, lb])

/-- In project mode no bundle location of a call lies at or below another
one. -/
theorem bundlesApart_project (P : Platform) (opts : Options) (names : List Str)
    (hG : opts.Global = false) : BundlesApart P opts names := by
  intro n1 _ D1 hD1 n2 _ D2 hD2 hne hpre
  unfold targetKeys at hD1 hD2
  cases ht : resolveTargets P opts with
  | error e =>
    rw [ht] at hD1
    simp at hD1
  | ok targets =>
    rw [ht] at hD1 hD2
    simp only at hD1 hD2
    obtain ⟨_, _, _, hkeys⟩ := resolveTargets_spec P opts targets ht
    obtain ⟨m1, _, a, ha, hDa⟩ := (hkeys D1).mp ((mem_sortedKeys targets D1).mp hD1)
    obtain ⟨m2, _, b, hb, hDb⟩ := (hkeys D2).mp ((mem_sortedKeys targets D2).mp hD2)
    have hma := agentIndex_mem m1 a ha
    have hmb := agentIndex_mem m2 b hb
    unfold targetDir at hDa hDb
    rw [hG] at hDa hDb
    simp only [Bool.false_eq_true, if_false] at hDa hDb
    have la : locate P D1 = locate P opts.ProjectDir ++ splitPath a.skillsDir := by
      rw [← hDa]
      exact locate_join_rel P _ _ (skillsDir_shape a hma).1
    have lb : locate P D2 = locate P opts.ProjectDir ++ splitPath b.skillsDir := by
      rw [← hDb]
      exact locate_join_rel P _ _ (skillsDir_shape b hmb).1
    rw [la, lb, List.append_assoc, List.append_assoc] at hpre
    have hp2 : (splitPath a.skillsDir ++ [n1]) <+: (splitPath b.skillsDir ++ [n2]) :=
      (List.prefix_append_right_inj _).mp hpre
    have hlen : (splitPath a.skillsDir).length ≤ (splitPath b.skillsDir).length := by
      have := hp2.length_le
      simpa using this
    have hab : splitPath a.skillsDir <+: splitPath b.skillsDir :=
      List.prefix_of_prefix_length_le ((List.prefix_append _ _).trans hp2)
        (List.prefix_append _ _) hlen
    have heq := skillsDir_prefix_eq a b hma hmb hab
    rw [heq] at hp2
    have hn : [n1] <+: [n2] := (List.prefix_append_right_inj _).mp hp2
    have hn12 : n1 = n2 := by
      have := List.IsPrefix.eq_of_length hn rfl
      simpa using this
    apply hne
    rw [hn12, ← hDa, ← hDb, splitPath_injective _ _ heq]

/-- C7, as stated, fails when a resolved target directory lies within a
bundle directory of the call: with `CLAUDE_CONFIG_DIR=/h/.cursor/skills/x`
the bundle `x` is written to `/h/.cursor/skills/x` (cursor) and then to
`/h/.cursor/skills/x/skills/x` (claude-code), so that after the successful
call the first bundle directory holds a file `skills/x/SKILL.md`, which is not
an entry of the file map. -/
theorem Install_nested_targets :
    findSkills id (skillFS "x".toList) =
      .ok [⟨"x".toList, [("SKILL.md".toList, manifestText "x".toList [])]⟩] ∧
    (Install (Platform.simple nestingEnv []) (skillFS "x".toList)
        ⟨["claude-code".toList, "cursor".toList], [], true⟩ emptyWorld).1 =
      .ok [⟨"cursor".toList, "/h/.cursor/skills/x".toList, false, []⟩,
           ⟨"claude-code".toList, "/h/.cursor/skills/x/skills/x".toList, false, []⟩] ∧
    locate (Platform.simple nestingEnv []) "/h/.cursor/skills/x".toList =
      ["h".toList, ".cursor".toList, "skills".toList, "x".toList] ∧
    (Install (Platform.simple nestingEnv []) (skillFS "x".toList)
        ⟨["claude-code".toList, "cursor".toList], [], true⟩ emptyWorld).2.fs
      (["h".toList, ".cursor".toList, "skills".toList, "x".toList] ++
        ["skills".toList, "x".toList, "SKILL.md".toList]) =
      some (.file (manifestText "x".toList [])) := by
  decide

/-- C7, amended.  After a successful `Install` of a well-formed tree whose
bundles have distinct names, in project mode, or in global mode for bundle
locations none of which lies at or below another: for every bundle and every
resolved target directory `D`,
the regular files under `D/name` are exactly the entries of the file map of
the bundle, each at its relative path and with its content; whatever file was
there before and is not in the map is gone. -/
theorem Install_clean_replace (P : Platform) (fsys : SrcNode) (opts : Options)
    (w w' : World) (res : List Result) (skills : List skillEntry)
    (hwf : fsys.wf = true) (hS : findSkills P.lowerTable fsys = .ok skills)
    (hnames : (skills.map (fun s => s.name)).Nodup)
    (hap : opts.Global = false ∨ BundlesApart P opts (skills.map (fun s => s.name)))
    (hI : Install P fsys opts w = (.ok res, w'))
    (s : skillEntry) (hs : s ∈ skills) (D : Str) (hD : D ∈ targetKeys P opts) :
    locate P (filepathJoin D s.name) = locate P D ++ [s.name] ∧
    (∀ f ∈ s.files, locate P (filepathJoin (filepathJoin D s.name) f.1) =
      locate P D ++ [s.name] ++ splitPath f.1) ∧
    (∀ q c, w'.fs (locate P D ++ [s.name] ++ q) = some (.file c) ↔
      ∃ f ∈ s.files, splitPath f.1 = q ∧ f.2 = c) := by
  replace hap : BundlesApart P opts (skills.map (fun s => s.name)) :=
    hap.elim (bundlesApart_project P opts _) id
  obtain ⟨skills', targets, h1, _, h3, _, h5⟩ := Install_ok P fsys opts w w' res hI
  rw [hS] at h1
  cases h1
  have hok := findSkills_entries_ok P.lowerTable fsys hwf skills hS
  rw [targetKeys_eq P opts targets h3] at hD
  have hapart : ∀ s' ∈ skills, ∀ D' ∈ sortedKeys targets, (s'.name, D') ≠ (s.name, D) →
      ¬ (locate P D' ++ [s'.name]) <+: (locate P D ++ [s.name]) ∧
      ¬ (locate P D ++ [s.name]) <+: (locate P D' ++ [s'.name]) := by
    intro s' hs' D' hD' hne
    have m1 : s'.name ∈ skills.map (fun s => s.name) := List.mem_map.mpr ⟨s', hs', rfl⟩
    have m2 : s.name ∈ skills.map (fun s => s.name) := List.mem_map.mpr ⟨s, hs, rfl⟩
    have k1 : D' ∈ targetKeys P opts := by rw [targetKeys_eq P opts targets h3]; exact hD'
    have k2 : D ∈ targetKeys P opts := by rw [targetKeys_eq P opts targets h3]; exact hD
    exact ⟨hap _ m1 D' k1 _ m2 D k2 hne, hap _ m2 D k2 _ m1 D' k1 (Ne.symm hne)⟩
  obtain ⟨a1, a2, _⟩ := hok s hs
  refine ⟨locate_join_name P D s.name a1, ?_, ?_⟩
  · intro f hf
    rw [locate_join_rel P _ f.1 (a2 f hf), locate_join_name P D s.name a1]
  · exact (installAll_sem P targets skills hok hnames w [] res w' h5
      (sortedKeys_nodup_of_resolve P opts targets h3) s hs D hD hapart).2

theorem Install_clean_replace_witness :
    locate plainPlatform (filepathJoin "/p/.claude/skills".toList exampleBundle.name) =
      locate plainPlatform "/p/.claude/skills".toList ++ [exampleBundle.name] ∧
    (∀ f ∈ exampleBundle.files,
      locate plainPlatform
          (filepathJoin (filepathJoin "/p/.claude/skills".toList exampleBundle.name) f.1) =
        locate plainPlatform "/p/.claude/skills".toList ++ [exampleBundle.name] ++
          splitPath f.1) ∧
    (∀ q c, (Install plainPlatform exampleTree
          ⟨["claude-code".toList, "cursor".toList], "/p".toList, false⟩ staleWorld).2.fs
        (locate plainPlatform "/p/.claude/skills".toList ++ [exampleBundle.name] ++ q) =
          some (.file c) ↔
      ∃ f ∈ exampleBundle.files, splitPath f.1 = q ∧ f.2 = c) :=
  Install_clean_replace plainPlatform exampleTree
    ⟨["claude-code".toList, "cursor".toList], "/p".toList, false⟩ staleWorld
    (Install plainPlatform exampleTree
      ⟨["claude-code".toList, "cursor".toList], "/p".toList, false⟩ staleWorld).2
    [⟨"claude-code".toList, "/p/.claude/skills/x".toList, true, []⟩,
     ⟨"cursor".toList, "/p/.cursor/skills/x".toList, false, []⟩]
    [exampleBundle] (by decide) (by decide) (by decide) (by decide)
    (Prod.ext (by decide) rfl) exampleBundle (by decide) "/p/.claude/skills".toList (by decide)

/-! ### Installing one bundle into one target directory -/

theorem emptyFS_wf : emptyFS.WF := by
  constructor
  · rfl
  · intro l c h
    unfold emptyFS at h
    rw [if_neg (by simp)] at h
    exact absurd rfl h

theorem firstNonEmpty_singleton (v : Str) : firstNonEmpty [v] = v := by
  unfold firstNonEmpty
  by_cases h : v = []
  · subst h
    rfl
  · rw [List.find?_cons_of_pos _ (by simpa using h)]
    rfl

theorem sortedKeys_singleton (D : Str) (ags : List Str) : sortedKeys [(D, ags)] = [D] := rfl

/-- `Install` of one bundle into one target directory: one call of
`writeFiles`, on a state that is the state before the call, and one result for
every identifier. -/
theorem installAll_single (P : Platform) (D : Str) (ags : List Str) (s : skillEntry)
    (w w' : World) (res : List Result)
    (h : installAll P [(D, ags)] [s] w [] = (.ok res, w')) :
    ∃ w0, w0.fs = w.fs ∧
      writeFiles P w0 (filepathJoin D s.name) s.files = (.ok (), w') ∧
      res = ags.map (fun an => ⟨an, filepathJoin D s.name,
        (osStat P w (filepathJoin D s.name)).1, versionIn P w.fs (filepathJoin D s.name)⟩) := by
  unfold installAll at h
  rw [sortedKeys_singleton, installInto_cons] at h
  cases hw : writeFiles P
      (installedVersionAt P (osStat P w (filepathJoin D s.name)).2 (filepathJoin D s.name)).2
      (filepathJoin D s.name) s.files with
  | mk r1 w3 =>
    rw [hw] at h
    cases r1 with
    | error e => cases h
    | ok u =>
      simp only [installInto, installAll, List.nil_append, Prod.mk.injEq,
        Except.ok.injEq] at h
      obtain ⟨h1, h2⟩ := h
      subst h2
      refine ⟨_, ?_, hw, ?_⟩
      · rw [installedVersionAt_fs, osStat_fs]
      · rw [← h1, installedVersionAt_val, osStat_fs, mapGet_cons_self]

theorem locate_manifest (P : Platform) (D x : Str) (hx : validName x = true) :
    locate P (filepathJoin (filepathJoin D x) "SKILL.md".toList) =
      locate P D ++ [x] ++ ["SKILL.md".toList] := by
  rw [locate_join_name P _ _ (by decide), locate_join_name P D x hx]

theorem versionIn_of_manifest (P : Platform) (fs : FS) (D x m v : Str)
    (hx : validName x = true)
    (hfile : fs (locate P D ++ [x] ++ ["SKILL.md".toList]) = some (.file m))
    (hv : parseFrontmatterField m "version".toList = .ok v) :
    versionIn P fs (filepathJoin D x) = v := by
  rw [versionIn_eq, locate_manifest P D x hx, hfile]
  simp only
  rw [hv]

theorem versionIn_of_absent (P : Platform) (fs : FS) (D x : Str) (hx : validName x = true)
    (hnone : fs (locate P D ++ [x] ++ ["SKILL.md".toList]) = none) :
    versionIn P fs (filepathJoin D x) = [] := by
  rw [versionIn_eq, locate_manifest P D x hx, hnone]

theorem InstalledVersion_single (P : Platform) (x : Str) (opts : Options) (w : World)
    (D : Str) (ags : List Str) (hT : resolveTargets P opts = .ok [(D, ags)]) :
    (InstalledVersion P x opts w).1 = .ok (versionIn P w.fs (filepathJoin D x)) ∧
    (InstalledVersion P x opts w).2.fs = w.fs := by
  obtain ⟨h1, h2⟩ := versionFrom_spec P x [D] w
  unfold InstalledVersion
  rw [hT]
  simp only
  rw [sortedKeys_singleton]
  refine ⟨?_, h2⟩
  rw [h1]
  simp only [List.map_cons, List.map_nil]
  rw [firstNonEmpty_singleton]

/-- What one `Install` of one bundle into one directory reports and leaves:
the results say whether the bundle directory existed and which version it
held, and afterwards it exists and holds the version of the new manifest. -/
theorem Install_single (P : Platform) (fsys : SrcNode) (opts : Options) (w w' : World)
    (res : List Result) (D : Str) (ags : List Str) (x : Str) (F : List (Str × Str))
    (m v : Str) (hwf : fsys.wf = true)
    (hT : resolveTargets P opts = .ok [(D, ags)])
    (hS : findSkills P.lowerTable fsys = .ok [⟨x, F⟩])
    (hm : ("SKILL.md".toList, m) ∈ F)
    (hv : parseFrontmatterField m "version".toList = .ok v)
    (hI : Install P fsys opts w = (.ok res, w')) :
    validName x = true ∧
    res = ags.map (fun an => ⟨an, filepathJoin D x,
      (w.fs (locate P D ++ [x])).isSome, versionIn P w.fs (filepathJoin D x)⟩) ∧
    w'.fs (locate P D ++ [x]) ≠ none ∧
    versionIn P w'.fs (filepathJoin D x) = v := by
  obtain ⟨skills, targets, h1, _, h3, _, h5⟩ := Install_ok P fsys opts w w' res hI
  rw [hS] at h1
  cases h1
  rw [hT] at h3
  cases h3
  obtain ⟨hx, hvalid, hnd⟩ := findSkills_entries_ok P.lowerTable fsys hwf _ hS ⟨x, F⟩
    (List.mem_singleton.mpr rfl)
  simp only at hx hvalid hnd
  obtain ⟨w0, hw0, hw, hres⟩ := installAll_single P D ags ⟨x, F⟩ w w' res h5
  simp only at hw hres
  obtain ⟨_, _, f3, f4⟩ := writeFiles_sem P w0 w' _ F ()
    (filepathJoin_ne_nil D x (validName_ne_nil x hx)) hvalid hnd hw
  rw [locate_join_name P D x hx] at f3 f4
  refine ⟨hx, ?_, f3 (List.ne_nil_of_mem hm), ?_⟩
  · rw [hres, osStat_bundle P w D x hx]
  · apply versionIn_of_manifest P w'.fs D x m v hx _ hv
    rw [f4]
    exact ⟨("SKILL.md".toList, m), hm,
      (by decide : splitPath "SKILL.md".toList = ["SKILL.md".toList]), rfl⟩

/-! ### Calls that keep the state well-formed -/

theorem wf_mkdirAll (P : Platform) (w w' : World) (p : Str) (u : Unit) (hwf : w.fs.WF)
    (h : osMkdirAll P w p = (.ok u, w')) : w'.fs.WF := by
  unfold osMkdirAll at h
  simp only at h
  split at h
  · cases h
  · split at h
    · cases h
    · rename_i hpf
      simp only [Prod.mk.injEq] at h
      rw [← h.2]
      have hnofile : ∀ q, q <+: locate P p → ∀ d, w.fs q ≠ some (.file d) := by
        intro q hq d hd
        apply hpf
        unfold prefixIsFile
        rw [List.any_eq_true]
        exact ⟨q, (List.mem_inits _ _).mpr hq, by unfold isFileAt; rw [hd]⟩
      constructor
      · simp only
        rw [if_neg (by rw [hwf.1]; simp)]
        exact hwf.1
      · intro l c hne
        simp only at hne ⊢
        have hl : (l ++ [c] <+: locate P p) → l <+: locate P p :=
          fun hp => (List.prefix_append _ _).trans hp
        by_cases hnew : (l ++ [c] <+: locate P p) ∧ w.fs (l ++ [c]) = none
        · by_cases hlo : w.fs l = none
          · rw [if_pos ⟨hl hnew.1, hlo⟩]
          · rw [if_neg (fun hh => hlo hh.2)]
            cases hx : w.fs l with
            | none => exact absurd hx hlo
            | some nd =>
              cases nd with
              | file d => exact absurd hx (hnofile l (hl hnew.1) d)
              | dir => rfl
        · rw [if_neg hnew] at hne
          have := hwf.2 l c hne
          rw [if_neg (by rw [this]; simp)]
          exact this

theorem wf_writeFile (P : Platform) (w w' : World) (p d : Str) (u : Unit) (hwf : w.fs.WF)
    (h : osWriteFile P w p d = (.ok u, w')) : w'.fs.WF := by
  unfold osWriteFile at h
  simp only at h
  split at h
  · cases h
  · split at h
    · cases h
    · rename_i hloc
      split at h
      · cases h
      · cases h
      · rename_i hparent
        split at h
        · cases h
        · rename_i hnd
          simp only [Prod.mk.injEq] at h
          rw [← h.2]
          constructor
          · simp only
            rw [if_neg (Ne.symm hloc)]
            exact hwf.1
          · intro l c hne
            simp only at hne ⊢
            have hl : w.fs l = some .dir := by
              by_cases he : l ++ [c] = locate P p
              · rw [← he, List.dropLast_concat] at hparent
                exact hparent
              · rw [if_neg he] at hne
                exact hwf.2 l c hne
            rw [if_neg (by
              intro e
              rw [e] at hl
              exact hnd hl)]
            exact hl

theorem wf_writeEntries (P : Platform) (dir : Str) (files : List (Str × Str)) (w w' : World)
    (u : Unit) (hwf : w.fs.WF) (h : writeEntries P dir files w = (.ok u, w')) : w'.fs.WF := by
  induction files generalizing w with
  | nil =>
    simp only [writeEntries, Prod.mk.injEq] at h
    rw [← h.2]
    exact hwf
  | cons f rest ih =>
    obtain ⟨rel, content⟩ := f
    unfold writeEntries at h
    simp only at h
    cases hm : osMkdirAll P w (filepathDir (filepathJoin dir rel)) with
    | mk r1 w1 =>
      rw [hm] at h
      cases r1 with
      | error e => cases h
      | ok u1 =>
        simp only at h
        cases hw : osWriteFile P w1 (filepathJoin dir rel) content with
        | mk r2 w2 =>
          rw [hw] at h
          cases r2 with
          | error e => cases h
          | ok u2 =>
            simp only at h
            exact ih w2 (wf_writeFile P w1 w2 _ _ u2 (wf_mkdirAll P w w1 _ u1 hwf hm) hw) h

theorem wf_writeFiles (P : Platform) (w w' : World) (dir : Str) (files : List (Str × Str))
    (u : Unit) (hdir : dir ≠ []) (hloc : locate P dir ≠ []) (hwf : w.fs.WF)
    (h : writeFiles P w dir files = (.ok u, w')) : w'.fs.WF := by
  unfold writeFiles at h
  cases hr : osRemoveAll P w dir with
  | mk r1 w1 =>
    rw [hr] at h
    cases r1 with
    | error e => cases h
    | ok u1 =>
      simp only at h
      have hfs := osRemoveAll_ok P w w1 dir u1 hdir hr
      apply wf_writeEntries P dir _ w1 w' u _ h
      rw [hfs]
      exact wf_remove hwf _ hloc

theorem wf_installInto (P : Platform) (targets : List (Str × List Str)) (s : skillEntry)
    (hs : validName s.name = true) (dirs : List Str) (w : World) (rs res : List Result)
    (w' : World) (hwf : w.fs.WF)
    (h : installInto P targets s dirs w rs = (.ok res, w')) : w'.fs.WF := by
  induction dirs generalizing w rs with
  | nil =>
    simp only [installInto, Prod.mk.injEq] at h
    rw [← h.2]
    exact hwf
  | cons D rest ih =>
    rw [installInto_cons] at h
    cases hw : writeFiles P
      (installedVersionAt P (osStat P w (filepathJoin D s.name)).2 (filepathJoin D s.name)).2
      (filepathJoin D s.name) s.files with
    | mk r1 w3 =>
      rw [hw] at h
      cases r1 with
      | error e => cases h
      | ok u =>
        simp only at h
        apply ih w3 _ _ h
        apply wf_writeFiles P _ w3 _ s.files u
          (filepathJoin_ne_nil D s.name (validName_ne_nil _ hs)) _ _ hw
        · rw [locate_join_name P D s.name hs]
          simp
        · rw [installedVersionAt_fs, osStat_fs]
          exact hwf

theorem wf_installAll (P : Platform) (targets : List (Str × List Str))
    (skills : List skillEntry) (hok : ∀ s ∈ skills, validName s.name = true)
    (w : World) (rs res : List Result) (w' : World) (hwf : w.fs.WF)
    (h : installAll P targets skills w rs = (.ok res, w')) : w'.fs.WF := by
  induction skills generalizing w rs with
  | nil =>
    simp only [installAll, Prod.mk.injEq] at h
    rw [← h.2]
    exact hwf
  | cons s rest ih =>
    unfold installAll at h
    cases hi : installInto P targets s (sortedKeys targets) w rs with
    | mk r1 w1 =>
      rw [hi] at h
      cases r1 with
      | error e => cases h
      | ok res1 =>
        simp only at h
        exact ih (fun s' hs' => hok s' (List.mem_cons_of_mem _ hs')) w1 res1
          (wf_installInto P targets s (hok s (List.mem_cons_self _ _)) _ w rs res1 w1 hwf hi) h

/-! ### What `Remove` reports and leaves -/

/-- On a well-formed state, and for bundle locations none of which lies
within another, `Remove` succeeds; every result tells whether the bundle
directory of its target existed before the call; afterwards nothing is left at
or below a bundle location, and everything else is as before. -/
theorem Remove_sem (P : Platform) (name : Str) (opts : Options) (w : World)
    (targets : List (Str × List Str))
    (hA : opts.Agents ≠ []) (hn : name ≠ []) (ht : resolveTargets P opts = .ok targets)
    (hwf : w.fs.WF) (hap : BundlesApart P opts [sanitizeName P.lowerTable name]) :
    ∃ res w', Remove P name opts w = (.ok res, w') ∧ w'.fs.WF ∧
      res = (targetKeys P opts).flatMap (fun D => (agentsAt P opts D).map
        (fun an => ⟨an, filepathJoin D (sanitizeName P.lowerTable name),
          (w.fs (locate P D ++ [sanitizeName P.lowerTable name])).isSome, []⟩)) ∧
      (∀ D ∈ targetKeys P opts, ∀ q,
        (locate P D ++ [sanitizeName P.lowerTable name]) <+: q → w'.fs q = none) ∧
      (∀ q, (∀ D ∈ targetKeys P opts,
          w.fs (locate P D ++ [sanitizeName P.lowerTable name]) ≠ none →
          ¬ (locate P D ++ [sanitizeName P.lowerTable name]) <+: q) →
        w'.fs q = w.fs q) := by
  have hs := validName_sanitizeName P.lowerTable name
  rw [targetKeys_eq P opts targets ht]
  obtain ⟨res, w', hrun, hwf'⟩ := removeFrom_succeeds P targets
    (sanitizeName P.lowerTable name) hs (sortedKeys targets) w [] hwf
  have hap' : ∀ D1 ∈ sortedKeys targets, ∀ D2 ∈ sortedKeys targets, D1 ≠ D2 →
      ¬ (locate P D1 ++ [sanitizeName P.lowerTable name]) <+:
        (locate P D2 ++ [sanitizeName P.lowerTable name]) := by
    intro D1 h1 D2 h2 hne
    apply hap _ (List.mem_singleton.mpr rfl) D1 _ _ (List.mem_singleton.mpr rfl) D2 _
    · intro e
      exact hne (Prod.mk.inj e).2
    · rw [targetKeys_eq P opts targets ht]; exact h1
    · rw [targetKeys_eq P opts targets ht]; exact h2
  obtain ⟨s1, s2, s3⟩ := removeFrom_sem P targets _ hs (sortedKeys targets) w [] res w'
    (sortedKeys_nodup_of_resolve P opts targets ht) hap' hrun
  refine ⟨res, w', ?_, hwf', ?_, ?_, s3⟩
  · unfold Remove
    rw [if_neg (by
      intro e
      exact hA (List.length_eq_zero.mp e)), if_neg hn]
    simp only
    rw [ht]
    exact hrun
  · rw [s1, List.nil_append]
    simp only [resolveTargets_mapGet P opts targets ht]
  · intro D hD q hq
    have hLD : w'.fs (locate P D ++ [sanitizeName P.lowerTable name]) = none := by
      by_cases hex : ∃ D' ∈ sortedKeys targets,
          w.fs (locate P D' ++ [sanitizeName P.lowerTable name]) ≠ none ∧
          (locate P D' ++ [sanitizeName P.lowerTable name]) <+:
            (locate P D ++ [sanitizeName P.lowerTable name])
      · exact s2 _ hex
      · rw [s3 _ (fun D' hD' hne hpre => hex ⟨D', hD', hne, hpre⟩)]
        by_contra hne
        exact hex ⟨D, hD, hne, List.prefix_refl _⟩
    obtain ⟨t, rfl⟩ := hq
    exact hwf'.below_none _ hLD t

/-! ### Example states -/

theorem fsOfFiles_single_wf (F : List Str) (d : Str) (hF : F ≠ []) :
    (fsOfFiles [(F, d)]).WF := by
  have hval : ∀ q, fsOfFiles [(F, d)] q =
      if q = F then some (.file d)
      else if q = [] ∨ q <+: F then some .dir else none := by
    intro q
    unfold fsOfFiles
    by_cases hq : q = F
    · subst hq
      simp [List.lookup]
    · have : (q == F) = false := by simpa using hq
      simp [List.lookup, this, hq]
  constructor
  · rw [hval, if_neg (Ne.symm hF), if_pos (Or.inl rfl)]
  · intro l c hne
    have hpre : l ++ [c] <+: F := by
      rw [hval] at hne
      by_cases he : l ++ [c] = F
      · rw [he]
      · rw [if_neg he] at hne
        by_cases hp : l ++ [c] = [] ∨ l ++ [c] <+: F
        · rcases hp with hp | hp
          · simp at hp
          · exact hp
        · rw [if_neg hp] at hne
          exact absurd rfl hne
    have hl : l <+: F := (List.prefix_append _ _).trans hpre
    have hlne : l ≠ F := by
      intro e
      rw [← e] at hpre
      have := hpre.length_le
      simp at this
    rw [hval, if_neg hlne, if_pos (Or.inr hl)]

theorem staleWorld_wf : staleWorld.fs.WF :=
  fsOfFiles_single_wf _ _ (by simp)

/-- C12, failing input. Two resolved directories that differ as texts name the
same directory: with `XDG_CONFIG_HOME=/h/.config/` the agents amp and
kimi-cli resolve to `/h/.config//agents/skills` and `/h/.config/agents/skills`.
The bundle directory exists before the call for both; it is removed for the
first, and the result of the second says `Existed = false`. -/
theorem Remove_alias_reports_absent :
    resolveTargets (Platform.simple aliasEnv []) ⟨["amp".toList, "kimi-cli".toList], [], true⟩ =
      .ok [("/h/.config//agents/skills".toList, ["amp".toList]),
           ("/h/.config/agents/skills".toList, ["kimi-cli".toList])] ∧
    aliasWorld.fs (locate (Platform.simple aliasEnv [])
      (filepathJoin "/h/.config/agents/skills".toList "x".toList)) ≠ none ∧
    (Remove (Platform.simple aliasEnv []) "x".toList
        ⟨["amp".toList, "kimi-cli".toList], [], true⟩ aliasWorld).1 =
      .ok [⟨"amp".toList, "/h/.config/agents/skills/x".toList, true, []⟩,
           ⟨"kimi-cli".toList, "/h/.config/agents/skills/x".toList, false, []⟩] := by
  decide

/-- C13, as stated, fails for a bundle whose directory is named `.git`: its
file map is empty, `Install` succeeds without creating the bundle directory,
and the following `Remove` reports `Existed = false`. -/
theorem Install_Remove_empty_bundle :
    dotGitTree.wf = true ∧
    parseName id (manifestText "g".toList []) = .ok "g".toList ∧
    findSkills id dotGitTree = .ok [⟨"g".toList, []⟩] ∧
    (Install plainPlatform dotGitTree ⟨["claude-code".toList], "/p".toList, false⟩
        emptyWorld).1 =
      .ok [⟨"claude-code".toList, "/p/.claude/skills/g".toList, false, []⟩] ∧
    (Remove plainPlatform "g".toList ⟨["claude-code".toList], "/p".toList, false⟩
        (Install plainPlatform dotGitTree ⟨["claude-code".toList], "/p".toList, false⟩
          emptyWorld).2).1 =
      .ok [⟨"claude-code".toList, "/p/.claude/skills/g".toList, false, []⟩] := by
  decide

/-- C21, failing input. With `HOME=/h/` and `XDG_CONFIG_HOME` unset, amp
resolves to `/h//.config/agents/skills` (the expanded template is absolute and
is returned as it is) and kimi-cli to `/h/.config/agents/skills` (joined to
the home directory and cleaned): `resolveTargets` has two keys, `Install`
removes and writes the bundle directory `/h/.config/agents/skills/x` once for
each, and the result of amp says that the bundle existed before the call.
With `HOME=/h` the two agents are filed under one key. -/
theorem resolveTargets_home_trailing_slash :
    resolveTargets (homePlatform "/h".toList) ⟨["amp".toList, "kimi-cli".toList], [], true⟩ =
      .ok [("/h/.config/agents/skills".toList, ["amp".toList, "kimi-cli".toList])] ∧
    resolveTargets (homePlatform "/h/".toList) ⟨["amp".toList, "kimi-cli".toList], [], true⟩ =
      .ok [("/h//.config/agents/skills".toList, ["amp".toList]),
           ("/h/.config/agents/skills".toList, ["kimi-cli".toList])] ∧
    (Install (homePlatform "/h/".toList) (skillFS "x".toList)
        ⟨["amp".toList, "kimi-cli".toList], [], true⟩ emptyWorld).1 =
      .ok [⟨"kimi-cli".toList, "/h/.config/agents/skills/x".toList, false, []⟩,
           ⟨"amp".toList, "/h/.config/agents/skills/x".toList, true, []⟩] ∧
    (Install (homePlatform "/h/".toList) (skillFS "x".toList)
        ⟨["amp".toList, "kimi-cli".toList], [], true⟩ emptyWorld).2.log.filterMap
          Event.removePath =
      ["/h/.config/agents/skills/x".toList, "/h/.config/agents/skills/x".toList] := by
  decide

/-- C22, failing input. With `XDG_CONFIG_HOME=rel` the global template of amp
cannot be made absolute and `resolvePath` returns the empty text;
`resolveTargets` files amp under the key `""`.  The bundle path is then
`Join("", "x") = "x"`, a path relative to the working directory `/w`: `Remove`
deletes `/w/x` with the file in it, and `Install` replaces `/w/x` by the
bundle. -/
theorem resolveTargets_empty_key :
    resolvePath (Platform.simple relativeEnv ["w".toList])
      "$XDG_CONFIG_HOME/agents/skills".toList [] true = [] ∧
    resolveTargets (Platform.simple relativeEnv ["w".toList]) ⟨["amp".toList], [], true⟩ =
      .ok [([], ["amp".toList])] ∧
    cwdWorld.fs ["w".toList, "x".toList, "keep.txt".toList] = some (.file "data".toList) ∧
    (Remove (Platform.simple relativeEnv ["w".toList]) "x".toList
        ⟨["amp".toList], [], true⟩ cwdWorld).1 = .ok [⟨"amp".toList, "x".toList, true, []⟩] ∧
    (Remove (Platform.simple relativeEnv ["w".toList]) "x".toList
        ⟨["amp".toList], [], true⟩ cwdWorld).2.log =
      [.stat "x".toList, .removeAll "x".toList] ∧
    (Remove (Platform.simple relativeEnv ["w".toList]) "x".toList
        ⟨["amp".toList], [], true⟩ cwdWorld).2.fs
          ["w".toList, "x".toList, "keep.txt".toList] = none ∧
    (Install (Platform.simple relativeEnv ["w".toList]) (skillFS "x".toList)
        ⟨["amp".toList], [], true⟩ cwdWorld).1 = .ok [⟨"amp".toList, "x".toList, true, []⟩] ∧
    (Install (Platform.simple relativeEnv ["w".toList]) (skillFS "x".toList)
        ⟨["amp".toList], [], true⟩ cwdWorld).2.fs
          ["w".toList, "x".toList, "keep.txt".toList] = none ∧
    (Install (Platform.simple relativeEnv ["w".toList]) (skillFS "x".toList)
        ⟨["amp".toList], [], true⟩ cwdWorld).2.fs
          ["w".toList, "x".toList, "SKILL.md".toList] =
      some (.file (manifestText "x".toList [])) := by
  decide

/-- C23, failing input. With `XDG_CONFIG_HOME=$CODEX_HOME`, `CODEX_HOME` unset
and `HOME=/h`, one pass over the template `$XDG_CONFIG_HOME/agents/skills`
gives `$CODEX_HOME/agents/skills`.  `expandEnv` returns that text when the
loop visits `CODEX_HOME` before `XDG_CONFIG_HOME`, and
`/h/.codex/agents/skills` when it visits `XDG_CONFIG_HOME` first: the
placeholder inside the substituted value is then expanded by the later
iteration.  (`expandEnv_eq_expandOnce` shows that the loop gives the result of
one pass, in every order, when no substituted value holds a `$` and each `$`
of the template starts a placeholder.) -/
theorem expandEnv_order_dependent :
    expandOnce (Platform.simple nestedEnv []) "$XDG_CONFIG_HOME/agents/skills".toList =
      "$CODEX_HOME/agents/skills".toList ∧
    (Platform.simple nestedEnv []).envOrder.map Prod.fst =
      ["XDG_CONFIG_HOME".toList, "CLAUDE_CONFIG_DIR".toList, "CODEX_HOME".toList] ∧
    expandEnv (Platform.simple nestedEnv []) "$XDG_CONFIG_HOME/agents/skills".toList =
      "/h/.codex/agents/skills".toList ∧
    (Platform.reversed nestedEnv []).envOrder.map Prod.fst =
      ["CODEX_HOME".toList, "CLAUDE_CONFIG_DIR".toList, "XDG_CONFIG_HOME".toList] ∧
    expandEnv (Platform.reversed nestedEnv []) "$XDG_CONFIG_HOME/agents/skills".toList =
      "$CODEX_HOME/agents/skills".toList := by
  decide

/-- C24, failing input. A template that is `~`, or `~/` and a suffix, resolves
to the home directory, or to the home directory joined with the suffix.  With
`CODEX_HOME=~codex` and `HOME=/h` the template `$CODEX_HOME/skills` expands to
`~codex/skills`; the slice `path[2:]` is `odex/skills` and `resolvePath`
returns `/h/odex/skills`, not the home directory joined with the remainder
`codex/skills`.  (`resolvePath_tilde`, `resolvePath_tilde_slash` and
`tilde_two_runes` show the parts that hold for every template, and
`resolvePath_tilde_rune` that the rune after `~` is dropped whatever it is.) -/
theorem resolvePath_home_drops_rune :
    resolvePath (Platform.simple tildeEnv []) "~".toList [] true = "/h".toList ∧
    resolvePath (Platform.simple tildeEnv []) "~/.codex/skills".toList [] true =
      "/h/.codex/skills".toList ∧
    expandEnv (Platform.simple tildeEnv []) "$CODEX_HOME/skills".toList =
      "~codex/skills".toList ∧
    filepathJoin (userHomeDir (Platform.simple tildeEnv [])) "codex/skills".toList =
      "/h/codex/skills".toList ∧
    resolvePath (Platform.simple tildeEnv []) "$CODEX_HOME/skills".toList [] true =
      "/h/odex/skills".toList ∧
    resolveTargets (Platform.simple tildeEnv []) ⟨["codex".toList], [], true⟩ =
      .ok [("/h/odex/skills".toList, ["codex".toList])] := by
  decide

/-! ### The home directory branch of `resolvePath` -/

theorem resolvePath_tilde (P : Platform) (path projectDir : Str) (g : Bool)
    (h : expandEnv P path = "~".toList) :
    resolvePath P path projectDir g = userHomeDir P := by
  unfold resolvePath
  simp only [h]
  rfl

theorem resolvePath_tilde_rune (P : Platform) (path projectDir : Str) (g : Bool) (c : Char)
    (s : Str) (h : expandEnv P path = '~' :: c :: s) :
    resolvePath P path projectDir g =
      filepathJoin (userHomeDir P)
        (List.replicate (c.utf8Size - 1) (Char.ofNat 0xFFFD) ++ s) := by
  unfold resolvePath
  simp only [h]
  have h1 : hasPrefix ('~' :: c :: s) "~".toList = true := by
    simp [hasPrefix, List.isPrefixOf]
  have h2 : ('~' :: c :: s) ≠ "~".toList := by simp
  rw [if_pos h1, if_neg h2]
  rfl

theorem resolvePath_tilde_slash (P : Platform) (path projectDir : Str) (g : Bool) (s : Str)
    (h : expandEnv P path = '~' :: '/' :: s) :
    resolvePath P path projectDir g = filepathJoin (userHomeDir P) s := by
  rw [resolvePath_tilde_rune P path projectDir g '/' s h]
  rfl

/-- The slice `path[2:]` is within bounds: a text that starts with `~` and is
not `~` has a second rune. -/
theorem tilde_two_runes (p : Str) (h : hasPrefix p "~".toList = true) (hne : p ≠ "~".toList) :
    ∃ c s, p = '~' :: c :: s := by
  rcases p with _ | ⟨a, _ | ⟨c, s⟩⟩
  · simp [hasPrefix, List.isPrefixOf] at h
  · simp [hasPrefix, List.isPrefixOf] at h
    subst h
    exact absurd rfl hne
  · simp [hasPrefix, List.isPrefixOf] at h
    subst h
    exact ⟨c, s, rfl⟩

/-! ### One pass and the loop of `expandEnv` -/

theorem replaceAllAux_skip (old new a b : Str) :
    replaceAllAux old new a.length (a ++ b) = replaceAllAux old new 0 b := by
  induction a with
  | nil => rfl
  | cons x a ih =>
    simp only [List.length_cons, List.cons_append]
    rw [replaceAllAux]
    exact ih

theorem replaceAllAux_pass (k new a b : Str) (h : '$' ∉ a) :
    replaceAllAux ('$' :: k) new 0 (a ++ b) = a ++ replaceAllAux ('$' :: k) new 0 b := by
  induction a with
  | nil => rfl
  | cons x a ih =>
    have hx : ('$' == x) = false := by
      simp only [beq_eq_false_iff_ne, ne_eq]
      intro e
      exact h (by rw [e]; exact List.mem_cons_self _ _)
    have ha : '$' ∉ a := fun m => h (List.mem_cons_of_mem _ m)
    simp only [List.cons_append]
    rw [replaceAllAux]
    simp only [List.isPrefixOf, hx, Bool.false_and, Bool.false_eq_true, if_false]
    rw [ih ha]

theorem isPrefixOf_self_append (a b : Str) : a.isPrefixOf (a ++ b) = true := by
  rw [List.isPrefixOf_iff_prefix]
  exact List.prefix_append a b

theorem replaceAllAux_hit (k new b : Str) :
    replaceAllAux ('$' :: k) new 0 ('$' :: k ++ b) =
      new ++ replaceAllAux ('$' :: k) new 0 b := by
  rw [List.cons_append, replaceAllAux]
  have : ('$' :: k).isPrefixOf ('$' :: (k ++ b)) = true := isPrefixOf_self_append ('$' :: k) b
  rw [if_pos this]
  simp only [List.length_cons, Nat.add_sub_cancel]
  rw [replaceAllAux_skip]

theorem replaceAllAux_miss (k k1 new b : Str) (h : k.isPrefixOf (k1 ++ b) = false)
    (h1 : '$' ∉ k1) :
    replaceAllAux ('$' :: k) new 0 ('$' :: k1 ++ b) =
      '$' :: k1 ++ replaceAllAux ('$' :: k) new 0 b := by
  rw [List.cons_append, replaceAllAux]
  simp only [List.isPrefixOf, h, Bool.and_false, Bool.false_eq_true, if_false]
  rw [replaceAllAux_pass k new k1 b h1]
  rfl

theorem replaceAllAux_of_cut_none (old new s : Str) (h : cut old s = none) :
    replaceAllAux old new 0 s = s := by
  induction s with
  | nil => rfl
  | cons c cs ih =>
    rw [cut] at h
    split at h
    · simp at h
    · rename_i hp
      rw [replaceAllAux, if_neg hp]
      rw [ih (by simpa using h)]

theorem expandStep_eq (P : Platform) (path : Str) (kd : Str × Str) :
    expandStep P path kd = replaceAllAux ('$' :: kd.1) (placeholderValue P kd) 0 path := by
  unfold expandStep
  simp only
  split
  · rfl
  · rename_i h
    rw [replaceAllAux_of_cut_none]
    simpa [contains] using h

theorem envDefaults_keys_plain : ∀ kd ∈ envDefaults, '$' ∉ kd.1 := by
  decide

theorem envDefaults_keys_apart (kd kd1 : Str × Str) (h : kd ∈ envDefaults)
    (h1 : kd1 ∈ envDefaults) (hne : kd ≠ kd1) (b : Str) :
    kd.1.isPrefixOf (kd1.1 ++ b) = false := by
  simp only [envDefaults, List.mem_cons, List.mem_singleton, List.not_mem_nil, or_false] at h h1
  rcases h with rfl | rfl | rfl <;> rcases h1 with rfl | rfl | rfl <;>
    first
      | exact absurd rfl hne
      | rfl

theorem replaceAllAux_pieces (P : Platform) (kd : Str × Str) (done : List (Str × Str))
    (ps : List Piece) (hkd : kd ∈ envDefaults) (hok : ∀ p ∈ ps, p.Ok)
    (hv : ∀ kd1 ∈ envDefaults, '$' ∉ placeholderValue P kd1) :
    replaceAllAux ('$' :: kd.1) (placeholderValue P kd) 0
        (ps.flatMap (Piece.textAfter P done)) =
      ps.flatMap (Piece.textAfter P (kd :: done)) := by
  induction ps with
  | nil => rfl
  | cons p ps ih =>
    have ihp := ih (fun q hq => hok q (List.mem_cons_of_mem _ hq))
    have hp := hok p (List.mem_cons_self _ _)
    simp only [List.flatMap_cons]
    cases p with
    | lit s =>
      simp only [Piece.textAfter]
      rw [replaceAllAux_pass _ _ _ _ hp, ihp]
    | var kd1 =>
      simp only [Piece.textAfter]
      by_cases hd : kd1 ∈ done
      · rw [if_pos hd, if_pos (List.mem_cons_of_mem _ hd),
          replaceAllAux_pass _ _ _ _ (hv kd1 hp), ihp]
      · rw [if_neg hd]
        by_cases he : kd1 = kd
        · subst he
          rw [if_pos (List.mem_cons_self _ _), replaceAllAux_hit, ihp]
        · have hn : kd1 ∉ kd :: done := by
            intro m
            rcases List.mem_cons.mp m with m | m
            · exact he m
            · exact hd m
          rw [if_neg hn, replaceAllAux_miss _ _ _ _
            (envDefaults_keys_apart kd kd1 hkd hp (Ne.symm he) _)
            (envDefaults_keys_plain kd1 hp), ihp]

theorem foldl_expandStep_pieces (P : Platform) (ps : List Piece) (hok : ∀ p ∈ ps, p.Ok)
    (hv : ∀ kd1 ∈ envDefaults, '$' ∉ placeholderValue P kd1) :
    ∀ (order done : List (Str × Str)), (∀ kd ∈ order, kd ∈ envDefaults) →
      order.foldl (expandStep P) (ps.flatMap (Piece.textAfter P done)) =
        ps.flatMap (Piece.textAfter P (order.reverse ++ done))
  | [], _, _ => rfl
  | kd :: order, done, h => by
    rw [List.foldl_cons, expandStep_eq,
      replaceAllAux_pieces P kd done ps (h kd (List.mem_cons_self _ _)) hok hv,
      foldl_expandStep_pieces P ps hok hv order (kd :: done)
        (fun k hk => h k (List.mem_cons_of_mem _ hk)),
      List.reverse_cons, List.append_assoc]
    rfl

theorem flatMap_pieces_congr (f g : Piece → Str) (ps : List Piece)
    (h : ∀ p ∈ ps, f p = g p) : ps.flatMap f = ps.flatMap g := by
  induction ps with
  | nil => rfl
  | cons p ps ih =>
    rw [List.flatMap_cons, List.flatMap_cons, h p (List.mem_cons_self _ _),
      ih (fun q hq => h q (List.mem_cons_of_mem _ hq))]

/-- For a template made of texts without `$` and of placeholders, and an
environment in which no substituted value holds a `$`, the loop of `expandEnv`
gives, in every order, the template with each placeholder replaced by its
value. -/
theorem expandEnv_pieces (P : Platform) (ps : List Piece) (hok : ∀ p ∈ ps, p.Ok)
    (hv : ∀ kd ∈ envDefaults, '$' ∉ placeholderValue P kd) :
    expandEnv P (ps.flatMap Piece.text) = ps.flatMap (Piece.value P) := by
  have h0 : ps.flatMap Piece.text = ps.flatMap (Piece.textAfter P []) := by
    apply flatMap_pieces_congr
    intro p _
    cases p <;> rfl
  unfold expandEnv
  rw [h0, foldl_expandStep_pieces P ps hok hv P.envOrder []
    (fun kd hk => (P.envOrder_perm.mem_iff).mp hk)]
  apply flatMap_pieces_congr
  intro p hp
  cases p with
  | lit s => rfl
  | var kd =>
    have hm : kd ∈ P.envOrder.reverse ++ [] := by
      rw [List.append_nil, List.mem_reverse]
      exact (P.envOrder_perm.mem_iff).mpr (hok _ hp)
    simp only [Piece.textAfter, Piece.value]
    rw [if_pos hm]

theorem expandOnceAux_skip (P : Platform) (a b : Str) :
    expandOnceAux P a.length (a ++ b) = expandOnceAux P 0 b := by
  induction a with
  | nil => rfl
  | cons x a ih =>
    simp only [List.length_cons, List.cons_append]
    rw [expandOnceAux]
    exact ih

theorem expandOnceAux_pass (P : Platform) (a b : Str) (h : '$' ∉ a) :
    expandOnceAux P 0 (a ++ b) = a ++ expandOnceAux P 0 b := by
  induction a with
  | nil => rfl
  | cons x a ih =>
    have hx : ('$' == x) = false := by
      simp only [beq_eq_false_iff_ne, ne_eq]
      intro e
      exact h (by rw [e]; exact List.mem_cons_self _ _)
    have ha : '$' ∉ a := fun m => h (List.mem_cons_of_mem _ m)
    have hf : envDefaults.find? (fun kd => ('$' :: kd.1).isPrefixOf (x :: (a ++ b))) = none := by
      rw [List.find?_eq_none]
      intro kd _
      simp only [List.isPrefixOf, hx, Bool.false_and, Bool.false_eq_true, not_false_eq_true]
    simp only [List.cons_append]
    rw [expandOnceAux]
    simp only [hf]
    rw [ih ha]

theorem expandOnceAux_hit (P : Platform) (kd : Str × Str) (h : kd ∈ envDefaults) (b : Str) :
    expandOnceAux P 0 ('$' :: kd.1 ++ b) = placeholderValue P kd ++ expandOnceAux P 0 b := by
  have hf : envDefaults.find? (fun e => ('$' :: e.1).isPrefixOf ('$' :: (kd.1 ++ b))) =
      some kd := by
    simp only [envDefaults, List.mem_cons, List.mem_singleton, List.not_mem_nil, or_false] at h
    rcases h with rfl | rfl | rfl <;>
      simp [envDefaults, List.find?_cons, List.isPrefixOf]
  rw [List.cons_append, expandOnceAux]
  simp only [hf]
  rw [expandOnceAux_skip]

/-- One pass over a template made of texts without `$` and of placeholders
replaces each placeholder by its value. -/
theorem expandOnce_pieces (P : Platform) (ps : List Piece) (hok : ∀ p ∈ ps, p.Ok) :
    expandOnce P (ps.flatMap Piece.text) = ps.flatMap (Piece.value P) := by
  unfold expandOnce
  induction ps with
  | nil => rfl
  | cons p ps ih =>
    have ihp := ih (fun q hq => hok q (List.mem_cons_of_mem _ hq))
    have hp := hok p (List.mem_cons_self _ _)
    simp only [List.flatMap_cons]
    cases p with
    | lit s =>
      simp only [Piece.text, Piece.value]
      rw [expandOnceAux_pass _ _ _ hp, ihp]
    | var kd =>
      simp only [Piece.text, Piece.value]
      rw [expandOnceAux_hit P kd hp, ihp]

/-- Where the code meets C23: for a template made of texts without `$` and of
placeholders, and an environment in which no substituted value holds a `$`,
`expandEnv` gives the result of one pass, whatever the order in which the loop
visits the map. -/
theorem expandEnv_eq_expandOnce (P : Platform) (ps : List Piece) (hok : ∀ p ∈ ps, p.Ok)
    (hv : ∀ kd ∈ envDefaults, '$' ∉ placeholderValue P kd) :
    expandEnv P (ps.flatMap Piece.text) = expandOnce P (ps.flatMap Piece.text) := by
  rw [expandEnv_pieces P ps hok hv, expandOnce_pieces P ps hok]

/-- The template of amp with `HOME=/h` and no other variable set: the loop
gives the result of one pass in source order and in reverse order. -/
theorem expandEnv_eq_expandOnce_amp :
    expandEnv (homePlatform "/h".toList) "$XDG_CONFIG_HOME/agents/skills".toList =
      expandOnce (homePlatform "/h".toList) "$XDG_CONFIG_HOME/agents/skills".toList ∧
    expandEnv (Platform.reversed (homePlatform "/h".toList).getenv [])
        "$XDG_CONFIG_HOME/agents/skills".toList =
      expandOnce (Platform.reversed (homePlatform "/h".toList).getenv [])
        "$XDG_CONFIG_HOME/agents/skills".toList ∧
    expandOnce (homePlatform "/h".toList) "$XDG_CONFIG_HOME/agents/skills".toList =
      "/h/.config/agents/skills".toList :=
  ⟨expandEnv_eq_expandOnce (homePlatform "/h".toList)
      [.var ("XDG_CONFIG_HOME".toList, "~/.config".toList), .lit "/agents/skills".toList]
      (by decide) (by decide),
    expandEnv_eq_expandOnce (Platform.reversed (homePlatform "/h".toList).getenv [])
      [.var ("XDG_CONFIG_HOME".toList, "~/.config".toList), .lit "/agents/skills".toList]
      (by decide) (by decide),
    by decide⟩

/-! ### Calls of one process under different map orders -/

theorem locate_reorder (P Q : Platform) : locate (P.reorder Q) = locate P := rfl

theorem osStat_reorder (P Q : Platform) : osStat (P.reorder Q) = osStat P := rfl

theorem osRemoveAll_reorder (P Q : Platform) : osRemoveAll (P.reorder Q) = osRemoveAll P := rfl

theorem installedVersionAt_reorder (P Q : Platform) :
    installedVersionAt (P.reorder Q) = installedVersionAt P := rfl

theorem versionIn_reorder (P Q : Platform) : versionIn (P.reorder Q) = versionIn P := rfl

theorem removeFrom_reorder (P Q : Platform) (targets : List (Str × List Str)) (s : Str)
    (dirs : List Str) (w : World) (res : List Result) :
    removeFrom (P.reorder Q) targets s dirs w res = removeFrom P targets s dirs w res := by
  induction dirs generalizing w res with
  | nil => rfl
  | cons d rest ih =>
    unfold removeFrom
    simp only [osStat_reorder, osRemoveAll_reorder]
    split
    · rfl
    · exact ih _ _

theorem versionFrom_reorder (P Q : Platform) (s : Str) (dirs : List Str) (w : World) :
    versionFrom (P.reorder Q) s dirs w = versionFrom P s dirs w := by
  induction dirs generalizing w with
  | nil => rfl
  | cons d rest ih =>
    unfold versionFrom
    simp only [installedVersionAt_reorder]
    split
    · rfl
    · exact ih _

theorem Remove_reorder (P Q : Platform) (name : Str) (opts : Options) (w : World)
    (h : resolveTargets (P.reorder Q) opts = resolveTargets P opts) :
    Remove (P.reorder Q) name opts w = Remove P name opts w := by
  unfold Remove
  rw [h]
  simp only [removeFrom_reorder]
  rfl

theorem InstalledVersion_reorder (P Q : Platform) (name : Str) (opts : Options) (w : World)
    (h : resolveTargets (P.reorder Q) opts = resolveTargets P opts) :
    InstalledVersion (P.reorder Q) name opts w = InstalledVersion P name opts w := by
  unfold InstalledVersion
  rw [h]
  simp only [versionFrom_reorder]

theorem resolveTargetsFrom_congr (P P1 : Platform) (opts : Options)
    (h : ∀ a ∈ agents, targetDir P1 opts a = targetDir P opts a) :
    ∀ (names : List Str) (t : List (Str × List Str)),
      resolveTargetsFrom P1 opts names t = resolveTargetsFrom P opts names t
  | [], _ => rfl
  | name :: rest, t => by
    unfold resolveTargetsFrom
    cases ha : agentIndex name with
    | none => rfl
    | some a =>
      simp only
      rw [h a (agentIndex_mem name a ha)]
      exact resolveTargetsFrom_congr P P1 opts h rest _

theorem templatePieces_registry :
    ∀ a ∈ agents, (templatePieces a.globalDir).flatMap Piece.text = a.globalDir ∧
      ∀ p ∈ templatePieces a.globalDir, p.Ok := by
  decide

theorem pieceValue_reorder (P Q : Platform) : Piece.value (P.reorder Q) = Piece.value P := by
  funext p
  cases p <;> rfl

/-- The expansion of a template of the registry does not depend on the order
in which the loop visits the map, when no substituted value holds a `$`. -/
theorem expandEnv_registry (P Q : Platform)
    (hv : ∀ kd ∈ envDefaults, '$' ∉ placeholderValue P kd) (a : agent) (ha : a ∈ agents) :
    expandEnv (P.reorder Q) a.globalDir = expandEnv P a.globalDir := by
  obtain ⟨h1, h2⟩ := templatePieces_registry a ha
  rw [← h1, expandEnv_pieces P _ h2 hv, expandEnv_pieces (P.reorder Q) _ h2 hv,
    pieceValue_reorder]

theorem targetDir_reorder (P Q : Platform) (opts : Options) (h : OrderFree P opts)
    (a : agent) (ha : a ∈ agents) :
    targetDir (P.reorder Q) opts a = targetDir P opts a := by
  unfold targetDir
  rcases h with h | h
  · rw [h]
    rfl
  · split
    · unfold resolvePath
      rw [expandEnv_registry P Q h a ha]
      rfl
    · rfl

/-- In project mode, and in global mode when no substituted value holds a `$`,
every call of one process resolves the agents to the same directories. -/
theorem resolveTargets_reorder (P Q : Platform) (opts : Options) (h : OrderFree P opts) :
    resolveTargets (P.reorder Q) opts = resolveTargets P opts :=
  resolveTargetsFrom_congr P (P.reorder Q) opts (targetDir_reorder P Q opts h) _ _

/-- C8. Reinstall semantics, for a single resolved target directory `D` that
holds no copy of the bundle at first (the state being well-formed), and
manifests whose version field parses to `v1` and `v2`.  The four calls are
made by one process, each under its own iteration order of the maps
(`Platform.reorder`), and each resolves the agents to the directory `D`.  A
successful `Install` of the bundle named `x` with version `v1` reports
`Existed = false` and `PriorVersion = ""` in every result, and
`InstalledVersion x` then returns `v1`; a following successful `Install` of
the bundle named `x` with version `v2` reports `Existed = true` and
`PriorVersion = v1` in every result, and `InstalledVersion x` then returns
`v2`. -/
theorem reinstall_reports_prior_version (P Q1 Q2 Q3 : Platform) (fsys1 fsys2 : SrcNode)
    (opts : Options) (w w1 w2 : World) (rs1 rs2 : List Result)
    (D : Str) (ags : List Str) (x : Str) (F1 F2 : List (Str × Str)) (m1 m2 v1 v2 : Str)
    (hwf1 : fsys1.wf = true) (hwf2 : fsys2.wf = true)
    (hT : resolveTargets P opts = .ok [(D, ags)])
    (hT1 : resolveTargets (P.reorder Q1) opts = .ok [(D, ags)])
    (hT2 : resolveTargets (P.reorder Q2) opts = .ok [(D, ags)])
    (hT3 : resolveTargets (P.reorder Q3) opts = .ok [(D, ags)])
    (hS1 : findSkills P.lowerTable fsys1 = .ok [⟨x, F1⟩])
    (hS2 : findSkills P.lowerTable fsys2 = .ok [⟨x, F2⟩])
    (hm1 : ("SKILL.md".toList, m1) ∈ F1) (hm2 : ("SKILL.md".toList, m2) ∈ F2)
    (hv1 : parseFrontmatterField m1 "version".toList = .ok v1)
    (hv2 : parseFrontmatterField m2 "version".toList = .ok v2)
    (hWF : w.fs.WF) (hnone : w.fs (locate P D ++ [x]) = none)
    (hI1 : Install P fsys1 opts w = (.ok rs1, w1))
    (hI2 : Install (P.reorder Q2) fsys2 opts
      (InstalledVersion (P.reorder Q1) x opts w1).2 = (.ok rs2, w2)) :
    rs1 = ags.map (fun an => ⟨an, filepathJoin D x, false, []⟩) ∧
    (InstalledVersion (P.reorder Q1) x opts w1).1 = .ok v1 ∧
    rs2 = ags.map (fun an => ⟨an, filepathJoin D x, true, v1⟩) ∧
    (InstalledVersion (P.reorder Q3) x opts w2).1 = .ok v2 ∧
    ags ≠ [] := by
  obtain ⟨hx, a2, a3, a4⟩ := Install_single P fsys1 opts w w1 rs1 D ags x F1 m1 v1 hwf1 hT hS1
    hm1 hv1 hI1
  obtain ⟨_, b2, _, b4⟩ := Install_single (P.reorder Q2) fsys2 opts _ w2 rs2 D ags x F2 m2 v2
    hwf2 hT2 hS2 hm2 hv2 hI2
  obtain ⟨c1, c2⟩ := InstalledVersion_single (P.reorder Q1) x opts w1 D ags hT1
  obtain ⟨d1, _⟩ := InstalledVersion_single (P.reorder Q3) x opts w2 D ags hT3
  simp only [versionIn_reorder, locate_reorder] at b2 b4 c1 d1
  rw [c2] at b2
  refine ⟨?_, ?_, ?_, ?_, ?_⟩
  · rw [a2, hnone, versionIn_of_absent P w.fs D x hx (hWF.below_none _ hnone _)]
    rfl
  · rw [c1, a4]
  · rw [b2, a4, Option.isSome_iff_ne_none.mpr a3]
  · rw [d1, b4]
  · obtain ⟨_, _, _, _, _, hA, _⟩ := Install_ok P fsys1 opts w w1 rs1 hI1
    obtain ⟨_, _, hperm, _⟩ := resolveTargets_spec P opts _ hT
    rw [sortedKeys_singleton] at hperm
    simp only [List.flatMap_cons, List.flatMap_nil, List.append_nil, mapGet_cons_self]
      at hperm
    intro e
    rw [e] at hperm
    exact hA hperm.nil_eq.symm

theorem reinstall_reports_prior_version_witness :
    (Install (homePlatform "/h".toList) (skillFSVersioned "x".toList "1.0".toList)
        ⟨["claude-code".toList], [], true⟩ emptyWorld).1 =
      .ok [⟨"claude-code".toList, "/h/.claude/skills/x".toList, false, []⟩] ∧
    (Install ((homePlatform "/h".toList).reorder plainPlatform)
        (skillFSVersioned "x".toList "2.0".toList) ⟨["claude-code".toList], [], true⟩
        (InstalledVersion ((homePlatform "/h".toList).reorder reversedOrders) "x".toList
          ⟨["claude-code".toList], [], true⟩
          (Install (homePlatform "/h".toList) (skillFSVersioned "x".toList "1.0".toList)
            ⟨["claude-code".toList], [], true⟩ emptyWorld).2).2).1 =
      .ok [⟨"claude-code".toList, "/h/.claude/skills/x".toList, true, "1.0".toList⟩] ∧
    ([⟨"claude-code".toList, "/h/.claude/skills/x".toList, false, []⟩] =
        ["claude-code".toList].map
          (fun an => (⟨an, filepathJoin "/h/.claude/skills".toList "x".toList, false, []⟩ :
            Result)) ∧
      (InstalledVersion ((homePlatform "/h".toList).reorder reversedOrders) "x".toList
          ⟨["claude-code".toList], [], true⟩
          (Install (homePlatform "/h".toList) (skillFSVersioned "x".toList "1.0".toList)
            ⟨["claude-code".toList], [], true⟩ emptyWorld).2).1 =
        .ok "1.0".toList ∧
      [⟨"claude-code".toList, "/h/.claude/skills/x".toList, true, "1.0".toList⟩] =
        ["claude-code".toList].map
          (fun an => (⟨an, filepathJoin "/h/.claude/skills".toList "x".toList, true,
            "1.0".toList⟩ : Result)) ∧
      (InstalledVersion ((homePlatform "/h".toList).reorder reversedOrders) "x".toList
          ⟨["claude-code".toList], [], true⟩
          (Install ((homePlatform "/h".toList).reorder plainPlatform)
            (skillFSVersioned "x".toList "2.0".toList) ⟨["claude-code".toList], [], true⟩
            (InstalledVersion ((homePlatform "/h".toList).reorder reversedOrders) "x".toList
              ⟨["claude-code".toList], [], true⟩
              (Install (homePlatform "/h".toList) (skillFSVersioned "x".toList "1.0".toList)
                ⟨["claude-code".toList], [], true⟩ emptyWorld).2).2).2).1 =
        .ok "2.0".toList ∧
      ["claude-code".toList] ≠ []) :=
  have h := reinstall_reports_prior_version (homePlatform "/h".toList) reversedOrders
    plainPlatform reversedOrders
    (skillFSVersioned "x".toList "1.0".toList) (skillFSVersioned "x".toList "2.0".toList)
    ⟨["claude-code".toList], [], true⟩ emptyWorld
    (Install (homePlatform "/h".toList) (skillFSVersioned "x".toList "1.0".toList)
      ⟨["claude-code".toList], [], true⟩ emptyWorld).2
    (Install ((homePlatform "/h".toList).reorder plainPlatform)
      (skillFSVersioned "x".toList "2.0".toList) ⟨["claude-code".toList], [], true⟩
      (InstalledVersion ((homePlatform "/h".toList).reorder reversedOrders) "x".toList
        ⟨["claude-code".toList], [], true⟩
        (Install (homePlatform "/h".toList) (skillFSVersioned "x".toList "1.0".toList)
          ⟨["claude-code".toList], [], true⟩ emptyWorld).2).2).2
    [⟨"claude-code".toList, "/h/.claude/skills/x".toList, false, []⟩]
    [⟨"claude-code".toList, "/h/.claude/skills/x".toList, true, "1.0".toList⟩]
    "/h/.claude/skills".toList ["claude-code".toList] "x".toList
    [("SKILL.md".toList, manifestText "x".toList "1.0".toList)]
    [("SKILL.md".toList, manifestText "x".toList "2.0".toList)]
    (manifestText "x".toList "1.0".toList) (manifestText "x".toList "2.0".toList)
    "1.0".toList "2.0".toList
    (by decide) (by decide) (by decide) (by decide) (by decide) (by decide) (by decide)
    (by decide) (by decide) (by decide) (by decide) (by decide) emptyFS_wf (by decide)
    (Prod.ext (by decide) rfl) (Prod.ext (by decide) rfl)
  ⟨by decide, by decide, h⟩

/-- What `Remove` does, both calls taken under one iteration order of the
maps.  For a well-formed state of the file system, a non-empty name and a
non-empty list of registered agents, in project mode, or in global mode when
the bundle locations do not lie within one another: `Remove` succeeds; the
result of every identifier filed under the directory `D` has `Existed` true
exactly if `D/sanitizeName(name)` existed before the call, and an empty
`PriorVersion`; after the call nothing exists at or below any
`D/sanitizeName(name)`, and every location outside the bundle directories that
existed is as before; when none existed the file system is unchanged, and a
second `Remove` reports `Existed = false` everywhere and changes nothing. -/
theorem Remove_same_order (P : Platform) (name : Str) (opts : Options) (w : World)
    (hA : opts.Agents ≠ []) (hn : name ≠ [])
    (hreg : ∀ a ∈ opts.Agents, agentIndex a ≠ none)
    (hwf : w.fs.WF)
    (hap : opts.Global = false ∨ BundlesApart P opts [sanitizeName P.lowerTable name]) :
    ∃ res w', Remove P name opts w = (.ok res, w') ∧
      res = (targetKeys P opts).flatMap (fun D => (agentsAt P opts D).map
        (fun an => ⟨an, filepathJoin D (sanitizeName P.lowerTable name),
          (w.fs (locate P D ++ [sanitizeName P.lowerTable name])).isSome, []⟩)) ∧
      (∀ D ∈ targetKeys P opts,
        locate P (filepathJoin D (sanitizeName P.lowerTable name)) =
          locate P D ++ [sanitizeName P.lowerTable name] ∧
        ∀ q, (locate P D ++ [sanitizeName P.lowerTable name]) <+: q → w'.fs q = none) ∧
      (∀ q, (∀ D ∈ targetKeys P opts,
          w.fs (locate P D ++ [sanitizeName P.lowerTable name]) ≠ none →
          ¬ (locate P D ++ [sanitizeName P.lowerTable name]) <+: q) →
        w'.fs q = w.fs q) ∧
      ((∀ D ∈ targetKeys P opts,
          w.fs (locate P D ++ [sanitizeName P.lowerTable name]) = none) → w'.fs = w.fs) ∧
      ∃ res2 w2, Remove P name opts w' = (.ok res2, w2) ∧
        (∀ r ∈ res2, r.Existed = false) ∧ w2.fs = w'.fs := by
  replace hap : BundlesApart P opts [sanitizeName P.lowerTable name] :=
    hap.elim (bundlesApart_project P opts _) id
  obtain ⟨targets, ht⟩ := resolveTargetsFrom_known P opts opts.Agents [] hreg
  obtain ⟨res, w', h1, hwf', h2, h3, h4⟩ := Remove_sem P name opts w targets hA hn ht hwf hap
  obtain ⟨res2, w2, g1, _, g2, _, g4⟩ := Remove_sem P name opts w' targets hA hn ht hwf' hap
  have hs := validName_sanitizeName P.lowerTable name
  refine ⟨res, w', h1, h2, ?_, h4, ?_, res2, w2, g1, ?_, ?_⟩
  · intro D hD
    exact ⟨locate_join_name P D _ hs, h3 D hD⟩
  · intro hall
    funext q
    exact h4 q (fun D hD hne => absurd (hall D hD) hne)
  · intro r hr
    rw [g2] at hr
    obtain ⟨D, hD, hr⟩ := List.mem_flatMap.mp hr
    obtain ⟨an, _, rfl⟩ := List.mem_map.mp hr
    simp only
    rw [h3 D hD _ (List.prefix_refl _)]
    rfl
  · funext q
    exact g4 q (fun D hD hne => absurd (h3 D hD _ (List.prefix_refl _)) hne)

/-- `Install` and then `Remove`, both calls taken under one iteration order
of the maps.  For a well-formed tree whose bundles have distinct names, in
project mode, or in global mode for bundle locations none of which lies at or
below another, and a well-formed state: after a successful `Install`, for
every bundle with a non-empty file map whose manifest declares the name `n`,
`Remove(n, opts)` succeeds and reports `Existed = true` in every result, one
result for every identifier; every target bundle directory existed after the
`Install`, and after the `Remove` nothing exists at or below it. -/
theorem Install_Remove_same_order (P : Platform) (fsys : SrcNode) (opts : Options)
    (w w1 : World) (rs : List Result) (skills : List skillEntry) (s : skillEntry) (n : Str)
    (hwf : fsys.wf = true) (hS : findSkills P.lowerTable fsys = .ok skills)
    (hs : s ∈ skills) (hn : n ≠ []) (hname : s.name = sanitizeName P.lowerTable n)
    (hfiles : s.files ≠ [])
    (hnames : (skills.map (fun s => s.name)).Nodup)
    (hap : opts.Global = false ∨ BundlesApart P opts (skills.map (fun s => s.name)))
    (hWF : w.fs.WF) (hI : Install P fsys opts w = (.ok rs, w1)) :
    ∃ res w2, Remove P n opts w1 = (.ok res, w2) ∧
      (∀ r ∈ res, r.Existed = true) ∧
      (res.map (fun r => r.Agent)).Perm opts.Agents ∧
      (∀ D ∈ targetKeys P opts,
        locate P (filepathJoin D s.name) = locate P D ++ [s.name] ∧
        w1.fs (locate P D ++ [s.name]) ≠ none ∧
        ∀ q, (locate P D ++ [s.name]) <+: q → w2.fs q = none) := by
  replace hap : BundlesApart P opts (skills.map (fun s => s.name)) :=
    hap.elim (bundlesApart_project P opts _) id
  obtain ⟨skills', targets, h1, _, h3, hA, h5⟩ := Install_ok P fsys opts w w1 rs hI
  rw [hS] at h1
  cases h1
  have hok := findSkills_entries_ok P.lowerTable fsys hwf skills hS
  have hWF1 : w1.fs.WF := wf_installAll P targets skills (fun s' hs' => (hok s' hs').1)
    w [] rs w1 hWF h5
  have hmem : s.name ∈ skills.map (fun s => s.name) := List.mem_map.mpr ⟨s, hs, rfl⟩
  have hap1 : BundlesApart P opts [sanitizeName P.lowerTable n] := by
    intro n1 hn1 D1 hD1 n2 hn2 D2 hD2 hne
    rw [List.mem_singleton] at hn1 hn2
    subst hn1 hn2
    rw [← hname] at hne ⊢
    exact hap _ hmem D1 hD1 _ hmem D2 hD2 hne
  obtain ⟨res, w2, r1, _, r2, r3, _⟩ := Remove_sem P n opts w1 targets hA hn h3 hWF1 hap1
  have hexists : ∀ D ∈ targetKeys P opts, w1.fs (locate P D ++ [s.name]) ≠ none := by
    intro D hD
    have hD' : D ∈ sortedKeys targets := by rw [← targetKeys_eq P opts targets h3]; exact hD
    refine (installAll_sem P targets skills hok hnames w [] rs w1 h5
      (sortedKeys_nodup_of_resolve P opts targets h3) s hs D hD' ?_).1 hfiles
    intro s' hs' D' hD'' hne
    have m1 : s'.name ∈ skills.map (fun s => s.name) := List.mem_map.mpr ⟨s', hs', rfl⟩
    have k1 : D' ∈ targetKeys P opts := by rw [targetKeys_eq P opts targets h3]; exact hD''
    exact ⟨hap _ m1 D' k1 _ hmem D hD hne, hap _ hmem D hD _ m1 D' k1 (Ne.symm hne)⟩
  refine ⟨res, w2, r1, ?_, ?_, ?_⟩
  · intro r hr
    rw [r2] at hr
    obtain ⟨D, hD, hr⟩ := List.mem_flatMap.mp hr
    obtain ⟨an, _, rfl⟩ := List.mem_map.mp hr
    simp only
    rw [← hname]
    exact Option.isSome_iff_ne_none.mpr (hexists D hD)
  · obtain ⟨_, _, hperm, _⟩ := resolveTargets_spec P opts targets h3
    rw [r2, targetKeys_eq P opts targets h3]
    have e : List.map (fun r => r.Agent) ((sortedKeys targets).flatMap (fun D =>
        (agentsAt P opts D).map (fun an => (⟨an, filepathJoin D (sanitizeName P.lowerTable n),
          (w1.fs (locate P D ++ [sanitizeName P.lowerTable n])).isSome, []⟩ : Result)))) =
        (sortedKeys targets).flatMap (mapGet targets) := by
      rw [List.map_flatMap]
      apply List.flatMap_congr
      intro D _
      rw [List.map_map, resolveTargets_mapGet P opts targets h3]
      exact List.map_id _
    rw [e]
    exact hperm
  · intro D hD
    refine ⟨locate_join_name P D s.name (hok s hs).1, hexists D hD, ?_⟩
    rw [hname]
    exact r3 D hD

/-- The parts of C12 that hold, the second call made under its own iteration
order of the maps.  For a well-formed state of the file system, a non-empty
name and a non-empty list of registered agents, in project mode, or in global
mode when the bundle locations do not lie within one another and the second
call resolves the agents as the first did: `Remove` succeeds; the result of
every identifier filed under the directory `D` has `Existed` true exactly if
`D/sanitizeName(name)` existed before the call, and an empty `PriorVersion`;
after the call nothing exists at or below any `D/sanitizeName(name)`, and
every location outside the bundle directories that existed is as before; when
none existed the file system is unchanged, and a second `Remove` reports
`Existed = false` everywhere and changes nothing. -/
theorem Remove_reports_existence (P Q : Platform) (name : Str) (opts : Options) (w : World)
    (hA : opts.Agents ≠ []) (hn : name ≠ [])
    (hreg : ∀ a ∈ opts.Agents, agentIndex a ≠ none)
    (hwf : w.fs.WF)
    (hap : opts.Global = false ∨
      (BundlesApart P opts [sanitizeName P.lowerTable name] ∧
        resolveTargets (P.reorder Q) opts = resolveTargets P opts)) :
    ∃ res w', Remove P name opts w = (.ok res, w') ∧
      res = (targetKeys P opts).flatMap (fun D => (agentsAt P opts D).map
        (fun an => ⟨an, filepathJoin D (sanitizeName P.lowerTable name),
          (w.fs (locate P D ++ [sanitizeName P.lowerTable name])).isSome, []⟩)) ∧
      (∀ D ∈ targetKeys P opts,
        locate P (filepathJoin D (sanitizeName P.lowerTable name)) =
          locate P D ++ [sanitizeName P.lowerTable name] ∧
        ∀ q, (locate P D ++ [sanitizeName P.lowerTable name]) <+: q → w'.fs q = none) ∧
      (∀ q, (∀ D ∈ targetKeys P opts,
          w.fs (locate P D ++ [sanitizeName P.lowerTable name]) ≠ none →
          ¬ (locate P D ++ [sanitizeName P.lowerTable name]) <+: q) →
        w'.fs q = w.fs q) ∧
      ((∀ D ∈ targetKeys P opts,
          w.fs (locate P D ++ [sanitizeName P.lowerTable name]) = none) → w'.fs = w.fs) ∧
      ∃ res2 w2, Remove (P.reorder Q) name opts w' = (.ok res2, w2) ∧
        (∀ r ∈ res2, r.Existed = false) ∧ w2.fs = w'.fs := by
  have hres : resolveTargets (P.reorder Q) opts = resolveTargets P opts :=
    hap.elim (fun h => resolveTargets_reorder P Q opts (Or.inl h)) (fun h => h.2)
  obtain ⟨res, w', h1, h2, h3, h4, h5, res2, w2, h6, h7⟩ :=
    Remove_same_order P name opts w hA hn hreg hwf (hap.imp id (fun h => h.1))
  refine ⟨res, w', h1, h2, h3, h4, h5, res2, w2, ?_, h7⟩
  rw [Remove_reorder P Q name opts w' hres]
  exact h6

theorem Remove_reports_existence_witness :
    ∃ res w', Remove (homePlatform "/h".toList) "x".toList
        ⟨["claude-code".toList, "cursor".toList], [], true⟩ emptyWorld = (.ok res, w') ∧
      res = (targetKeys (homePlatform "/h".toList)
          ⟨["claude-code".toList, "cursor".toList], [], true⟩).flatMap
        (fun D => (agentsAt (homePlatform "/h".toList)
            ⟨["claude-code".toList, "cursor".toList], [], true⟩ D).map
          (fun an => ⟨an,
            filepathJoin D (sanitizeName (homePlatform "/h".toList).lowerTable "x".toList),
            (emptyWorld.fs (locate (homePlatform "/h".toList) D ++
              [sanitizeName (homePlatform "/h".toList).lowerTable "x".toList])).isSome, []⟩)) ∧
      (∀ D ∈ targetKeys (homePlatform "/h".toList)
          ⟨["claude-code".toList, "cursor".toList], [], true⟩,
        locate (homePlatform "/h".toList)
            (filepathJoin D (sanitizeName (homePlatform "/h".toList).lowerTable "x".toList)) =
          locate (homePlatform "/h".toList) D ++
            [sanitizeName (homePlatform "/h".toList).lowerTable "x".toList] ∧
        ∀ q, (locate (homePlatform "/h".toList) D ++
            [sanitizeName (homePlatform "/h".toList).lowerTable "x".toList]) <+: q →
          w'.fs q = none) ∧
      (∀ q, (∀ D ∈ targetKeys (homePlatform "/h".toList)
            ⟨["claude-code".toList, "cursor".toList], [], true⟩,
          emptyWorld.fs (locate (homePlatform "/h".toList) D ++
            [sanitizeName (homePlatform "/h".toList).lowerTable "x".toList]) ≠ none →
          ¬ (locate (homePlatform "/h".toList) D ++
            [sanitizeName (homePlatform "/h".toList).lowerTable "x".toList]) <+: q) →
        w'.fs q = emptyWorld.fs q) ∧
      ((∀ D ∈ targetKeys (homePlatform "/h".toList)
            ⟨["claude-code".toList, "cursor".toList], [], true⟩,
          emptyWorld.fs (locate (homePlatform "/h".toList) D ++
            [sanitizeName (homePlatform "/h".toList).lowerTable "x".toList]) = none) →
        w'.fs = emptyWorld.fs) ∧
      ∃ res2 w2, Remove ((homePlatform "/h".toList).reorder reversedOrders) "x".toList
          ⟨["claude-code".toList, "cursor".toList], [], true⟩ w' = (.ok res2, w2) ∧
        (∀ r ∈ res2, r.Existed = false) ∧ w2.fs = w'.fs :=
  Remove_reports_existence (homePlatform "/h".toList) reversedOrders "x".toList
    ⟨["claude-code".toList, "cursor".toList], [], true⟩ emptyWorld
    (by decide) (by decide) (by decide) emptyFS_wf (Or.inr ⟨by decide, by decide⟩)

/-- C13, amended.  For a well-formed tree whose bundles have distinct names,
in project mode, or in global mode for bundle locations none of which lies at
or below another and agents that `Remove` resolves to the directories to which
`Install` resolved them, and a well-formed state: after a successful
`Install`, for every bundle with a non-empty file map whose manifest declares
the name `n`, `Remove(n, opts)` with the same options, made by the same
process under its own iteration order of the maps (`Platform.reorder`),
succeeds and reports `Existed = true` in every result, one result for every
identifier; every target bundle directory existed after the `Install`, and
after the `Remove` nothing exists at or below it. -/
theorem Install_Remove_no_residue (P Q : Platform) (fsys : SrcNode) (opts : Options)
    (w w1 : World) (rs : List Result) (skills : List skillEntry) (s : skillEntry) (n : Str)
    (hwf : fsys.wf = true) (hS : findSkills P.lowerTable fsys = .ok skills)
    (hs : s ∈ skills) (hn : n ≠ []) (hname : s.name = sanitizeName P.lowerTable n)
    (hfiles : s.files ≠ [])
    (hnames : (skills.map (fun s => s.name)).Nodup)
    (hap : opts.Global = false ∨
      (BundlesApart P opts (skills.map (fun s => s.name)) ∧
        resolveTargets (P.reorder Q) opts = resolveTargets P opts))
    (hWF : w.fs.WF) (hI : Install P fsys opts w = (.ok rs, w1)) :
    ∃ res w2, Remove (P.reorder Q) n opts w1 = (.ok res, w2) ∧
      (∀ r ∈ res, r.Existed = true) ∧
      (res.map (fun r => r.Agent)).Perm opts.Agents ∧
      (∀ D ∈ targetKeys P opts,
        locate P (filepathJoin D s.name) = locate P D ++ [s.name] ∧
        w1.fs (locate P D ++ [s.name]) ≠ none ∧
        ∀ q, (locate P D ++ [s.name]) <+: q → w2.fs q = none) := by
  have hres : resolveTargets (P.reorder Q) opts = resolveTargets P opts :=
    hap.elim (fun h => resolveTargets_reorder P Q opts (Or.inl h)) (fun h => h.2)
  rw [Remove_reorder P Q n opts w1 hres]
  exact Install_Remove_same_order P fsys opts w w1 rs skills s n hwf hS hs hn hname hfiles
    hnames (hap.imp id (fun h => h.1)) hWF hI

theorem Install_Remove_no_residue_witness :
    ∃ res w2, Remove ((homePlatform "/h".toList).reorder reversedOrders) "x".toList
        ⟨["claude-code".toList, "cursor".toList], [], true⟩
        (Install (homePlatform "/h".toList) exampleTree
          ⟨["claude-code".toList, "cursor".toList], [], true⟩ emptyWorld).2 =
          (.ok res, w2) ∧
      (∀ r ∈ res, r.Existed = true) ∧
      (res.map (fun r => r.Agent)).Perm ["claude-code".toList, "cursor".toList] ∧
      (∀ D ∈ targetKeys (homePlatform "/h".toList)
          ⟨["claude-code".toList, "cursor".toList], [], true⟩,
        locate (homePlatform "/h".toList) (filepathJoin D exampleBundle.name) =
          locate (homePlatform "/h".toList) D ++ [exampleBundle.name] ∧
        (Install (homePlatform "/h".toList) exampleTree
          ⟨["claude-code".toList, "cursor".toList], [], true⟩ emptyWorld).2.fs
            (locate (homePlatform "/h".toList) D ++ [exampleBundle.name]) ≠ none ∧
        ∀ q, (locate (homePlatform "/h".toList) D ++ [exampleBundle.name]) <+: q →
          w2.fs q = none) :=
  Install_Remove_no_residue (homePlatform "/h".toList) reversedOrders exampleTree
    ⟨["claude-code".toList, "cursor".toList], [], true⟩ emptyWorld
    (Install (homePlatform "/h".toList) exampleTree
      ⟨["claude-code".toList, "cursor".toList], [], true⟩ emptyWorld).2
    [⟨"claude-code".toList, "/h/.claude/skills/x".toList, false, []⟩,
     ⟨"cursor".toList, "/h/.cursor/skills/x".toList, false, []⟩]
    [exampleBundle] exampleBundle "x".toList
    (by decide) (by decide) (by decide) (by decide) (by decide) (by decide) (by decide)
    (Or.inr ⟨by decide, by decide⟩) emptyFS_wf (Prod.ext (by decide) rfl)

/-- C6, failing input. With `XDG_CONFIG_HOME=/h/.config/` the agents replit and
kimi-cli resolve to the texts `/h/.config//agents/skills` and
`/h/.config/agents/skills`, which name one directory: `resolveTargets` has two
keys for it.  Both results carry the path `/h/.config/agents/skills/x`, and
`Install` removes and writes that bundle directory twice; the result of
kimi-cli says that the bundle existed before the call. -/
theorem Install_writes_directory_twice :
    resolveTargets (Platform.simple aliasEnv [])
        ⟨["kimi-cli".toList, "replit".toList], [], true⟩ =
      .ok [("/h/.config/agents/skills".toList, ["kimi-cli".toList]),
           ("/h/.config//agents/skills".toList, ["replit".toList])] ∧
    locate (Platform.simple aliasEnv []) "/h/.config//agents/skills".toList =
      locate (Platform.simple aliasEnv []) "/h/.config/agents/skills".toList ∧
    (Install (Platform.simple aliasEnv []) (skillFS "x".toList)
        ⟨["kimi-cli".toList, "replit".toList], [], true⟩ emptyWorld).1 =
      .ok [⟨"replit".toList, "/h/.config/agents/skills/x".toList, false, []⟩,
           ⟨"kimi-cli".toList, "/h/.config/agents/skills/x".toList, true, []⟩] ∧
    (Install (Platform.simple aliasEnv []) (skillFS "x".toList)
        ⟨["kimi-cli".toList, "replit".toList], [], true⟩ emptyWorld).2.log =
      [.stat "/h/.config/agents/skills/x".toList,
       .readFile "/h/.config/agents/skills/x/SKILL.md".toList,
       .removeAll "/h/.config/agents/skills/x".toList,
       .mkdirAll "/h/.config/agents/skills/x".toList,
       .writeFile "/h/.config/agents/skills/x/SKILL.md".toList (manifestText "x".toList []),
       .stat "/h/.config/agents/skills/x".toList,
       .readFile "/h/.config/agents/skills/x/SKILL.md".toList,
       .removeAll "/h/.config/agents/skills/x".toList,
       .mkdirAll "/h/.config/agents/skills/x".toList,
       .writeFile "/h/.config/agents/skills/x/SKILL.md".toList
         (manifestText "x".toList [])] := by
  decide

end Instill
